import Mathlib

/-!
S-expressions: value model, reader and printer of `sexp.c`

A shallow embedding of `src/sexp.c` and theorems about it.

Conventions of the embedding.

* A byte (`char`) is a `Nat`; character constants are written as their codes
  (`'"'` is 34, `'\\'` is 92, `'('` is 40, ...).
* A `const char*` is the list of the bytes of memory that start at the pointer.
  Reading at or past the end of the list yields 0, so every list is a
  NUL-terminated buffer; bytes that follow the first 0 are memory that lies
  behind the terminator of the C string. Offsets into a buffer are `Nat`.
* A `sexp_t*` is a `Sexp`; the constructor `Sexp.null` is the `NULL` pointer.
* A function that may fail to return normally (a failed `assert`, `die`, a
  cast applied to the wrong variant, a loop that ran out of fuel, the use of a
  block of memory after `realloc` was called on it and the pointer that
  `realloc` returned was dropped, an `int` counter that overflows) returns an
  `Option`, `none` standing for "no normal return".
* `size_t` and pointer differences are unbounded (`Nat`, `Int`). An `int` that
  is assigned a `size_t` or a pointer difference holds that number wrapped to
  32 bits (`to_int`). The factor `newcap *= 1.5` is the truncated product
  `newcap * 3 / 2`.
* `strtod` and the `%lg` conversion of `asprintf` belong to the C library, not
  to this repository; they are parameters of the reader and of the printer.
-/

namespace SexpC

/-! ## Memory helpers -/

/-- The byte `*s` at the head of the memory `s` (0 past the end). -/
def peek (s : List Nat) : Nat := s.headD 0

/-- The conversion of a `size_t` or of a pointer difference to `int`: the number
wrapped to 32 bits, two's complement. -/
def to_int (n : Int) : Int := (n + 2147483648) % 4294967296 - 2147483648

/-- The `n` bytes that `memcpy` reads from `s`. -/
def mem_take : List Nat → Nat → List Nat
  | _, 0 => []
  | [], n + 1 => 0 :: mem_take [] n
  | c :: cs, n + 1 => c :: mem_take cs n

/-- The length `strlen(s)` of the C string at `s`. -/
def strlen : List Nat → Nat
  | [] => 0
  | c :: cs => if c = 0 then 0 else strlen cs + 1

/-- The bytes of the C string at `s`, without the terminator. -/
def cstr : List Nat → List Nat
  | [] => []
  | c :: cs => if c = 0 then [] else c :: cstr cs

/-- The test `strcmp(a, b) == 0`. -/
def strcmp_eq : List Nat → List Nat → Bool
  | [], [] => true
  | [], b :: _ => b == 0
  | a :: _, [] => a == 0
  | a :: as, b :: bs => if a != b then false else if a == 0 then true else strcmp_eq as bs

/-- The memory `dst` after the bytes `bs` were stored at its start. -/
def store (dst : List Nat) (bs : List Nat) : List Nat := bs ++ dst.drop bs.length

/-- The loop `while (newcap < capacity) newcap *= 1.5;` of `sexp_list_ensure_size`
and of `printer_ensure`. -/
def grow_loop : Nat → Nat → Nat → Option Nat
  | 0, _, _ => none
  | fuel + 1, newcap, capacity =>
    if newcap < capacity then grow_loop fuel (newcap * 3 / 2) capacity else some newcap

/-! ## Value model -/

/-- The tagged union `sexp_t` behind a `sexp_t*`: `null` is `NULL`, a string or
symbol has its `len` and the memory `val`, a list its `len`, `cap` and the
storage `elements`. -/
inductive Sexp (α : Type) where
  | null : Sexp α
  | string (len : Nat) (val : List Nat) : Sexp α
  | symbol (len : Nat) (val : List Nat) : Sexp α
  | number (val : α) : Sexp α
  | list (len cap : Nat) (elements : List (Sexp α)) : Sexp α

mutual
/-- Equality of values is decidable (used to evaluate examples). -/
def Sexp.decEq {α : Type} [DecidableEq α] : (a b : Sexp α) → Decidable (a = b)
  | .null, .null => isTrue rfl
  | .string l1 v1, .string l2 v2 =>
    if h : l1 = l2 ∧ v1 = v2 then isTrue (by rw [h.1, h.2]) else isFalse (by intro e; cases e; exact h ⟨rfl, rfl⟩)
  | .symbol l1 v1, .symbol l2 v2 =>
    if h : l1 = l2 ∧ v1 = v2 then isTrue (by rw [h.1, h.2]) else isFalse (by intro e; cases e; exact h ⟨rfl, rfl⟩)
  | .number x, .number y =>
    if h : x = y then isTrue (by rw [h]) else isFalse (by intro e; cases e; exact h rfl)
  | .list l1 c1 e1, .list l2 c2 e2 =>
    match Sexp.decEqList e1 e2 with
    | isTrue he => if h : l1 = l2 ∧ c1 = c2 then isTrue (by rw [h.1, h.2, he]) else isFalse (by intro e; cases e; exact h ⟨rfl, rfl⟩)
    | isFalse he => isFalse (by intro e; cases e; exact he rfl)
  | .null, .string _ _ => isFalse (by intro e; cases e)
  | .null, .symbol _ _ => isFalse (by intro e; cases e)
  | .null, .number _ => isFalse (by intro e; cases e)
  | .null, .list _ _ _ => isFalse (by intro e; cases e)
  | .string _ _, .null => isFalse (by intro e; cases e)
  | .string _ _, .symbol _ _ => isFalse (by intro e; cases e)
  | .string _ _, .number _ => isFalse (by intro e; cases e)
  | .string _ _, .list _ _ _ => isFalse (by intro e; cases e)
  | .symbol _ _, .null => isFalse (by intro e; cases e)
  | .symbol _ _, .string _ _ => isFalse (by intro e; cases e)
  | .symbol _ _, .number _ => isFalse (by intro e; cases e)
  | .symbol _ _, .list _ _ _ => isFalse (by intro e; cases e)
  | .number _, .null => isFalse (by intro e; cases e)
  | .number _, .string _ _ => isFalse (by intro e; cases e)
  | .number _, .symbol _ _ => isFalse (by intro e; cases e)
  | .number _, .list _ _ _ => isFalse (by intro e; cases e)
  | .list _ _ _, .null => isFalse (by intro e; cases e)
  | .list _ _ _, .string _ _ => isFalse (by intro e; cases e)
  | .list _ _ _, .symbol _ _ => isFalse (by intro e; cases e)
  | .list _ _ _, .number _ => isFalse (by intro e; cases e)
/-- Equality of storages is decidable. -/
def Sexp.decEqList {α : Type} [DecidableEq α] : (a b : List (Sexp α)) → Decidable (a = b)
  | [], [] => isTrue rfl
  | [], _ :: _ => isFalse (by intro e; cases e)
  | _ :: _, [] => isFalse (by intro e; cases e)
  | x :: xs, y :: ys =>
    match Sexp.decEq x y, Sexp.decEqList xs ys with
    | isTrue h1, isTrue h2 => isTrue (by rw [h1, h2])
    | isFalse h1, _ => isFalse (by intro e; cases e; exact h1 rfl)
    | _, isFalse h2 => isFalse (by intro e; cases e; exact h2 rfl)
end
instance {α : Type} [DecidableEq α] : DecidableEq (Sexp α) := Sexp.decEq

/-- The constructor `sexp_new_string_len(s, len)`; `none` is `s == NULL`. -/
def sexp_new_string_len {α : Type} (s : Option (List Nat)) (len : Nat) : Sexp α :=
  match s with
  | none => .null
  | some m => .string len (mem_take m len ++ [0])

/-- The constructor `sexp_new_string(s)`. -/
def sexp_new_string {α : Type} (s : List Nat) : Sexp α :=
  sexp_new_string_len (some s) (strlen s)

/-- The constructor `sexp_new_symbol_len(s, len)`; `none` is `s == NULL`. -/
def sexp_new_symbol_len {α : Type} (s : Option (List Nat)) (len : Nat) : Sexp α :=
  match s with
  | none => .null
  | some m => .symbol len (mem_take m len ++ [0])

/-- The constructor `sexp_new_symbol(s)`. -/
def sexp_new_symbol {α : Type} (s : List Nat) : Sexp α :=
  sexp_new_symbol_len (some s) (strlen s)

/-- The constructor `sexp_new_number(num)`. -/
def sexp_new_number {α : Type} (num : α) : Sexp α := .number num

/-- The predicate `sexp_is_string`. -/
def sexp_is_string {α : Type} : Sexp α → Bool
  | .string _ _ => true
  | _ => false

/-- The predicate `sexp_is_symbol`. -/
def sexp_is_symbol {α : Type} : Sexp α → Bool
  | .symbol _ _ => true
  | _ => false

/-- The predicate `sexp_is_number`. -/
def sexp_is_number {α : Type} : Sexp α → Bool
  | .number _ => true
  | _ => false

/-- The predicate `sexp_is_list`. -/
def sexp_is_list {α : Type} : Sexp α → Bool
  | .list _ _ _ => true
  | _ => false

/-- The accessor `sexp_string_length` (a cast: defined on strings only). -/
def sexp_string_length {α : Type} : Sexp α → Option Nat
  | .string len _ => some len
  | _ => none

/-- The accessor `sexp_symbol_length` (a cast: defined on symbols only). -/
def sexp_symbol_length {α : Type} : Sexp α → Option Nat
  | .symbol len _ => some len
  | _ => none

/-- The comparison `sexp_symbol_eq(e, ref)`: `strcmp(val, ref) == 0`. -/
def sexp_symbol_eq {α : Type} (e : Sexp α) (ref : List Nat) : Option Bool :=
  match e with
  | .symbol _ val => some (strcmp_eq val ref)
  | _ => none

/-- The constructor `sexp_new_list()`. -/
def sexp_new_list {α : Type} : Sexp α := .list 0 0 []

/-- The helper `sexp_list_ensure_size(list, capacity)` on the fields `cap` and
`elements` of a list: the new `cap` and the reallocated storage (the slots that
`realloc` adds hold `NULL` here). -/
def sexp_list_ensure_size {α : Type} (cap : Nat) (elements : List (Sexp α)) (capacity : Nat) :
    Option (Nat × List (Sexp α)) :=
  if cap < capacity then
    match grow_loop (capacity + 1) (if cap < 2 then 2 else cap) capacity with
    | none => none
    | some newcap => some (newcap, elements.take newcap ++ List.replicate (newcap - elements.length) .null)
  else some (cap, elements)

/-- The accessor `sexp_list_length` (a cast: defined on lists only). -/
def sexp_list_length {α : Type} : Sexp α → Option Nat
  | .list len _ _ => some len
  | _ => none

/-- The accessor `sexp_list_nth(e, n)`; `none` when the `assert` fails. -/
def sexp_list_nth {α : Type} (e : Sexp α) (n : Int) : Option (Sexp α) :=
  match e with
  | .list len _ elements => if 0 ≤ n ∧ n.toNat < len then elements.get? n.toNat else none
  | _ => none

/-- The operation `sexp_list_append(e, val)`. -/
def sexp_list_append {α : Type} (e : Sexp α) (val : Sexp α) : Option (Sexp α) :=
  match e with
  | .list len cap elements =>
    match sexp_list_ensure_size cap elements (len + 1) with
    | none => none
    | some (cap1, elements1) =>
      if len < elements1.length then some (.list (len + 1) cap1 (elements1.set len val)) else none
  | _ => none

/-- The storage invariant of a list: `len <= cap` and `cap` slots allocated. -/
def list_wf {α : Type} : Sexp α → Prop
  | .list len cap elements => len ≤ cap ∧ elements.length = cap
  | _ => False

/-! ## Reader: escape decoding -/

/-- The test `isws(ch)`. -/
def isws (ch : Nat) : Bool := ch == 32 || ch == 9 || ch == 12 || ch == 10

/-- The loop of `unescaped_length`, at index `p` with count `res`. -/
def unescaped_length_loop (src : List Nat) (len : Nat) : Nat → Nat → Nat → Option Nat
  | 0, _, _ => none
  | fuel + 1, p, res =>
    if p < len then
      unescaped_length_loop src len fuel ((if src.getD p 0 == 92 then p + 1 else p) + 1) (res + 1)
    else some res

/-- The function `unescaped_length(src, len)`. At `len < 0` the `int len` is
assigned `strlen(src)`; the loop does not run when that is negative as an
`int`. -/
def unescaped_length (src : List Nat) (len : Int) : Option Nat :=
  let n := if len < 0 then (to_int (strlen src)).toNat else len.toNat
  unescaped_length_loop src n (n + 1) 0 0

/-- The `switch (src[p])` of `unescape`: the byte an escape pair stands for. -/
def unescape_char (c : Nat) : Nat :=
  if c == 48 then 0
  else if c == 97 then 7
  else if c == 98 then 8
  else if c == 102 then 12
  else if c == 110 then 10
  else if c == 114 then 13
  else if c == 116 then 9
  else if c == 118 then 11
  else if c == 63 then 63
  else c

/-- The loop of `unescape`, at index `p`: the bytes it stores through `dst`. -/
def unescape_loop (src : List Nat) (len : Nat) : Nat → Nat → Option (List Nat)
  | 0, _ => none
  | fuel + 1, p =>
    if p < len then
      if src.getD p 0 == 92 then
        match unescape_loop src len fuel (p + 1 + 1) with
        | none => none
        | some r => some (unescape_char (src.getD (p + 1) 0) :: r)
      else
        match unescape_loop src len fuel (p + 1) with
        | none => none
        | some r => some (src.getD p 0 :: r)
    else some []

/-- The function `unescape(src, dst, len)`: the bytes it stores at `dst`. At
`len < 0` the `int len` is assigned `strlen(src)`. -/
def unescape (src : List Nat) (len : Int) : Option (List Nat) :=
  let n := if len < 0 then (to_int (strlen src)).toNat else len.toNat
  unescape_loop src n (n + 1) 0

/-! ## Reader: lexer -/

/-- The enumeration `token_type`. -/
inductive token_type where
  | TT_ERR | TT_EOF | TT_OPEN | TT_CLOSE | TT_STRING | TT_ELSE
  deriving DecidableEq

/-- The structure `lexer`; `start` and `end_` are offsets into `src`. -/
structure lexer where
  type : token_type
  src : List Nat
  start : Nat
  end_ : Nat
  deriving DecidableEq

/-- The function `lexer_init`. -/
def lexer_init (src : List Nat) : lexer := ⟨.TT_ERR, src, 0, 0⟩

/-- The loop `while (isws(*s)) ++s;`: how far `s` moves. -/
def skip_ws : List Nat → Nat
  | [] => 0
  | c :: cs => if isws c then skip_ws cs + 1 else 0

/-- The loop `while (*s != '\n' && *s != '\0') ++s;`: how far `s` moves. -/
def skip_line : List Nat → Nat
  | [] => 0
  | c :: cs => if c != 10 && c != 0 then skip_line cs + 1 else 0

/-- The `skip:` loop of `lexer_next` (whitespace, then a comment and back to
`skip`): how far `s` moves. Every round but the last steps over a comment, so
fuel above the length of `s` does not run out (`lexer_skip_stop`). -/
def lexer_skip : Nat → List Nat → Nat
  | 0, _ => 0
  | fuel + 1, s =>
    let n := skip_ws s
    if peek (s.drop n) == 59 then
      let k := skip_line (s.drop n)
      n + k + lexer_skip fuel (s.drop (n + k))
    else n

/-- The loop over the body of a string literal,
`while (*s != '\0' && *s != '\n' && *s != '"') { if (*s == '\\') ++s; ++s; }`:
how far `s` moves. After a backslash the next byte is stepped over unread. -/
def scan_string : List Nat → Nat
  | [] => 0
  | c :: cs =>
    if c != 0 && c != 10 && c != 34 then
      if c == 92 then
        match cs with
        | [] => 2
        | _ :: cs1 => scan_string cs1 + 2
      else scan_string cs + 1
    else 0

/-- The bytes of the `strchr` argument of the atom loop. -/
def atom_stops : List Nat := [32, 10, 9, 12, 59, 40, 123, 91, 93, 125, 41, 34]

/-- The atom loop `while (*s != 0 && strchr(..., *s) == NULL) ++s;`: how far
`s` moves. -/
def scan_atom : List Nat → Nat
  | [] => 0
  | c :: cs => if c != 0 && !(atom_stops.contains c) then scan_atom cs + 1 else 0

/-- The body of `lexer_next` on the memory `s` at `lex->end`: `none` at `fail`,
at `done` the token type and the offsets of `start` and of the new `end` from
`lex->end`. -/
def lexer_scan (s : List Nat) : Option (token_type × Nat × Nat) :=
  let start := lexer_skip (s.length + 1) s
  let c := peek (s.drop start)
  if c == 0 then some (.TT_EOF, start, start)
  else if c == 34 then
    let e := start + 1 + scan_string (s.drop (start + 1))
    if peek (s.drop e) == 34 then some (.TT_STRING, start, e + 1) else none
  else if c == 40 || c == 123 || c == 91 then some (.TT_OPEN, start, start + 1)
  else if c == 41 || c == 125 || c == 93 then some (.TT_CLOSE, start, start + 1)
  else some (.TT_ELSE, start, start + scan_atom (s.drop start))

/-- The function `lexer_next`: the lexer after the call. At `fail` only the type
changes. Its `int` result, which no caller reads, is `type != TT_ERR`. -/
def lexer_next (lex : lexer) : lexer :=
  match lexer_scan (lex.src.drop lex.end_) with
  | none => { lex with type := .TT_ERR }
  | some (t, st, en) => { lex with type := t, start := lex.end_ + st, end_ := lex.end_ + en }

/-! ## Reader: parser -/

/-- The function `sexp_read_string`. The pointer difference `end-start` is
passed to the `int len` parameter of `unescaped_length` and of `unescape`. -/
def sexp_read_string {α : Type} (lex : lexer) : Option (Sexp α × lexer) :=
  if lex.type ≠ .TT_STRING then some (.null, lex)
  else
    let start := lex.src.drop (lex.start + 1)
    let n : Int := to_int (((lex.end_ : Int) - 1) - ((lex.start : Int) + 1))
    match unescaped_length start n with
    | none => none
    | some len =>
      match (sexp_new_string_len (some start) len : Sexp α) with
      | .string l val =>
        match unescape start n with
        | none => none
        | some bs => some (.string l (store val bs), lexer_next lex)
      | _ => none

/-- The function `sexp_read_symbol`. -/
def sexp_read_symbol {α : Type} (lex : lexer) : Sexp α × lexer :=
  if lex.type ≠ .TT_ELSE then (.null, lex)
  else (sexp_new_symbol_len (some (lex.src.drop lex.start)) (lex.end_ - lex.start), lexer_next lex)

/-- The function `sexp_read_number`; `strtod s` is the value and the number of
characters that the C library converts at the start of the C string `s`. -/
def sexp_read_number {α : Type} (strtod : List Nat → α × Nat) (lex : lexer) : Sexp α × lexer :=
  let r := strtod (cstr (lex.src.drop lex.start))
  if r.2 ≠ 0 then (sexp_new_number r.1, lexer_next lex) else (.null, lex)

/-- The closing character `term` that `sexp_read_list` derives from `*lex->start`
(0 when the `assert` is about to fail). -/
def list_term (c : Nat) : Nat :=
  if c == 40 then 41 else if c == 91 then 93 else if c == 123 then 125 else 0

mutual
/-- The function `sexp_read_any`. -/
def sexp_read_any {α : Type} (strtod : List Nat → α × Nat) : Nat → lexer → Option (Sexp α × lexer)
  | 0, _ => none
  | fuel + 1, lex =>
    match lex.type with
    | .TT_EOF => some (.null, lex)
    | .TT_ERR => some (.null, lex)
    | .TT_CLOSE => some (.null, lex)
    | .TT_OPEN => sexp_read_list strtod fuel lex
    | .TT_STRING => sexp_read_string lex
    | .TT_ELSE =>
      let r := sexp_read_number strtod lex
      match r.1 with
      | .null => some (sexp_read_symbol lex)
      | _ => some r
/-- The function `sexp_read_list`. -/
def sexp_read_list {α : Type} (strtod : List Nat → α × Nat) : Nat → lexer → Option (Sexp α × lexer)
  | 0, _ => none
  | fuel + 1, lex =>
    let term := list_term (peek (lex.src.drop lex.start))
    if term = 0 then none
    else
      match sexp_read_list_loop strtod fuel (lexer_next lex) sexp_new_list with
      | none => none
      | some (list, lex1) =>
        match list with
        | .null => some (.null, lex1)
        | _ =>
          if lex1.type ≠ .TT_CLOSE ∨ peek (lex1.src.drop lex1.start) ≠ term then some (.null, lex1)
          else some (list, lexer_next lex1)
/-- The function `sexp_read_list_items` from its `while` loop on, with the list
built so far. -/
def sexp_read_list_loop {α : Type} (strtod : List Nat → α × Nat) :
    Nat → lexer → Sexp α → Option (Sexp α × lexer)
  | 0, _, _ => none
  | fuel + 1, lex, list =>
    if lex.type ≠ .TT_CLOSE ∧ lex.type ≠ .TT_EOF ∧ lex.type ≠ .TT_ERR then
      match sexp_read_any strtod fuel lex with
      | none => none
      | some (item, lex1) =>
        match sexp_list_append list item with
        | none => none
        | some list1 => sexp_read_list_loop strtod fuel lex1 list1
    else if lex.type ≠ .TT_CLOSE then some (.null, lex)
    else some (list, lex)
end

/-- The function `sexp_read_list_items`. -/
def sexp_read_list_items {α : Type} (strtod : List Nat → α × Nat) (fuel : Nat) (lex : lexer) :
    Option (Sexp α × lexer) :=
  sexp_read_list_loop strtod fuel lex sexp_new_list

/-- The function `sexp_read(src, &end)`: the value and the offset `end - src`.
The fuel is enough on every buffer (`sexp_read_total`). -/
def sexp_read {α : Type} (strtod : List Nat → α × Nat) (src : List Nat) : Option (Sexp α × Nat) :=
  match sexp_read_any strtod (3 * src.length + 3) (lexer_next (lexer_init src)) with
  | none => none
  | some (res, lex) => some (res, lex.end_)

/-! ## Printer -/

/-- The structure `printer_t`. -/
structure printer_t where
  len : Nat
  cap : Nat
  buf : List Nat
  deriving DecidableEq

/-- The function `printer_new`. -/
def printer_new : printer_t := ⟨0, 64, []⟩

/-- The function `printer_ensure`. -/
def printer_ensure (printer : printer_t) (cap : Nat) : Option printer_t :=
  if printer.cap ≤ cap then
    match grow_loop (cap + 1) printer.cap cap with
    | none => none
    | some newcap => some { printer with cap := newcap }
  else some printer

/-- The function `printer_cstr`: the returned buffer, terminator included. -/
def printer_cstr (printer : printer_t) : List Nat := mem_take printer.buf printer.len ++ [0]

/-- The function `printer_append_lpstring`. The bytes are stored at `buf[len..]`
also when `printer_ensure` left `cap` short of them. -/
def printer_append_lpstring (p : printer_t) (str : List Nat) (len : Nat) : Option printer_t :=
  match printer_ensure p (p.len + len) with
  | none => none
  | some p1 => some { p1 with buf := mem_take p1.buf p1.len ++ mem_take str len, len := p1.len + len }

/-- The function `printer_append_char`. The byte is stored at `buf[len]` also
when `printer_ensure` left `cap` at `len`. -/
def printer_append_char (printer : printer_t) (ch : Nat) : Option printer_t :=
  match printer_ensure printer printer.len with
  | none => none
  | some p1 => some { p1 with buf := mem_take p1.buf p1.len ++ [ch], len := p1.len + 1 }

/-- The `switch (buf[i])` of `printer_append_sexp_string` on one byte. Every
`case` assigns the returned pointer to `p`; the `default` branch,
`printer_append_char(p, buf[i]);`, drops it. Where `printer_ensure` inside that
call leaves the block alone (`cap > len`), the call has updated the printer
behind `p` in place and the loop carries on with it. Where `printer_ensure`
calls `realloc` (`cap <= len`), the block behind `p` has been handed to
`realloc` and the only pointer to the result is lost: the loop goes on with a
pointer it may no longer use, `none`. -/
def printer_append_string_byte (p : printer_t) (c : Nat) : Option printer_t :=
  if c == 7 then printer_append_lpstring p [92, 97] 2
  else if c == 8 then printer_append_lpstring p [92, 98] 2
  else if c == 12 then printer_append_lpstring p [92, 102] 2
  else if c == 10 then printer_append_lpstring p [92, 110] 2
  else if c == 13 then printer_append_lpstring p [92, 114] 2
  else if c == 9 then printer_append_lpstring p [92, 116] 2
  else if c == 11 then printer_append_lpstring p [92, 118] 2
  else if c == 63 then printer_append_lpstring p [92, 63] 2
  else if c == 0 then printer_append_lpstring p [92, 48] 2
  else if c == 34 then printer_append_lpstring p [92, 34] 2
  else if c == 39 then printer_append_lpstring p [92, 39] 2
  else if p.cap ≤ p.len then none
  else printer_append_char p c

/-- The `for` loop of `printer_append_sexp_string` over the bytes `buf[i..len)`,
`len` being the `int len` of that function. -/
def printer_append_string_loop : printer_t → List Nat → Option printer_t
  | p, [] => some p
  | p, c :: cs =>
    match printer_append_string_byte p c with
    | none => none
    | some p1 => printer_append_string_loop p1 cs

/-- The function `printer_append_sexp_string` (a cast: defined on strings only).
The length is copied to an `int`, `int len = s->len;`, and the loop runs over
the bytes below that `int` (over none when it is negative). -/
def printer_append_sexp_string {α : Type} (p : printer_t) (e : Sexp α) : Option printer_t :=
  match e with
  | .string len val =>
    match printer_append_char p 34 with
    | none => none
    | some p1 =>
      match printer_append_string_loop p1 (mem_take val (to_int len).toNat) with
      | none => none
      | some p2 => printer_append_char p2 34
  | _ => none

/-- The function `printer_append_sexp_symbol` (a cast: defined on symbols only). -/
def printer_append_sexp_symbol {α : Type} (p : printer_t) (e : Sexp α) : Option printer_t :=
  match e with
  | .symbol len val => printer_append_lpstring p val len
  | _ => none

/-- The function `printer_append_sexp_number`; `lg val` is the text that
`asprintf(&res, "%lg", val)` produces. -/
def printer_append_sexp_number {α : Type} (lg : α → List Nat) (p : printer_t) (e : Sexp α) :
    Option printer_t :=
  match e with
  | .number val => printer_append_lpstring p (lg val) (lg val).length
  | _ => none

mutual
/-- The function `printer_append_sexp`; `none` is `die("invalid sexp type")`. The
list branch is the body of `printer_append_sexp_list`. -/
def printer_append_sexp {α : Type} (lg : α → List Nat) : printer_t → Sexp α → Option printer_t
  | p, .string len val => printer_append_sexp_string p (.string len val : Sexp α)
  | p, .symbol len val => printer_append_sexp_symbol p (.symbol len val : Sexp α)
  | p, .number val => printer_append_sexp_number lg p (.number val)
  | p, .list len _ elements =>
    match printer_append_char p 40 with
    | none => none
    | some p1 =>
      match printer_append_list_loop lg p1 0 len elements with
      | none => none
      | some p2 => printer_append_char p2 41
  | _, .null => none
/-- The `for` loop of `printer_append_sexp_list` at index `i`, on the storage
`elements[i..]`; `sexp_list_nth(e, i)` is its head, the assertion of
`sexp_list_nth` holding inside the loop. The index is an `int` compared with
the `size_t len`: `++i` at the largest `int` overflows, `none`. -/
def printer_append_list_loop {α : Type} (lg : α → List Nat) :
    printer_t → Nat → Nat → List (Sexp α) → Option printer_t
  | p, i, len, [] => if i < len then none else some p
  | p, i, len, e :: es =>
    if i < len then
      match (if 0 < i then printer_append_char p 32 else some p) with
      | none => none
      | some p1 =>
        match printer_append_sexp lg p1 e with
        | none => none
        | some p2 =>
          if 2147483647 ≤ i then none else printer_append_list_loop lg p2 (i + 1) len es
    else some p
end

/-- The function `printer_append_sexp_list` (a cast: defined on lists only). -/
def printer_append_sexp_list {α : Type} (lg : α → List Nat) (p : printer_t) (e : Sexp α) :
    Option printer_t :=
  match e with
  | .list len _ elements =>
    match printer_append_char p 40 with
    | none => none
    | some p1 =>
      match printer_append_list_loop lg p1 0 len elements with
      | none => none
      | some p2 => printer_append_char p2 41
  | _ => none

/-- The function `sexp_display`: the returned buffer, terminator included. -/
def sexp_display {α : Type} (lg : α → List Nat) (e : Sexp α) : Option (List Nat) :=
  match printer_append_sexp lg printer_new e with
  | none => none
  | some p => some (printer_cstr p)

/-! ## Specification-level notions

What follows is not code of `sexp.c`: the abstract values that the claims speak
of, the text that the claims say they are printed as, and the conditions under
which that text is read back. -/

/-- An abstract value: the bytes of a string or symbol, the number, the items
of a list. -/
inductive Value (α : Type) where
  | string (bytes : List Nat) : Value α
  | symbol (bytes : List Nat) : Value α
  | number (val : α) : Value α
  | list (items : List (Value α)) : Value α

mutual
/-- The abstract value that a `sexp_t*` stands for: the `len` bytes of a string
or symbol, the number, the first `len` elements of a list; nothing for `NULL`
or for a list with fewer than `len` slots. Two values are structurally equal
when they stand for the same abstract value. -/
def Sexp.value {α : Type} : Sexp α → Option (Value α)
  | .null => none
  | .string len val => some (.string (mem_take val len))
  | .symbol len val => some (.symbol (mem_take val len))
  | .number val => some (.number val)
  | .list len _ elements =>
    match Sexp.values len elements with
    | none => none
    | some vs => some (.list vs)
/-- The abstract values of the first `n` elements of a storage. -/
def Sexp.values {α : Type} : Nat → List (Sexp α) → Option (List (Value α))
  | 0, _ => some []
  | _ + 1, [] => none
  | n + 1, e :: es =>
    match Sexp.value e with
    | none => none
    | some v =>
      match Sexp.values n es with
      | none => none
      | some vs => some (v :: vs)
end

/-- The escape encoding of one string byte, as the printer writes it. -/
def escape_byte (c : Nat) : List Nat :=
  if c = 7 then [92, 97]
  else if c = 8 then [92, 98]
  else if c = 12 then [92, 102]
  else if c = 10 then [92, 110]
  else if c = 13 then [92, 114]
  else if c = 9 then [92, 116]
  else if c = 11 then [92, 118]
  else if c = 63 then [92, 63]
  else if c = 0 then [92, 48]
  else if c = 34 then [92, 34]
  else if c = 39 then [92, 39]
  else [c]

/-- The escape encoding of a byte string. -/
def escape : List Nat → List Nat
  | [] => []
  | c :: cs => escape_byte c ++ escape cs

mutual
/-- The text of an abstract value: a quoted escaped string, the raw bytes of a
symbol, the `%lg` text of a number, the parenthesised items of a list. -/
def Value.text {α : Type} (lg : α → List Nat) : Value α → List Nat
  | .string bytes => 34 :: (escape bytes ++ [34])
  | .symbol bytes => bytes
  | .number val => lg val
  | .list items => 40 :: (Value.texts lg items ++ [41])
/-- The texts of the items of a list, one space between two items. -/
def Value.texts {α : Type} (lg : α → List Nat) : List (Value α) → List Nat
  | [] => []
  | v :: vs => Value.text lg v ++ Value.texts_more lg vs
/-- The texts of the items after the first, each behind one space. -/
def Value.texts_more {α : Type} (lg : α → List Nat) : List (Value α) → List Nat
  | [] => []
  | v :: vs => 32 :: (Value.text lg v ++ Value.texts_more lg vs)
end

mutual
/-- The text of a value as the claims describe it, as a function of the value
alone (the printer writes it where it fits the buffer, see
`printer_append_sexp_fits`); nothing for `NULL` and for a list with an element
that has no text or with fewer elements than its length. -/
def Sexp.text {α : Type} (lg : α → List Nat) : Sexp α → Option (List Nat)
  | .null => none
  | .string len val => some (34 :: (escape (mem_take val len) ++ [34]))
  | .symbol len val => some (mem_take val len)
  | .number val => some (lg val)
  | .list len _ elements =>
    match Sexp.texts lg 0 len elements with
    | none => none
    | some t => some (40 :: (t ++ [41]))
/-- The text of the elements `i..len` of a list, on the storage from slot `i`
on: one space before each element but the one at index 0. -/
def Sexp.texts {α : Type} (lg : α → List Nat) : Nat → Nat → List (Sexp α) → Option (List Nat)
  | i, len, [] => if i < len then none else some []
  | i, len, e :: es =>
    if i < len then
      match Sexp.text lg e with
      | none => none
      | some t =>
        match Sexp.texts lg (i + 1) len es with
        | none => none
        | some r => some ((if 0 < i then [32] else []) ++ (t ++ r))
    else some []
end

/-- The invariant of a printer that the appends rely on: a capacity from which
the growth loop makes progress, and `len` bytes written. -/
def printer_ok (p : printer_t) : Prop := 2 ≤ p.cap ∧ p.buf.length = p.len

/-- The invariant of a lexer between two calls: `end` inside the buffer, and an
opening bracket at `start` under an `OPEN` token. -/
def lexer_ok (lex : lexer) : Prop :=
  lex.end_ ≤ lex.src.length ∧
    (lex.type = .TT_OPEN → list_term (peek (lex.src.drop lex.start)) ≠ 0)

/-- A token at which `sexp_read_any` reads a value: `OPEN`, `STRING` or an atom. -/
def is_item (t : token_type) : Prop := t = .TT_OPEN ∨ t = .TT_STRING ∨ t = .TT_ELSE

/-- A byte that the atom loop of the lexer steps over. -/
def atom_byte (c : Nat) : Bool := c != 0 && !(atom_stops.contains c)

/-- What may follow the text of an item in a printed buffer, as the C string
that `strtod` sees: nothing, a space or a closing parenthesis. -/
def item_end (t : List Nat) : Prop := t = [] ∨ peek t = 32 ∨ peek t = 41

/-- The byte that follows the text of an item in a printed buffer: the
terminator, a space or a closing parenthesis. -/
def follows_item (rest : List Nat) : Prop := peek rest = 0 ∨ peek rest = 32 ∨ peek rest = 41

/-- The text of the items of a list when the first one stands behind `ws`. -/
def Value.texts_from {α : Type} (lg : α → List Nat) (ws : List Nat) : List (Value α) → List Nat
  | [] => []
  | v :: vs => ws ++ (Value.text lg v ++ Value.texts_more lg vs)

/-- The bytes of a symbol that the reader gives back: a non-empty run of atom
bytes at whose start `strtod` converts nothing. -/
def symbol_readable {α : Type} (strtod : List Nat → α × Nat) (bytes : List Nat) : Prop :=
  bytes ≠ [] ∧ (∀ c ∈ bytes, atom_byte c = true) ∧
    ∀ t, item_end t → (strtod (bytes ++ t)).2 = 0

/-- A number that the reader gives back (no pathological precision): its `%lg`
text is a non-empty run of atom bytes that `strtod` converts to the number. -/
def number_readable {α : Type} (strtod : List Nat → α × Nat) (lg : α → List Nat) (val : α) : Prop :=
  lg val ≠ [] ∧ (∀ c ∈ lg val, atom_byte c = true) ∧
    ∀ t, item_end t → (strtod (lg val ++ t)).1 = val ∧ (strtod (lg val ++ t)).2 ≠ 0

mutual
/-- The abstract values whose text is read back: strings without a backslash
byte, readable symbols, readable numbers, lists of such values. -/
def Value.readable {α : Type} (strtod : List Nat → α × Nat) (lg : α → List Nat) : Value α → Prop
  | .string bytes => 92 ∉ bytes
  | .symbol bytes => symbol_readable strtod bytes
  | .number val => number_readable strtod lg val
  | .list items => Value.all_readable strtod lg items
/-- Every value of the list is readable. -/
def Value.all_readable {α : Type} (strtod : List Nat → α × Nat) (lg : α → List Nat) :
    List (Value α) → Prop
  | [] => True
  | v :: vs => Value.readable strtod lg v ∧ Value.all_readable strtod lg vs
end

/-- The reader gives `v` back from its text: wherever the text of `v` stands in
a buffer of less than 2^31 bytes behind a blank `ws` (nothing or one space) and
before a terminator, a space or a closing parenthesis, `sexp_read_any` at the
token of that text returns, with some fuel, a value that stands for `v`, and
leaves the lexer at the token that follows the text. -/
def reads_back {α : Type} (strtod : List Nat → α × Nat) (lg : α → List Nat) (v : Value α) : Prop :=
  ∀ (lexp : lexer) (ws rest : List Nat), (ws = [] ∨ ws = [32]) → follows_item rest →
    lexp.src.length < 2147483648 →
    lexp.src.drop lexp.end_ = ws ++ (Value.text lg v ++ rest) →
    ∃ n e lexq, sexp_read_any strtod n (lexer_next lexp) = some (e, lexer_next lexq) ∧
      Sexp.value e = some v ∧ lexq.src = lexp.src ∧
      lexq.end_ = lexp.end_ + ws.length + (Value.text lg v).length

/-- The loop of `sexp_read_list_items` gives the items `vs` back from their
text: where that text stands in a buffer of less than 2^31 bytes before a
closing parenthesis, the loop appends values that stand for `vs` to the list
built so far and stops at the token of the closing parenthesis. -/
def reads_back_items {α : Type} (strtod : List Nat → α × Nat) (lg : α → List Nat)
    (vs : List (Value α)) : Prop :=
  ∀ (lexp : lexer) (ws rest : List Nat) (len cap : Nat) (es : List (Sexp α))
    (avs : List (Value α)), (ws = [] ∨ ws = [32]) → list_wf (Sexp.list len cap es) →
    Sexp.values len es = some avs → lexp.src.length < 2147483648 →
    lexp.src.drop lexp.end_ = Value.texts_from lg ws vs ++ 41 :: rest →
    ∃ n len1 cap1 es1 lexq,
      sexp_read_list_loop strtod n (lexer_next lexp) (Sexp.list len cap es)
        = some (Sexp.list len1 cap1 es1, lexer_next lexq) ∧
      Sexp.values len1 es1 = some (avs ++ vs) ∧ lexq.src = lexp.src ∧
      lexq.end_ = lexp.end_ + (Value.texts_from lg ws vs).length

/-- A stand-in for `strtod` on unsigned decimal integers, to evaluate examples:
the loop over the leading digits, with the value and the count so far. -/
def strtod_digits_loop : List Nat → Nat → Nat → Nat × Nat
  | [], v, n => (v, n)
  | c :: cs, v, n => if 48 ≤ c ∧ c ≤ 57 then strtod_digits_loop cs (10 * v + (c - 48)) (n + 1) else (v, n)

/-- A stand-in for `strtod` on unsigned decimal integers: the value of the
leading digits and how many there are. -/
def strtod_digits (s : List Nat) : Nat × Nat := strtod_digits_loop s 0 0

/-- A stand-in for the `%lg` conversion on natural numbers below 100. -/
def lg_digits (n : Nat) : List Nat :=
  if n < 10 then [48 + n] else [48 + n / 10 % 10, 48 + n % 10]

/-- The test `isspace(c)` of the C library in the C locale. -/
def isspace (c : Nat) : Bool := c == 32 || c == 9 || c == 10 || c == 11 || c == 12 || c == 13

/-- A stand-in for `strtod` on unsigned decimal integers behind leading white
space, which `strtod` steps over as the C standard says: the loop over the
white space, with the count so far. Without a digit nothing is converted. -/
def strtod_space_digits_loop : List Nat → Nat → Nat × Nat
  | [], _ => (0, 0)
  | c :: cs, n =>
    if isspace c then strtod_space_digits_loop cs (n + 1)
    else if (strtod_digits (c :: cs)).2 = 0 then (0, 0)
    else ((strtod_digits (c :: cs)).1, n + (strtod_digits (c :: cs)).2)

/-- A stand-in for `strtod` on unsigned decimal integers behind leading white
space. -/
def strtod_space_digits (s : List Nat) : Nat × Nat := strtod_space_digits_loop s 0

/-- The bytes that the specification lists as printed by a two-character escape:
BEL, BS, FF, LF, CR, TAB, VT, `?`, NUL, double quote, single quote. -/
def escaped_bytes : List Nat := [7, 8, 12, 10, 13, 9, 11, 63, 0, 34, 39]

/-- A piece of the body of a well-formed string literal, in the words of the
specification: an ordinary byte, or an escape pair of a backslash and a byte. -/
inductive Piece where
  | byte (c : Nat) : Piece
  | pair (x : Nat) : Piece

/-- The source bytes of a piece. -/
def Piece.source : Piece → List Nat
  | .byte c => [c]
  | .pair x => [92, x]

/-- The byte a piece stands for, in the words of the specification: `\n`, `\t`,
`\r`, `\f`, `\b`, `\a`, `\v`, `\?`, `\0` stand for the control byte or `?`, a
backslash before any other byte for that byte, an ordinary byte for itself. -/
def Piece.decoded : Piece → Nat
  | .byte c => c
  | .pair x =>
    if x = 110 then 10
    else if x = 116 then 9
    else if x = 114 then 13
    else if x = 102 then 12
    else if x = 98 then 8
    else if x = 97 then 7
    else if x = 118 then 11
    else if x = 63 then 63
    else if x = 48 then 0
    else x

/-- The pieces of a well-formed literal: an ordinary byte is none of double
quote, newline, NUL, backslash; the second byte of a pair is not the
terminator. -/
def Piece.well_formed : Piece → Prop
  | .byte c => c ≠ 34 ∧ c ≠ 10 ∧ c ≠ 0 ∧ c ≠ 92
  | .pair x => x ≠ 0

/-- The source bytes of a body, piece by piece. -/
def body_source : List Piece → List Nat
  | [] => []
  | p :: ps => p.source ++ body_source ps

/-- The bytes a body stands for, piece by piece. -/
def body_decoded : List Piece → List Nat
  | [] => []
  | p :: ps => p.decoded :: body_decoded ps

/-- A call on a printer, in the words of the claims: `printer_append_char(p, ch)`
or `printer_append_lpstring(p, str, len)`. -/
inductive printer_call where
  | append_char (ch : Nat) : printer_call
  | append_lpstring (str : List Nat) (len : Nat) : printer_call
  deriving DecidableEq

/-- A sequence of calls, each on the printer that the call before it
returned. -/
def printer_calls : printer_t → List printer_call → Option printer_t
  | p, [] => some p
  | p, .append_char ch :: cs =>
    match printer_append_char p ch with
    | none => none
    | some p1 => printer_calls p1 cs
  | p, .append_lpstring str len :: cs =>
    match printer_append_lpstring p str len with
    | none => none
    | some p1 => printer_calls p1 cs

/-- The store `printer->buf[printer->len] = ch` of `printer_append_char`: the
index it writes and the capacity of the buffer at that moment, behind
`printer_ensure(printer, printer->len)`. -/
def printer_append_char_store (printer : printer_t) : Option (Nat × Nat) :=
  match printer_ensure printer printer.len with
  | none => none
  | some p1 => some (p1.len, p1.cap)

/-- The `memcpy(&(p->buf[p->len]), str, len)` of `printer_append_lpstring`: the
index behind the last byte it writes and the capacity of the buffer at that
moment, behind `printer_ensure(p, p->len + len)`. -/
def printer_append_lpstring_store (p : printer_t) (len : Nat) : Option (Nat × Nat) :=
  match printer_ensure p (p.len + len) with
  | none => none
  | some p1 => some (p1.len + len, p1.cap)

/-- The bytes of a string that the reader gives back from its printed text: the
escape encoding of the bytes is the source of a body of well-formed pieces
that are decoded to the bytes. Every byte string without a backslash is one;
the bytes backslash, `?` are another. -/
def string_rereadable (b : List Nat) : Prop :=
  ∃ ps : List Piece, (∀ p ∈ ps, Piece.well_formed p) ∧ body_source ps = escape b ∧
    body_decoded ps = b

mutual
/-- The abstract values that the reader gives back from their text: `Value.readable`
with every rereadable string, also one that holds a backslash. -/
def Value.rereadable {α : Type} (strtod : List Nat → α × Nat) (lg : α → List Nat) :
    Value α → Prop
  | .string bytes => string_rereadable bytes
  | .symbol bytes => symbol_readable strtod bytes
  | .number val => number_readable strtod lg val
  | .list items => Value.all_rereadable strtod lg items
/-- Every value of the list is rereadable. -/
def Value.all_rereadable {α : Type} (strtod : List Nat → α × Nat) (lg : α → List Nat) :
    List (Value α) → Prop
  | [] => True
  | v :: vs => Value.rereadable strtod lg v ∧ Value.all_rereadable strtod lg vs
end

/-- The abstract values whose printed text is printed again after it was read:
the text is also the text of a rereadable value (of the value itself when it is
rereadable). -/
def Value.reprintable {α : Type} (strtod : List Nat → α × Nat) (lg : α → List Nat)
    (v : Value α) : Prop :=
  ∃ w, Value.rereadable strtod lg w ∧ Value.text lg w = Value.text lg v

/-- The pieces of the body of a string literal, as the string loop of the lexer
and `unescape` take it apart: a backslash forms a pair with the byte behind it;
nothing for a body that holds a double quote, newline or NUL outside a pair, a
NUL behind a backslash, or a backslash as its last byte. -/
def parse_pieces : List Nat → Option (List Piece)
  | [] => some []
  | [c] => if c = 92 ∨ c = 34 ∨ c = 10 ∨ c = 0 then none else some [.byte c]
  | c :: x :: t =>
    if c = 92 then
      if x = 0 then none
      else
        match parse_pieces t with
        | none => none
        | some ps => some (.pair x :: ps)
    else if c = 34 ∨ c = 10 ∨ c = 0 then none
    else
      match parse_pieces (x :: t) with
      | none => none
      | some ps => some (.byte c :: ps)

/-- The printed body of the string is a body of pieces, and the bytes these are
decoded to are printed as the same body: decoding and encoding again changes
nothing. -/
def string_reprints (b : List Nat) : Bool :=
  match parse_pieces (escape b) with
  | none => false
  | some ps => escape (body_decoded ps) == escape b

/-- A number whose `%lg` text is the text of a readable number (of itself, or of
the number its text is converted to when precision was lost). -/
def number_reprintable {α : Type} (strtod : List Nat → α × Nat) (lg : α → List Nat) (val : α) :
    Prop :=
  ∃ w, lg w = lg val ∧ number_readable strtod lg w

/-- The bytes of a symbol that is printed again after reading: a readable
symbol, or the `%lg` text of a readable number (read as that number). -/
def symbol_reprintable {α : Type} (strtod : List Nat → α × Nat) (lg : α → List Nat)
    (bytes : List Nat) : Prop :=
  symbol_readable strtod bytes ∨ ∃ w, lg w = bytes ∧ number_readable strtod lg w

mutual
/-- A sufficient condition on the variants for `Value.reprintable`: strings that
`string_reprints` accepts, reprintable symbols and numbers, lists of such
values. -/
def Value.stable {α : Type} (strtod : List Nat → α × Nat) (lg : α → List Nat) : Value α → Prop
  | .string bytes => string_reprints bytes = true
  | .symbol bytes => symbol_reprintable strtod lg bytes
  | .number val => number_reprintable strtod lg val
  | .list items => Value.all_stable strtod lg items
/-- Every value of the list is stable. -/
def Value.all_stable {α : Type} (strtod : List Nat → α × Nat) (lg : α → List Nat) :
    List (Value α) → Prop
  | [] => True
  | v :: vs => Value.stable strtod lg v ∧ Value.all_stable strtod lg vs
end

/-! ## Lists: growth and append -/

theorem grow_loop_some (f newcap capacity : Nat) (h2 : 2 ≤ newcap)
    (hf : capacity ≤ newcap + f) :
    ∃ r, grow_loop (f + 1) newcap capacity = some r ∧ capacity ≤ r ∧ newcap ≤ r := by
  induction f generalizing newcap with
  | zero =>
    unfold grow_loop
    rw [if_neg (by omega)]
    exact ⟨newcap, rfl, by omega, le_refl _⟩
  | succ f ih =>
    unfold grow_loop
    by_cases hlt : newcap < capacity
    · rw [if_pos hlt]
      have hstep : newcap + 1 ≤ newcap * 3 / 2 := by omega
      obtain ⟨r, hr, h1, h2⟩ := ih (newcap * 3 / 2) (by omega) (by omega)
      exact ⟨r, hr, h1, by omega⟩
    · rw [if_neg hlt]
      exact ⟨newcap, rfl, by omega, le_refl _⟩

theorem take_succ_set {β : Type} (l : List β) (n : Nat) (a : β) (h : n < l.length) :
    (l.set n a).take (n + 1) = l.take n ++ [a] := by
  induction l generalizing n with
  | nil => simp at h
  | cons x xs ih =>
    cases n with
    | zero => simp
    | succ k => simp [ih k (by simpa using h)]

theorem sexp_list_ensure_size_some {α : Type} (cap : Nat) (elements : List (Sexp α))
    (capacity : Nat) (hlen : elements.length = cap) :
    ∃ cap1 elements1, sexp_list_ensure_size cap elements capacity = some (cap1, elements1) ∧
      capacity ≤ cap1 ∧ elements1.length = cap1 ∧ cap ≤ cap1 ∧
      elements1.take cap = elements := by
  unfold sexp_list_ensure_size
  by_cases hlt : cap < capacity
  · rw [if_pos hlt]
    obtain ⟨r, hr, h1, h2⟩ := grow_loop_some capacity (if cap < 2 then 2 else cap) capacity
      (by split <;> omega) (by omega)
    rw [hr]
    have hcr : cap ≤ r := by
      split at h2 <;> omega
    have e : elements.take r = elements := List.take_of_length_le (by omega)
    refine ⟨r, _, rfl, h1, ?_, hcr, ?_⟩
    · rw [e, List.length_append, List.length_replicate]; omega
    · rw [e, List.take_append_of_le_length (by omega)]
      exact List.take_of_length_le (by omega)
  · rw [if_neg hlt]
    exact ⟨cap, elements, rfl, by omega, hlen, le_refl _, by rw [← hlen, List.take_length]⟩

/-- The effect of `sexp_list_append` on a well-formed list. -/
theorem sexp_list_append_some {α : Type} (len cap : Nat) (elements : List (Sexp α)) (v : Sexp α)
    (hwf : list_wf (Sexp.list len cap elements)) :
    ∃ cap1 elements1, sexp_list_append (Sexp.list len cap elements) v
        = some (Sexp.list (len + 1) cap1 elements1) ∧
      list_wf (Sexp.list (len + 1) cap1 elements1) ∧
      elements1.take (len + 1) = elements.take len ++ [v] := by
  obtain ⟨hle, hlen⟩ := hwf
  obtain ⟨cap1, el1, he, h1, h2, h3, h4⟩ := sexp_list_ensure_size_some cap elements (len + 1) hlen
  refine ⟨cap1, el1.set len v, ?_, ⟨h1, by simp [h2]⟩, ?_⟩
  · simp only [sexp_list_append, he]
    rw [if_pos (by omega)]
  · have hlt : len < el1.length := by omega
    rw [take_succ_set el1 len v hlt]
    congr 1
    rw [← h4, List.take_take, min_eq_left hle]

theorem strcmp_eq_iff (a b : List Nat) : strcmp_eq a b = true ↔ cstr a = cstr b := by
  induction a generalizing b with
  | nil =>
    cases b with
    | nil => simp [strcmp_eq, cstr]
    | cons y ys =>
      by_cases hy : y = 0 <;> simp [strcmp_eq, cstr, hy]
  | cons x xs ih =>
    cases b with
    | nil => by_cases hx : x = 0 <;> simp [strcmp_eq, cstr, hx]
    | cons y ys =>
      by_cases hxy : x = y
      · subst hxy
        by_cases hx : x = 0
        · simp [strcmp_eq, cstr, hx]
        · simp [strcmp_eq, cstr, hx, ih]
      · by_cases hx : x = 0
        · subst hx
          have : ¬ y = 0 := fun h => hxy h.symm
          simp [strcmp_eq, cstr, hxy, this]
        · by_cases hy : y = 0
          · simp [strcmp_eq, cstr, hxy, hx, hy]
          · simp [strcmp_eq, cstr, hxy, hx, hy]

theorem mem_take_eq_take (m : List Nat) (n : Nat) (h : n ≤ m.length) : mem_take m n = m.take n := by
  induction n generalizing m with
  | zero => simp [mem_take]
  | succ k ih =>
    cases m with
    | nil => simp at h
    | cons c cs => simp [mem_take, ih cs (by simpa using h)]

theorem mem_take_length (m : List Nat) (n : Nat) : (mem_take m n).length = n := by
  induction n generalizing m with
  | zero => simp [mem_take]
  | succ k ih => cases m <;> simp [mem_take, ih]

theorem mem_take_self (m : List Nat) : mem_take m m.length = m := by
  rw [mem_take_eq_take _ _ (le_refl _), List.take_length]

theorem cstr_append_zero (b t : List Nat) (h : 0 ∉ b) : cstr (b ++ 0 :: t) = b := by
  induction b with
  | nil => simp [cstr]
  | cons c cs ih =>
    have hc : c ≠ 0 := fun e => h (by simp [e])
    simp [cstr, hc, ih (fun hm => h (by simp [hm]))]

theorem cstr_of_no_zero (b : List Nat) (h : 0 ∉ b) : cstr b = b := by
  induction b with
  | nil => simp [cstr]
  | cons c cs ih =>
    have hc : c ≠ 0 := fun e => h (by simp [e])
    simp [cstr, hc, ih (fun hm => h (by simp [hm]))]

/-- On a symbol whose bytes hold no zero byte, `sexp_symbol_eq` is the exact match
with the reference C string. -/
theorem sexp_symbol_eq_of_no_zero {α : Type} (b ref : List Nat) (hb : 0 ∉ b) :
    sexp_symbol_eq (sexp_new_symbol_len (some b) b.length : Sexp α) ref = some true
      ↔ cstr ref = b := by
  simp only [sexp_symbol_eq, sexp_new_symbol_len, Option.some.injEq, strcmp_eq_iff,
    mem_take_self, cstr_append_zero b [] hb]
  exact eq_comm

/-- C9, the code at the failing input: the symbol of the three bytes `a`, NUL, `b`
compares equal to the reference string `a` of length 1. -/
theorem sexp_symbol_eq_embedded_zero :
    sexp_symbol_length (sexp_new_symbol_len (some [97, 0, 98]) 3 : Sexp Nat) = some 3 ∧
    (sexp_new_symbol_len (some [97, 0, 98]) 3 : Sexp Nat).value = some (Value.symbol [97, 0, 98]) ∧
    strlen [97] = 1 ∧
    sexp_symbol_eq (sexp_new_symbol_len (some [97, 0, 98]) 3 : Sexp Nat) [97] = some true := by
  refine ⟨rfl, rfl, rfl, rfl⟩

/-! ## Printer -/

theorem printer_ensure_some (p : printer_t) (n : Nat) (hp : 2 ≤ p.cap) :
    ∃ c, printer_ensure p n = some { p with cap := c } ∧ 2 ≤ c := by
  unfold printer_ensure
  by_cases hle : p.cap ≤ n
  · rw [if_pos hle]
    obtain ⟨r, hr, _, h2⟩ := grow_loop_some n p.cap n hp (by omega)
    rw [hr]
    exact ⟨r, rfl, by omega⟩
  · rw [if_neg hle]
    exact ⟨p.cap, rfl, hp⟩

theorem printer_append_char_some (p : printer_t) (ch : Nat) (hp : printer_ok p) :
    ∃ p1, printer_append_char p ch = some p1 ∧ printer_ok p1 ∧ p1.buf = p.buf ++ [ch] := by
  obtain ⟨c, hc, h2⟩ := printer_ensure_some p p.len hp.1
  refine ⟨_, by simp only [printer_append_char, hc]; rfl, ?_, ?_⟩
  · exact ⟨h2, by simp [mem_take_length]⟩
  · simp only
    rw [← hp.2, mem_take_self]

theorem printer_append_lpstring_some (p : printer_t) (str : List Nat) (len : Nat)
    (hp : printer_ok p) :
    ∃ p1, printer_append_lpstring p str len = some p1 ∧ printer_ok p1 ∧
      p1.buf = p.buf ++ mem_take str len := by
  obtain ⟨c, hc, h2⟩ := printer_ensure_some p (p.len + len) hp.1
  refine ⟨_, by simp only [printer_append_lpstring, hc]; rfl, ?_, ?_⟩
  · exact ⟨h2, by simp [mem_take_length]⟩
  · simp only
    rw [← hp.2, mem_take_self]

theorem to_int_of_lt (n : Nat) (h : n < 2147483648) : to_int (n : Int) = (n : Int) := by
  unfold to_int
  omega

theorem escape_byte_length (c : Nat) : 1 ≤ (escape_byte c).length ∧ (escape_byte c).length ≤ 2 := by
  unfold escape_byte
  by_cases h1 : c = 7
  · subst h1; decide
  by_cases h2 : c = 8
  · subst h2; decide
  by_cases h3 : c = 12
  · subst h3; decide
  by_cases h4 : c = 10
  · subst h4; decide
  by_cases h5 : c = 13
  · subst h5; decide
  by_cases h6 : c = 9
  · subst h6; decide
  by_cases h7 : c = 11
  · subst h7; decide
  by_cases h8 : c = 63
  · subst h8; decide
  by_cases h9 : c = 0
  · subst h9; decide
  by_cases h10 : c = 34
  · subst h10; decide
  by_cases h11 : c = 39
  · subst h11; decide
  simp only [h1, h2, h3, h4, h5, h6, h7, h8, h9, h10, h11, if_false]
  simp

theorem length_le_escape (b : List Nat) : b.length ≤ (escape b).length := by
  induction b with
  | nil => simp [escape]
  | cons c cs ih =>
    have := (escape_byte_length c).1
    simp only [escape, List.length_cons, List.length_append]
    omega

/-! ### Appends that find room in the buffer

When the bytes to append fit below the capacity, no call of `printer_ensure`
grows the buffer, every byte is stored below the capacity, and the pointer that
the `default` branch of the string loop drops still points to the printer. -/

theorem printer_ensure_fits (p : printer_t) (n : Nat) (h : n ≤ p.cap) :
    printer_ensure p n = some p := by
  unfold printer_ensure
  by_cases hle : p.cap ≤ n
  · have : n = p.cap := by omega
    subst this
    rw [if_pos hle]
    unfold grow_loop
    rw [if_neg (by omega)]
  · rw [if_neg hle]

theorem printer_append_char_fits (p : printer_t) (ch : Nat) (h : p.len < p.cap)
    (hb : p.buf.length = p.len) :
    printer_append_char p ch = some ⟨p.len + 1, p.cap, p.buf ++ [ch]⟩ := by
  simp only [printer_append_char, printer_ensure_fits p p.len (by omega)]
  rw [← hb, mem_take_self]

theorem printer_append_lpstring_fits (p : printer_t) (str : List Nat) (n : Nat)
    (h : p.len + n ≤ p.cap) (hb : p.buf.length = p.len) :
    printer_append_lpstring p str n = some ⟨p.len + n, p.cap, p.buf ++ mem_take str n⟩ := by
  simp only [printer_append_lpstring, printer_ensure_fits p (p.len + n) h]
  rw [← hb, mem_take_self]

theorem printer_append_string_byte_fits (p : printer_t) (c : Nat)
    (h : p.len + (escape_byte c).length ≤ p.cap) (hb : p.buf.length = p.len) :
    printer_append_string_byte p c
      = some ⟨p.len + (escape_byte c).length, p.cap, p.buf ++ escape_byte c⟩ := by
  have hl : ∀ x : Nat, p.len + 2 ≤ p.cap →
      printer_append_lpstring p [92, x] 2 = some ⟨p.len + 2, p.cap, p.buf ++ [92, x]⟩ :=
    fun x hx => printer_append_lpstring_fits p _ 2 hx hb
  by_cases h1 : c = 7
  · subst h1; exact hl 97 h
  by_cases h2 : c = 8
  · subst h2; exact hl 98 h
  by_cases h3 : c = 12
  · subst h3; exact hl 102 h
  by_cases h4 : c = 10
  · subst h4; exact hl 110 h
  by_cases h5 : c = 13
  · subst h5; exact hl 114 h
  by_cases h6 : c = 9
  · subst h6; exact hl 116 h
  by_cases h7 : c = 11
  · subst h7; exact hl 118 h
  by_cases h8 : c = 63
  · subst h8; exact hl 63 h
  by_cases h9 : c = 0
  · subst h9; exact hl 48 h
  by_cases h10 : c = 34
  · subst h10; exact hl 34 h
  by_cases h11 : c = 39
  · subst h11; exact hl 39 h
  have e2 : escape_byte c = [c] := by
    simp only [escape_byte, h1, h2, h3, h4, h5, h6, h7, h8, h9, h10, h11, if_false]
  rw [e2] at h ⊢
  simp only [List.length_cons, List.length_nil] at h ⊢
  have e1 : printer_append_string_byte p c = printer_append_char p c := by
    simp only [printer_append_string_byte, beq_iff_eq, h1, h2, h3, h4, h5, h6, h7, h8, h9, h10,
      h11, if_false]
    rw [if_neg (by omega)]
  rw [e1]
  exact printer_append_char_fits p c (by omega) hb

theorem printer_append_string_loop_fits (bs : List Nat) :
    ∀ p : printer_t, p.len + (escape bs).length ≤ p.cap → p.buf.length = p.len →
      printer_append_string_loop p bs
        = some ⟨p.len + (escape bs).length, p.cap, p.buf ++ escape bs⟩ := by
  induction bs with
  | nil =>
    intro p _ _
    simp [printer_append_string_loop, escape]
  | cons c cs ih =>
    intro p h hb
    simp only [escape, List.length_append] at h
    have h1 := printer_append_string_byte_fits p c (by omega) hb
    have h2 := ih ⟨p.len + (escape_byte c).length, p.cap, p.buf ++ escape_byte c⟩
      (by simp only; omega) (by simp [hb])
    simp only [printer_append_string_loop, h1, h2, escape, List.length_append,
      List.append_assoc, Nat.add_assoc]

mutual
/-- Where `Sexp.text` of a value fits below the capacity the printer appends
it, without a call of `realloc`. -/
theorem printer_append_sexp_fits {α : Type} (lg : α → List Nat) :
    (e : Sexp α) → ∀ (t : List Nat) (p : printer_t), Sexp.text lg e = some t →
      p.buf.length = p.len → p.len + t.length ≤ p.cap → p.cap < 2147483647 →
      printer_append_sexp lg p e = some ⟨p.len + t.length, p.cap, p.buf ++ t⟩
  | .null => by
    intro t p ht
    simp [Sexp.text] at ht
  | .string len val => by
    intro t p ht hb h hc
    simp only [Sexp.text, Option.some.injEq] at ht
    subst ht
    simp only [List.length_cons, List.length_append, List.length_nil] at h
    have hlen : len ≤ (escape (mem_take val len)).length := by
      have := length_le_escape (mem_take val len)
      rwa [mem_take_length] at this
    have hi : (to_int (len : Int)).toNat = len := by
      rw [to_int_of_lt len (by omega)]
      simp
    have h1 := printer_append_char_fits p 34 (by omega) hb
    have h2 := printer_append_string_loop_fits (mem_take val len) ⟨p.len + 1, p.cap, p.buf ++ [34]⟩
      (by simp only; omega) (by simp [hb])
    have h3 := printer_append_char_fits
      ⟨p.len + 1 + (escape (mem_take val len)).length, p.cap,
        p.buf ++ [34] ++ escape (mem_take val len)⟩ 34 (by simp only; omega) (by simp [hb]; omega)
    simp only [printer_append_sexp, printer_append_sexp_string]
    rw [hi]
    simp only [h1, h2, h3, List.length_cons, List.length_append, List.length_nil,
      Option.some.injEq, printer_t.mk.injEq]
    refine ⟨by omega, trivial, by simp⟩
  | .symbol len val => by
    intro t p ht hb h _
    simp only [Sexp.text, Option.some.injEq] at ht
    subst ht
    rw [mem_take_length] at h ⊢
    simp only [printer_append_sexp, printer_append_sexp_symbol]
    exact printer_append_lpstring_fits p val len h hb
  | .number val => by
    intro t p ht hb h _
    simp only [Sexp.text, Option.some.injEq] at ht
    subst ht
    simp only [printer_append_sexp, printer_append_sexp_number]
    rw [printer_append_lpstring_fits p (lg val) (lg val).length h hb, mem_take_self]
  | .list len cap elements => by
    intro t p ht hb h hc
    simp only [Sexp.text] at ht
    cases hts : Sexp.texts lg 0 len elements with
    | none => rw [hts] at ht; simp at ht
    | some r =>
      rw [hts] at ht
      simp only [Option.some.injEq] at ht
      subst ht
      simp only [List.length_cons, List.length_append, List.length_nil] at h
      have h1 := printer_append_char_fits p 40 (by omega) hb
      have h2 := printer_append_list_loop_fits lg elements 0 len r
        ⟨p.len + 1, p.cap, p.buf ++ [40]⟩ hts (by simp [hb]) (by simp only; omega) hc
        (by simp only; omega) (by simp only; omega)
      have h3 := printer_append_char_fits
        ⟨p.len + 1 + r.length, p.cap, p.buf ++ [40] ++ r⟩ 41 (by simp only; omega)
        (by simp [hb]; omega)
      simp only [printer_append_sexp, h1, h2, h3, List.length_cons, List.length_append,
        List.length_nil, Option.some.injEq, printer_t.mk.injEq]
      refine ⟨by omega, trivial, by simp⟩
/-- Where `Sexp.texts` of the elements fits below the capacity the loop of
`printer_append_sexp_list` appends it. -/
theorem printer_append_list_loop_fits {α : Type} (lg : α → List Nat) :
    (es : List (Sexp α)) → ∀ (i len : Nat) (t : List Nat) (p : printer_t),
      Sexp.texts lg i len es = some t → p.buf.length = p.len → p.len + t.length ≤ p.cap →
      p.cap < 2147483647 → i ≤ p.len → 1 ≤ p.len →
      printer_append_list_loop lg p i len es = some ⟨p.len + t.length, p.cap, p.buf ++ t⟩
  | [] => by
    intro i len t p ht _ _ _ _ _
    by_cases hi : i < len
    · simp [Sexp.texts, hi] at ht
    · simp only [Sexp.texts, hi, if_false, Option.some.injEq] at ht
      subst ht
      simp [printer_append_list_loop, hi]
  | e :: es => by
    intro i len t p ht hb h hc hip h1p
    by_cases hi : i < len
    · simp only [Sexp.texts, hi, if_true] at ht
      cases hte : Sexp.text lg e with
      | none => rw [hte] at ht; simp at ht
      | some te =>
        rw [hte] at ht
        simp only at ht
        cases htr : Sexp.texts lg (i + 1) len es with
        | none => rw [htr] at ht; simp at ht
        | some r =>
          rw [htr] at ht
          simp only [Option.some.injEq] at ht
          subst ht
          simp only [List.length_append] at h
          have hsp : (if 0 < i then printer_append_char p 32 else some p)
              = some ⟨p.len + (if 0 < i then [32] else []).length, p.cap,
                  p.buf ++ (if 0 < i then [32] else [])⟩ := by
            by_cases h0 : 0 < i
            · simp only [h0, if_true, List.length_cons, List.length_nil] at h ⊢
              exact printer_append_char_fits p 32 (by omega) hb
            · simp [h0]
          have hlen2 : (p.buf ++ (if 0 < i then [32] else [])).length
              = p.len + (if 0 < i then [32] else []).length := by
            simp [hb]
          have he := printer_append_sexp_fits lg e te
            ⟨p.len + (if 0 < i then [32] else []).length, p.cap,
              p.buf ++ (if 0 < i then [32] else [])⟩ hte hlen2 (by simp only; omega) hc
          have hsl : (if 0 < i then [32] else ([] : List Nat)).length = if 0 < i then 1 else 0 := by
            by_cases h0 : 0 < i <;> simp [h0]
          have hl := printer_append_list_loop_fits lg es (i + 1) len r
            ⟨p.len + (if 0 < i then [32] else []).length + te.length, p.cap,
              p.buf ++ (if 0 < i then [32] else []) ++ te⟩ htr
            (by simp [hb, Nat.add_assoc]) (by simp only; omega) hc
            (by
              simp only [hsl]
              by_cases h0 : 0 < i
              · simp only [h0, if_true]; omega
              · simp only [h0, if_false]; omega)
            (by simp only; omega)
          have hg : ¬ 2147483647 ≤ i := by omega
          simp only [printer_append_list_loop, hi, if_true, hsp, he, hg, if_false, hl,
            List.length_append, Option.some.injEq, printer_t.mk.injEq]
          refine ⟨by omega, trivial, by simp⟩
    · simp only [Sexp.texts, hi, if_false, Option.some.injEq] at ht
      subst ht
      simp [printer_append_list_loop, hi]
end

theorem printer_new_ok : printer_ok printer_new := ⟨by decide, rfl⟩

/-- A value whose `Sexp.text` is at most 64 bytes long, the capacity of a new
printer: `sexp_display` returns that text and the terminator. -/
theorem sexp_display_of_fits {α : Type} (lg : α → List Nat) (e : Sexp α) (t : List Nat)
    (ht : Sexp.text lg e = some t) (h : t.length ≤ 64) :
    sexp_display lg e = some (t ++ [0]) := by
  have h1 := printer_append_sexp_fits lg e t printer_new ht rfl
    (by simp only [printer_new]; omega) (by simp only [printer_new]; omega)
  unfold sexp_display
  rw [h1]
  simp only [printer_cstr, printer_new, List.nil_append, Nat.zero_add, mem_take_self]

theorem intercalate_cons_eq (t : List Nat) (ts : List (List Nat)) :
    List.intercalate [32] (t :: ts) = t ++ ts.foldr (fun u r => 32 :: (u ++ r)) [] := by
  induction ts generalizing t with
  | nil => simp [List.intercalate]
  | cons u us ih =>
    have h := ih u
    simp only [List.intercalate, List.intersperse, List.foldr_cons] at h ⊢
    simp only [List.flatten_cons, h]
    simp

theorem texts_more_eq {α : Type} (lg : α → List Nat) (es : List (Sexp α)) (i len : Nat)
    (ts : List (List Nat)) (hi : 0 < i)
    (h : List.Forall₂ (fun c t => Sexp.text lg c = some t) (es.take (len - i)) ts)
    (hlen : len - i ≤ es.length) :
    Sexp.texts lg i len es = some (ts.foldr (fun u r => 32 :: (u ++ r)) []) := by
  induction es generalizing i ts with
  | nil =>
    simp only [List.take_nil, List.forall₂_nil_left_iff] at h
    subst h
    have : ¬ i < len := by simp at hlen; omega
    simp [Sexp.texts, this]
  | cons e es ih =>
    by_cases hlt : i < len
    · have hk : len - i = (len - (i + 1)) + 1 := by omega
      rw [hk, List.take_succ_cons] at h
      cases h with
      | cons h1 h2 =>
        rename_i t ts1
        have := ih (i + 1) ts1 (by omega) h2 (by simp at hlen; omega)
        simp [Sexp.texts, hlt, h1, this, hi]
    · have hk : len - i = 0 := by omega
      rw [hk, List.take_zero] at h
      simp only [List.forall₂_nil_left_iff] at h
      subst h
      simp [Sexp.texts, hlt]

/-- A list whose text is at most 64 bytes long, the capacity of a new printer:
the buffer that `sexp_display` returns for the children `c1..cn` (the first
`len` slots of the storage) is an open parenthesis, the texts of the children
in order with exactly one space between two of them, a close parenthesis, and
the terminator; the empty list prints as `()`. -/
theorem sexp_display_list_fits {α : Type} (lg : α → List Nat) (len cap : Nat)
    (elements : List (Sexp α)) (ts : List (List Nat)) (hlen : len ≤ elements.length)
    (h : List.Forall₂ (fun c t => Sexp.text lg c = some t) (elements.take len) ts)
    (hfit : (List.intercalate [32] ts).length + 2 ≤ 64) :
    sexp_display lg (Sexp.list len cap elements)
        = some (40 :: (List.intercalate [32] ts ++ [41, 0])) ∧
      sexp_display lg (Sexp.list 0 cap elements) = some [40, 41, 0] := by
  have h0 : ∀ es : List (Sexp α), Sexp.texts lg 0 0 es = some [] := by
    intro es; cases es <;> simp [Sexp.texts]
  refine ⟨?_, sexp_display_of_fits lg _ [40, 41] (by simp [Sexp.text, h0]) (by decide)⟩
  have key : Sexp.text lg (Sexp.list len cap elements)
      = some (40 :: (List.intercalate [32] ts ++ [41])) := by
    cases elements with
    | nil =>
      simp only [List.take_nil, List.forall₂_nil_left_iff] at h
      subst h
      have : len = 0 := by simpa using hlen
      subst this
      simp [Sexp.text, Sexp.texts, List.intercalate]
    | cons e es =>
      cases len with
      | zero =>
        simp only [List.take_zero, List.forall₂_nil_left_iff] at h
        subst h
        simp [Sexp.text, Sexp.texts, List.intercalate]
      | succ k =>
        rw [List.take_succ_cons] at h
        cases h with
        | cons h1 h2 =>
          rename_i t ts1
          have hm := texts_more_eq lg es 1 (k + 1) ts1 (by omega) (by simpa using h2)
            (by simp at hlen; omega)
          rw [intercalate_cons_eq]
          simp [Sexp.text, Sexp.texts, h1, hm]
  have := sexp_display_of_fits lg _ _ key (by
    simp only [List.length_cons, List.length_append, List.length_nil]
    omega)
  simpa using this

/-- C10, the code at the failing input, the list of the number 1 and the String
of 62 bytes `a`: each child alone is printed (the String as its 64 bytes, the
capacity of a new printer). Inside the list the String starts at offset 3; its
61st byte finds `len` 64 and `cap` 64, so `printer_ensure` inside
`printer_append_char` calls `realloc`, and the `default` branch of the switch
drops the pointer that comes back: the printing of the list goes on with a
pointer to a block that was handed to `realloc`, and does not return the
text. -/
theorem sexp_display_list_stale_printer :
    sexp_display lg_digits (Sexp.number 1 : Sexp Nat) = some [49, 0] ∧
    sexp_display lg_digits (Sexp.string 62 (List.replicate 62 97 ++ [0]) : Sexp Nat)
      = some (34 :: (List.replicate 62 97 ++ [34, 0])) ∧
    printer_calls printer_new [.append_char 40, .append_lpstring [49] 1, .append_char 32,
        .append_char 34]
      = some ⟨4, 64, [40, 49, 32, 34]⟩ ∧
    printer_append_string_loop ⟨4, 64, [40, 49, 32, 34]⟩ (List.replicate 60 97)
      = some ⟨64, 64, [40, 49, 32, 34] ++ List.replicate 60 97⟩ ∧
    printer_append_string_byte ⟨64, 64, [40, 49, 32, 34] ++ List.replicate 60 97⟩ 97 = none ∧
    sexp_display lg_digits
      (Sexp.list 2 2 [.number 1, .string 62 (List.replicate 62 97 ++ [0])] : Sexp Nat) = none := by
  decide!

/-! ## Lexer: the scanning loops -/

theorem peek_nil : peek [] = 0 := rfl

theorem peek_cons (c : Nat) (cs : List Nat) : peek (c :: cs) = c := rfl

theorem lt_length_of_peek_ne_zero (s : List Nat) (n : Nat) (h : peek (s.drop n) ≠ 0) :
    n < s.length := by
  by_contra hn
  rw [List.drop_of_length_le (by omega)] at h
  exact h rfl

theorem skip_ws_le (s : List Nat) : skip_ws s ≤ s.length := by
  induction s with
  | nil => simp [skip_ws]
  | cons c cs ih =>
    unfold skip_ws
    split
    · simp; omega
    · simp

theorem skip_ws_stop (s : List Nat) : isws (peek (s.drop (skip_ws s))) = false := by
  induction s with
  | nil => simp [skip_ws, peek, isws]
  | cons c cs ih =>
    unfold skip_ws
    by_cases h : isws c = true
    · simp only [h, if_true, List.drop_succ_cons]; exact ih
    · simp only [h, List.drop_zero, peek_cons]
      simpa using h

theorem skip_line_le (s : List Nat) : skip_line s ≤ s.length := by
  induction s with
  | nil => simp [skip_line]
  | cons c cs ih =>
    unfold skip_line
    split
    · simp; omega
    · simp

theorem skip_line_pos (s : List Nat) (h : peek s = 59) : 1 ≤ skip_line s := by
  cases s with
  | nil => simp [peek] at h
  | cons c cs =>
    simp only [peek_cons] at h
    subst h
    simp [skip_line]

theorem atom_byte_iff (c : Nat) : atom_byte c = true ↔
    c ≠ 0 ∧ c ≠ 32 ∧ c ≠ 10 ∧ c ≠ 9 ∧ c ≠ 12 ∧ c ≠ 59 ∧ c ≠ 40 ∧ c ≠ 123 ∧ c ≠ 91 ∧ c ≠ 93 ∧
      c ≠ 125 ∧ c ≠ 41 ∧ c ≠ 34 := by
  simp [atom_byte, atom_stops]

theorem scan_atom_le (s : List Nat) : scan_atom s ≤ s.length := by
  induction s with
  | nil => simp [scan_atom]
  | cons c cs ih =>
    unfold scan_atom
    split
    · simp; omega
    · simp

theorem scan_atom_pos (s : List Nat) (h : atom_byte (peek s) = true) : 1 ≤ scan_atom s := by
  cases s with
  | nil => simp [peek, atom_byte] at h
  | cons c cs =>
    simp only [peek_cons, atom_byte] at h
    simp only [scan_atom, h, if_true]
    omega

/-- The `skip:` loop ends inside the buffer, at a byte that is neither
whitespace nor the start of a comment: its fuel does not run out. -/
theorem lexer_skip_stop (fuel : Nat) (s : List Nat) (hf : s.length < fuel) :
    lexer_skip fuel s ≤ s.length ∧ isws (peek (s.drop (lexer_skip fuel s))) = false ∧
      peek (s.drop (lexer_skip fuel s)) ≠ 59 := by
  induction fuel generalizing s with
  | zero => omega
  | succ f ih =>
    unfold lexer_skip
    have h1 := skip_ws_le s
    have h2 := skip_ws_stop s
    by_cases hc : peek (s.drop (skip_ws s)) = 59
    · simp only [hc, beq_self_eq_true, if_true]
      have hk := skip_line_pos _ hc
      have hk2 := skip_line_le (s.drop (skip_ws s))
      rw [List.length_drop] at hk2
      have hlen : (s.drop (skip_ws s + skip_line (s.drop (skip_ws s)))).length < f := by
        rw [List.length_drop]; omega
      obtain ⟨a, b, c⟩ := ih _ hlen
      rw [List.length_drop] at a
      rw [List.drop_drop] at b c
      refine ⟨by omega, ?_, ?_⟩
      · exact b
      · exact c
    · have : (peek (s.drop (skip_ws s)) == 59) = false := by simpa using hc
      simp only [this]
      exact ⟨h1, h2, hc⟩

/-- The tokens of `lexer_scan`: offsets inside the buffer, non-empty `OPEN`,
`CLOSE`, `STRING` and atom tokens, and an opening bracket under an `OPEN`. -/
theorem lexer_scan_spec (s : List Nat) (t : token_type) (st en : Nat)
    (h : lexer_scan s = some (t, st, en)) :
    st ≤ en ∧ en ≤ s.length ∧ (t ≠ .TT_EOF → st < en) ∧ t ≠ .TT_ERR ∧
      (t = .TT_OPEN → list_term (peek (s.drop st)) ≠ 0) ∧
      (t = .TT_CLOSE → peek (s.drop st) = 41 ∨ peek (s.drop st) = 125 ∨ peek (s.drop st) = 93) ∧
      (t = .TT_STRING → peek (s.drop st) = 34 ∧ st + 2 ≤ en ∧ peek (s.drop (en - 1)) = 34) ∧
      (t = .TT_EOF → peek (s.drop st) = 0) := by
  obtain ⟨hs1, hs2, hs3⟩ := lexer_skip_stop (s.length + 1) s (by omega)
  unfold lexer_scan at h
  simp only at h
  generalize lexer_skip (s.length + 1) s = start at h hs1 hs2 hs3
  by_cases c0 : peek (s.drop start) = 0
  · simp only [c0, beq_self_eq_true, if_true, Option.some.injEq, Prod.mk.injEq] at h
    obtain ⟨rfl, rfl, rfl⟩ := h
    simp [c0]
    exact hs1
  have hlt := lt_length_of_peek_ne_zero s start c0
  have c0b : (peek (s.drop start) == 0) = false := by simpa using c0
  rw [c0b] at h
  simp only [Bool.false_eq_true, if_false] at h
  by_cases c1 : peek (s.drop start) = 34
  · simp only [c1, beq_self_eq_true, if_true] at h
    split at h
    · rename_i hq
      simp only [Option.some.injEq, Prod.mk.injEq] at h
      obtain ⟨rfl, rfl, rfl⟩ := h
      have hq2 : peek (s.drop (start + 1 + scan_string (s.drop (start + 1)))) = 34 := by
        simpa using hq
      have := lt_length_of_peek_ne_zero s _ (by rw [hq2]; decide)
      refine ⟨by omega, by omega, fun _ => by omega, by simp, by simp, by simp, ?_, by simp⟩
      intro _
      exact ⟨c1, by omega, by simpa using hq2⟩
    · exact absurd h (by simp)
  have c1b : (peek (s.drop start) == 34) = false := by simpa using c1
  rw [c1b] at h
  simp only [Bool.false_eq_true, if_false] at h
  split at h
  · rename_i ho
    simp only [Option.some.injEq, Prod.mk.injEq] at h
    obtain ⟨rfl, rfl, rfl⟩ := h
    refine ⟨by omega, by omega, fun _ => by omega, by simp, ?_, by simp, by simp, by simp⟩
    intro _
    simp only [Bool.or_eq_true, beq_iff_eq] at ho
    rcases ho with (ho | ho) | ho <;> simp [ho, list_term]
  split at h
  · rename_i ho hc
    simp only [Option.some.injEq, Prod.mk.injEq] at h
    obtain ⟨rfl, rfl, rfl⟩ := h
    refine ⟨by omega, by omega, fun _ => by omega, by simp, by simp, ?_, by simp, by simp⟩
    intro _
    simpa [or_assoc] using hc
  · rename_i ho hc
    simp only [Option.some.injEq, Prod.mk.injEq] at h
    obtain ⟨rfl, rfl, rfl⟩ := h
    have hab : atom_byte (peek (s.drop start)) = true := by
      simp only [Bool.or_eq_true, beq_iff_eq, not_or] at ho hc
      simp only [isws, Bool.or_eq_false_iff, beq_eq_false_iff_ne] at hs2
      obtain ⟨⟨⟨w1, w2⟩, w3⟩, w4⟩ := hs2
      obtain ⟨⟨o1, o2⟩, o3⟩ := ho
      obtain ⟨⟨k1, k2⟩, k3⟩ := hc
      rw [atom_byte_iff]
      exact ⟨c0, w1, w4, w2, w3, hs3, o1, o2, o3, k3, k2, k1, c1⟩
    have hp := scan_atom_pos _ hab
    have hl := scan_atom_le (s.drop start)
    rw [List.length_drop] at hl
    exact ⟨by omega, by omega, fun _ => by omega, by simp, by simp, by simp, by simp, by simp⟩

/-! ## Lexer: `lexer_next` -/

theorem lexer_next_src (lex : lexer) : (lexer_next lex).src = lex.src := by
  unfold lexer_next
  split <;> rfl

/-- The effect of `lexer_next`: at `fail` the type becomes `TT_ERR` and nothing
else changes, at `done` the token that `lexer_scan` found is stored. -/
theorem lexer_next_cases (lex : lexer) :
    (lexer_scan (lex.src.drop lex.end_) = none ∧ lexer_next lex = { lex with type := .TT_ERR }) ∨
    ∃ t st en, lexer_scan (lex.src.drop lex.end_) = some (t, st, en) ∧
      lexer_next lex = ⟨t, lex.src, lex.end_ + st, lex.end_ + en⟩ := by
  unfold lexer_next
  cases h : lexer_scan (lex.src.drop lex.end_) with
  | none => exact Or.inl ⟨rfl, rfl⟩
  | some r =>
    obtain ⟨t, st, en⟩ := r
    exact Or.inr ⟨t, st, en, rfl, rfl⟩

/-- The lexer after `lexer_next` stays inside the buffer, never moves back, and
moves forward over every `OPEN`, `CLOSE`, `STRING` or atom token. -/
theorem lexer_next_ok (lex : lexer) (h : lex.end_ ≤ lex.src.length) :
    lexer_ok (lexer_next lex) ∧ lex.end_ ≤ (lexer_next lex).end_ ∧
      ((lexer_next lex).type ≠ .TT_EOF → (lexer_next lex).type ≠ .TT_ERR →
        lex.end_ < (lexer_next lex).end_) := by
  rcases lexer_next_cases lex with ⟨_, he⟩ | ⟨t, st, en, hs, he⟩
  · rw [he]
    exact ⟨⟨h, by simp⟩, le_refl _, by simp⟩
  · obtain ⟨h1, h2, h3, h4, h5, _⟩ := lexer_scan_spec _ _ _ _ hs
    rw [List.length_drop] at h2
    rw [he]
    refine ⟨⟨by simp only; omega, ?_⟩, by simp only; omega, ?_⟩
    · intro ht
      have := h5 ht
      rwa [List.drop_drop] at this
    · intro hne _
      have := h3 hne
      simp only; omega

/-! ## Parser: the string and atom readers return -/

theorem unescaped_length_loop_some (src : List Nat) (len f p res : Nat) (h : len ≤ p + f) :
    ∃ r, unescaped_length_loop src len (f + 1) p res = some r := by
  induction f generalizing p res with
  | zero =>
    unfold unescaped_length_loop
    rw [if_neg (by omega)]
    exact ⟨res, rfl⟩
  | succ f ih =>
    unfold unescaped_length_loop
    by_cases hp : p < len
    · rw [if_pos hp]
      apply ih
      split <;> omega
    · rw [if_neg hp]
      exact ⟨res, rfl⟩

theorem unescape_loop_some (src : List Nat) (len f p : Nat) (h : len ≤ p + f) :
    ∃ r, unescape_loop src len (f + 1) p = some r := by
  induction f generalizing p with
  | zero =>
    unfold unescape_loop
    rw [if_neg (by omega)]
    exact ⟨[], rfl⟩
  | succ f ih =>
    unfold unescape_loop
    by_cases hp : p < len
    · rw [if_pos hp]
      split
      · obtain ⟨r, hr⟩ := ih (p + 1 + 1) (by omega)
        rw [hr]; exact ⟨_, rfl⟩
      · obtain ⟨r, hr⟩ := ih (p + 1) (by omega)
        rw [hr]; exact ⟨_, rfl⟩
    · rw [if_neg hp]
      exact ⟨[], rfl⟩

theorem unescaped_length_some (src : List Nat) (n : Int) :
    ∃ r, unescaped_length src n = some r := by
  unfold unescaped_length
  exact unescaped_length_loop_some _ _ _ 0 0 (by omega)

theorem unescape_some (src : List Nat) (n : Int) : ∃ r, unescape src n = some r := by
  unfold unescape
  exact unescape_loop_some _ _ _ 0 (by omega)

/-- On a `STRING` token `sexp_read_string` returns a string and moves to the next
token. -/
theorem sexp_read_string_some {α : Type} (lex : lexer) (h : lex.type = .TT_STRING) :
    ∃ l val, (sexp_read_string lex : Option (Sexp α × lexer))
      = some (Sexp.string l val, lexer_next lex) := by
  unfold sexp_read_string
  rw [if_neg (by simp [h])]
  simp only
  obtain ⟨r1, h1⟩ := unescaped_length_some (lex.src.drop (lex.start + 1))
    (to_int ((lex.end_ : Int) - 1 - ((lex.start : Int) + 1)))
  obtain ⟨r2, h2⟩ := unescape_some (lex.src.drop (lex.start + 1))
    (to_int ((lex.end_ : Int) - 1 - ((lex.start : Int) + 1)))
  rw [h1]
  simp only [sexp_new_string_len, h2]
  exact ⟨_, _, rfl⟩

/-- On a `STRING` token or an atom `sexp_read_any` returns a value that is not
`NULL` and moves to the next token. -/
theorem sexp_read_any_atom {α : Type} (strtod : List Nat → α × Nat) (fuel : Nat) (lex : lexer)
    (h : lex.type = .TT_STRING ∨ lex.type = .TT_ELSE) :
    ∃ e, sexp_read_any strtod (fuel + 1) lex = some (e, lexer_next lex) ∧ e ≠ Sexp.null := by
  unfold sexp_read_any
  rcases h with h | h
  · rw [h]
    obtain ⟨l, val, hs⟩ := @sexp_read_string_some α lex h
    exact ⟨_, hs, by simp⟩
  · rw [h]
    simp only [sexp_read_number, sexp_read_symbol, h, sexp_new_number, sexp_new_symbol_len]
    by_cases hn : (strtod (cstr (lex.src.drop lex.start))).2 = 0
    · simp [hn]
    · simp [hn]

/-- At `CLOSE`, `EOF` or `ERR` the loop of `sexp_read_list_items` ends at once:
with the list at `CLOSE`, with `NULL` otherwise. -/
theorem sexp_read_list_loop_stop {α : Type} (strtod : List Nat → α × Nat) (fuel : Nat)
    (lex : lexer) (list : Sexp α)
    (h : lex.type = .TT_CLOSE ∨ lex.type = .TT_EOF ∨ lex.type = .TT_ERR) :
    sexp_read_list_loop strtod (fuel + 1) lex list
      = some (if lex.type = .TT_CLOSE then list else Sexp.null, lex) := by
  unfold sexp_read_list_loop
  rcases h with h | h | h <;> simp [h]

/-! ## Parser: more fuel changes nothing -/

theorem sexp_read_fuel_succ {α : Type} (strtod : List Nat → α × Nat) (n : Nat) :
    (∀ lex r, sexp_read_any strtod n lex = some r → sexp_read_any strtod (n + 1) lex = some r) ∧
    (∀ lex r, sexp_read_list strtod n lex = some r → sexp_read_list strtod (n + 1) lex = some r) ∧
    (∀ lex l r, sexp_read_list_loop strtod n lex l = some r →
      sexp_read_list_loop strtod (n + 1) lex l = some r) := by
  induction n with
  | zero =>
    refine ⟨?_, ?_, ?_⟩
    · intro lex r h; simp [sexp_read_any] at h
    · intro lex r h; simp [sexp_read_list] at h
    · intro lex l r h; simp [sexp_read_list_loop] at h
  | succ n ih =>
    obtain ⟨ih1, ih2, ih3⟩ := ih
    refine ⟨?_, ?_, ?_⟩
    · intro lex r h
      unfold sexp_read_any at h ⊢
      cases ht : lex.type <;> rw [ht] at h <;> simp only at h ⊢ <;> first
        | exact h
        | exact ih2 _ _ h
    · intro lex r h
      unfold sexp_read_list at h ⊢
      simp only at h ⊢
      by_cases hz : list_term (peek (lex.src.drop lex.start)) = 0
      · rw [if_pos hz] at h; exact absurd h (by simp)
      · rw [if_neg hz] at h ⊢
        cases hl : sexp_read_list_loop strtod n (lexer_next lex) sexp_new_list with
        | none => rw [hl] at h; exact absurd h (by simp)
        | some q =>
          rw [hl] at h
          rw [ih3 _ _ _ hl]
          exact h
    · intro lex l r h
      unfold sexp_read_list_loop at h ⊢
      by_cases hc : lex.type ≠ .TT_CLOSE ∧ lex.type ≠ .TT_EOF ∧ lex.type ≠ .TT_ERR
      · rw [if_pos hc] at h ⊢
        cases ha : sexp_read_any strtod n lex with
        | none => rw [ha] at h; exact absurd h (by simp)
        | some q =>
          rw [ha] at h
          rw [ih1 _ _ ha]
          obtain ⟨item, lex1⟩ := q
          simp only at h ⊢
          cases hp : sexp_list_append l item with
          | none => rw [hp] at h; exact absurd h (by simp)
          | some l1 =>
            rw [hp] at h
            simp only at h ⊢
            exact ih3 _ _ _ h
      · rw [if_neg hc] at h ⊢
        exact h

/-- A value that `sexp_read_any` returns with some fuel is returned with any
larger fuel. -/
theorem sexp_read_any_fuel_le {α : Type} (strtod : List Nat → α × Nat) (n m : Nat) (lex : lexer)
    (r : Sexp α × lexer) (hnm : n ≤ m) (h : sexp_read_any strtod n lex = some r) :
    sexp_read_any strtod m lex = some r := by
  induction m with
  | zero =>
    have : n = 0 := by omega
    subst this; exact h
  | succ k ih =>
    by_cases hk : n ≤ k
    · exact (sexp_read_fuel_succ strtod k).1 _ _ (ih hk)
    · have : n = k + 1 := by omega
      subst this; exact h

theorem sexp_read_list_loop_fuel_le {α : Type} (strtod : List Nat → α × Nat) (n m : Nat)
    (lex : lexer) (l : Sexp α) (r : Sexp α × lexer) (hnm : n ≤ m)
    (h : sexp_read_list_loop strtod n lex l = some r) :
    sexp_read_list_loop strtod m lex l = some r := by
  induction m with
  | zero =>
    have : n = 0 := by omega
    subst this; exact h
  | succ k ih =>
    by_cases hk : n ≤ k
    · exact (sexp_read_fuel_succ strtod k).2.2 _ _ _ (ih hk)
    · have : n = k + 1 := by omega
      subst this; exact h

/-! ## Parser: termination -/

/-- The parser returns. With `d` bytes left behind the current token, fuel
`3 * d + 3` is enough for `sexp_read_any` and `3 * d + 4` for the loop of
`sexp_read_list_items`; the lexer they leave stays inside the buffer, and has
moved forward unless it stopped at `EOF` or `ERR`. -/
theorem sexp_read_returns {α : Type} (strtod : List Nat → α × Nat) (d : Nat) :
    (∀ (lex : lexer) (fuel : Nat), lexer_ok lex → lex.src.length - lex.end_ ≤ d →
      3 * d + 3 ≤ fuel →
      ∃ e lex1, sexp_read_any strtod fuel lex = some (e, lex1) ∧ lex1.src = lex.src ∧
        lexer_ok lex1 ∧ lex.end_ ≤ lex1.end_ ∧
        (is_item lex.type → lex1.type = .TT_EOF ∨ lex1.type = .TT_ERR ∨ lex.end_ < lex1.end_)) ∧
    (∀ (lex : lexer) (list : Sexp α) (fuel : Nat), lexer_ok lex → list_wf list →
      lex.src.length - lex.end_ ≤ d → 3 * d + 4 ≤ fuel →
      ∃ r lex1, sexp_read_list_loop strtod fuel lex list = some (r, lex1) ∧ lex1.src = lex.src ∧
        lexer_ok lex1 ∧ lex.end_ ≤ lex1.end_ ∧
        (lex1.type = .TT_CLOSE ∨ lex1.type = .TT_EOF ∨ lex1.type = .TT_ERR) ∧
        (r = Sexp.null ∨ list_wf r)) := by
  induction d using Nat.strong_induction_on with
  | _ d ih =>
    have part1 : ∀ (lex : lexer) (fuel : Nat), lexer_ok lex → lex.src.length - lex.end_ ≤ d →
        3 * d + 3 ≤ fuel →
        ∃ e lex1, sexp_read_any strtod fuel lex = some (e, lex1) ∧ lex1.src = lex.src ∧
          lexer_ok lex1 ∧ lex.end_ ≤ lex1.end_ ∧
          (is_item lex.type → lex1.type = .TT_EOF ∨ lex1.type = .TT_ERR ∨
            lex.end_ < lex1.end_) := by
      intro lex fuel hok hd hf
      obtain ⟨f, rfl⟩ : ∃ f, fuel = f + 1 := ⟨fuel - 1, by omega⟩
      have hnext := lexer_next_ok lex hok.1
      cases ht : lex.type with
      | TT_EOF =>
        exact ⟨.null, lex, by unfold sexp_read_any; rw [ht], rfl, hok, le_refl _, by
          simp [is_item]⟩
      | TT_ERR =>
        exact ⟨.null, lex, by unfold sexp_read_any; rw [ht], rfl, hok, le_refl _, by
          simp [is_item]⟩
      | TT_CLOSE =>
        exact ⟨.null, lex, by unfold sexp_read_any; rw [ht], rfl, hok, le_refl _, by
          simp [is_item]⟩
      | TT_STRING =>
        obtain ⟨e, he, _⟩ := sexp_read_any_atom strtod f lex (Or.inl ht)
        refine ⟨e, _, he, lexer_next_src lex, hnext.1, hnext.2.1, ?_⟩
        intro _
        by_cases h1 : (lexer_next lex).type = .TT_EOF
        · exact Or.inl h1
        by_cases h2 : (lexer_next lex).type = .TT_ERR
        · exact Or.inr (Or.inl h2)
        exact Or.inr (Or.inr (hnext.2.2 h1 h2))
      | TT_ELSE =>
        obtain ⟨e, he, _⟩ := sexp_read_any_atom strtod f lex (Or.inr ht)
        refine ⟨e, _, he, lexer_next_src lex, hnext.1, hnext.2.1, ?_⟩
        intro _
        by_cases h1 : (lexer_next lex).type = .TT_EOF
        · exact Or.inl h1
        by_cases h2 : (lexer_next lex).type = .TT_ERR
        · exact Or.inr (Or.inl h2)
        exact Or.inr (Or.inr (hnext.2.2 h1 h2))
      | TT_OPEN =>
        obtain ⟨g, rfl⟩ : ∃ g, f = g + 1 := ⟨f - 1, by omega⟩
        have hterm := hok.2 ht
        -- the loop over the items, from the token behind the bracket
        have hloop : ∃ r lex1, sexp_read_list_loop strtod g (lexer_next lex) sexp_new_list
            = some (r, lex1) ∧ lex1.src = lex.src ∧ lexer_ok lex1 ∧
            (lexer_next lex).end_ ≤ lex1.end_ ∧
            (lex1.type = .TT_EOF ∨ lex1.type = .TT_ERR ∨ lex.end_ < lex1.end_) := by
          by_cases h1 : (lexer_next lex).type = .TT_EOF
          · obtain ⟨g1, rfl⟩ : ∃ g1, g = g1 + 1 := ⟨g - 1, by omega⟩
            exact ⟨_, _, sexp_read_list_loop_stop strtod g1 _ _ (Or.inr (Or.inl h1)),
              lexer_next_src lex, hnext.1, le_refl _, Or.inl h1⟩
          by_cases h2 : (lexer_next lex).type = .TT_ERR
          · obtain ⟨g1, rfl⟩ : ∃ g1, g = g1 + 1 := ⟨g - 1, by omega⟩
            exact ⟨_, _, sexp_read_list_loop_stop strtod g1 _ _ (Or.inr (Or.inr h2)),
              lexer_next_src lex, hnext.1, le_refl _, Or.inr (Or.inl h2)⟩
          have hadv := hnext.2.2 h1 h2
          have hle := hnext.1.1
          rw [lexer_next_src] at hle
          obtain ⟨r, lex1, hr, hs, hk, ha, _, _⟩ :=
            (ih (lex.src.length - (lexer_next lex).end_) (by omega)).2 (lexer_next lex)
              sexp_new_list g hnext.1 ⟨le_refl _, rfl⟩ (by rw [lexer_next_src]) (by omega)
          exact ⟨r, lex1, hr, by rw [hs, lexer_next_src], hk, ha, Or.inr (Or.inr (by omega))⟩
        obtain ⟨r, lex1, hr, hs, hk, ha, hadv⟩ := hloop
        have hnext1 := lexer_next_ok lex1 hk.1
        unfold sexp_read_any
        rw [ht]
        simp only
        unfold sexp_read_list
        simp only
        rw [if_neg hterm, hr]
        simp only
        have hfail : ∃ e lex2, (some (Sexp.null, lex1) : Option (Sexp α × lexer)) = some (e, lex2) ∧
            lex2.src = lex.src ∧ lexer_ok lex2 ∧ lex.end_ ≤ lex2.end_ ∧
            (is_item token_type.TT_OPEN → lex2.type = .TT_EOF ∨ lex2.type = .TT_ERR ∨
              lex.end_ < lex2.end_) :=
          ⟨_, _, rfl, hs, hk, by have := hnext.2.1; omega, fun _ => hadv⟩
        have hsucc : ∀ l : Sexp α, ∃ e lex2,
            (some (l, lexer_next lex1) : Option (Sexp α × lexer)) = some (e, lex2) ∧
            lex2.src = lex.src ∧ lexer_ok lex2 ∧ lex.end_ ≤ lex2.end_ ∧
            (is_item token_type.TT_OPEN → lex2.type = .TT_EOF ∨ lex2.type = .TT_ERR ∨
              lex.end_ < lex2.end_) := by
          intro l
          refine ⟨_, _, rfl, by rw [lexer_next_src, hs], hnext1.1, ?_, ?_⟩
          · have := hnext.2.1; have := hnext1.2.1; omega
          · intro _
            by_cases h1 : (lexer_next lex1).type = .TT_EOF
            · exact Or.inl h1
            by_cases h2 : (lexer_next lex1).type = .TT_ERR
            · exact Or.inr (Or.inl h2)
            have := hnext1.2.2 h1 h2
            have := hnext.2.1
            exact Or.inr (Or.inr (by omega))
        cases r with
        | null => simp only; exact hfail
        | string _ _ => simp only; split; exact hfail; exact hsucc _
        | symbol _ _ => simp only; split; exact hfail; exact hsucc _
        | number _ => simp only; split; exact hfail; exact hsucc _
        | list _ _ _ => simp only; split; exact hfail; exact hsucc _
    refine ⟨part1, ?_⟩
    intro lex list fuel hok hwf hd hf
    obtain ⟨f, rfl⟩ : ∃ f, fuel = f + 1 := ⟨fuel - 1, by omega⟩
    by_cases hstop : lex.type = .TT_CLOSE ∨ lex.type = .TT_EOF ∨ lex.type = .TT_ERR
    · refine ⟨_, _, sexp_read_list_loop_stop strtod f lex list hstop, rfl, hok, le_refl _, hstop, ?_⟩
      split
      · exact Or.inr hwf
      · exact Or.inl rfl
    · have hitem : is_item lex.type := by
        simp only [not_or] at hstop
        cases ht : lex.type <;> simp [ht, is_item] at hstop ⊢
      obtain ⟨e, lex1, he, hs, hk, ha, hadv⟩ := part1 lex f hok hd (by omega)
      have hadv := hadv hitem
      obtain ⟨len, cap, es, rfl⟩ : ∃ len cap es, list = Sexp.list len cap es := by
        cases list <;> simp [list_wf] at hwf
        exact ⟨_, _, _, rfl⟩
      obtain ⟨c1, e1, hap, hw1, _⟩ := sexp_list_append_some len cap es e hwf
      have hrest : ∃ r lex2, sexp_read_list_loop strtod f lex1 (Sexp.list (len + 1) c1 e1)
          = some (r, lex2) ∧ lex2.src = lex1.src ∧ lexer_ok lex2 ∧ lex1.end_ ≤ lex2.end_ ∧
          (lex2.type = .TT_CLOSE ∨ lex2.type = .TT_EOF ∨ lex2.type = .TT_ERR) ∧
          (r = Sexp.null ∨ list_wf r) := by
        obtain ⟨g, rfl⟩ : ∃ g, f = g + 1 := ⟨f - 1, by omega⟩
        rcases hadv with h1 | h1 | h1
        · refine ⟨_, _, sexp_read_list_loop_stop strtod g lex1 _ (Or.inr (Or.inl h1)), rfl, hk,
            le_refl _, Or.inr (Or.inl h1), ?_⟩
          split
          · exact Or.inr hw1
          · exact Or.inl rfl
        · refine ⟨_, _, sexp_read_list_loop_stop strtod g lex1 _ (Or.inr (Or.inr h1)), rfl, hk,
            le_refl _, Or.inr (Or.inr h1), ?_⟩
          split
          · exact Or.inr hw1
          · exact Or.inl rfl
        · have hle := hk.1
          rw [hs] at hle
          exact (ih (lex.src.length - lex1.end_) (by omega)).2 lex1 _ (g + 1) hk hw1
            (by rw [hs]) (by omega)
      obtain ⟨r, lex2, hr, hs2, hk2, ha2, hty, hrw⟩ := hrest
      refine ⟨r, lex2, ?_, by rw [hs2, hs], hk2, by omega, hty, hrw⟩
      unfold sexp_read_list_loop
      rw [if_pos (by simpa [not_or] using hstop), he]
      simp only [hap, hr]

theorem lexer_init_next_ok (src : List Nat) : lexer_ok (lexer_next (lexer_init src)) ∧
    (lexer_next (lexer_init src)).src = src :=
  ⟨(lexer_next_ok (lexer_init src) (Nat.zero_le _)).1, lexer_next_src _⟩

/-- The reader `sexp_read` returns on every buffer. -/
theorem sexp_read_total {α : Type} (strtod : List Nat → α × Nat) (src : List Nat) :
    ∃ e off, sexp_read strtod src = some (e, off) := by
  obtain ⟨hok, hsrc⟩ := lexer_init_next_ok src
  obtain ⟨e, lex1, he, _⟩ := (sexp_read_returns strtod src.length).1
    (lexer_next (lexer_init src)) (3 * src.length + 3) hok (by rw [hsrc]; omega) (le_refl _)
  exact ⟨e, lex1.end_, by simp only [sexp_read, he]⟩

/-- Whatever `sexp_read_any` returns at the first token with some fuel is what
`sexp_read` returns. -/
theorem sexp_read_eq_of_fuel {α : Type} (strtod : List Nat → α × Nat) (src : List Nat) (n : Nat)
    (e : Sexp α) (lex1 : lexer)
    (h : sexp_read_any strtod n (lexer_next (lexer_init src)) = some (e, lex1)) :
    sexp_read strtod src = some (e, lex1.end_) := by
  obtain ⟨hok, hsrc⟩ := lexer_init_next_ok src
  obtain ⟨e2, lex2, he, _⟩ := (sexp_read_returns strtod src.length).1
    (lexer_next (lexer_init src)) (3 * src.length + 3) hok (by rw [hsrc]; omega) (le_refl _)
  have h1 := sexp_read_any_fuel_le strtod n (max n (3 * src.length + 3)) _ _ (le_max_left _ _) h
  have h2 := sexp_read_any_fuel_le strtod (3 * src.length + 3) (max n (3 * src.length + 3)) _ _
    (le_max_right _ _) he
  rw [h1] at h2
  simp only [Option.some.injEq, Prod.mk.injEq] at h2
  simp only [sexp_read, he, ← h2.1, ← h2.2]

/-! ## Reader: the reported offset -/

/-- After a string or an atom at the first token, the offset that `sexp_read`
reports is the `end` of the lexer after one more `lexer_next`: the end of the
token that follows the value, when there is one. -/
theorem sexp_read_offset_of_atom {α : Type} (strtod : List Nat → α × Nat) (src : List Nat)
    (h : (lexer_next (lexer_init src)).type = .TT_STRING ∨
      (lexer_next (lexer_init src)).type = .TT_ELSE) :
    ∃ e, e ≠ Sexp.null ∧
      sexp_read strtod src = some (e, (lexer_next (lexer_next (lexer_init src))).end_) := by
  obtain ⟨e, he, hne⟩ := sexp_read_any_atom strtod 0 _ h
  exact ⟨e, hne, sexp_read_eq_of_fuel strtod src 1 e _ he⟩

/-- C3, the code at the failing input, the two strings `"a" "b"`: the value read is
the string `a`, whose text ends at offset 3, and the reported offset is 7, the
end of the second string; reading at offset 3 yields the string `b`, reading at
the reported offset 7 yields nothing. -/
theorem sexp_read_offset_skips_next_form :
    sexp_read strtod_digits [34, 97, 34, 32, 34, 98, 34] = some (Sexp.string 1 [97, 0], 7) ∧
    sexp_read strtod_digits (List.drop 3 [34, 97, 34, 32, 34, 98, 34])
      = some (Sexp.string 1 [98, 0], 4) ∧
    sexp_read strtod_digits (List.drop 7 [34, 97, 34, 32, 34, 98, 34]) = some (Sexp.null, 0) := by
  decide!

/-! ## Reader: unterminated strings -/

/-- When the lexer fails on the first token (an unterminated string literal),
`sexp_read` returns `NULL` and the offset 0. -/
theorem sexp_read_of_scan_fail {α : Type} (strtod : List Nat → α × Nat) (src : List Nat)
    (h : lexer_scan src = none) : sexp_read strtod src = some (Sexp.null, 0) := by
  have hn : lexer_next (lexer_init src) = { lexer_init src with type := .TT_ERR } := by
    unfold lexer_next
    simp only [lexer_init, List.drop_zero, h]
  have := sexp_read_eq_of_fuel strtod src 1 Sexp.null { lexer_init src with type := .TT_ERR } (by
    rw [hn]; rfl)
  simpa [lexer_init] using this

/-- C4, the code at the failing input: the buffer holds the C string of the two
bytes quote, backslash, and behind its terminator a quote. The literal is
unterminated, yet the lexer steps over the terminator and `sexp_read` returns a
string and the offset 4. -/
theorem sexp_read_unterminated_backslash :
    cstr [34, 92, 0, 34, 0] = [34, 92] ∧
    sexp_read strtod_digits [34, 92, 0, 34, 0] = some (Sexp.string 1 [0, 0], 4) := by
  decide!

/-! ## Reader: lists -/

/-- C6, the code at the failing input `([)`: the inner list, opened by `[` and
closed by `)`, is read as `NULL`, the loop appends that `NULL`, and the outer
list is accepted with it as its one element. -/
theorem sexp_read_inner_mismatch_accepted :
    sexp_read strtod_digits [40, 91, 41] = some (Sexp.list 1 2 [Sexp.null, Sexp.null], 3) ∧
    sexp_is_list (Sexp.list 1 2 [Sexp.null, (Sexp.null : Sexp Nat)]) = true ∧
    sexp_list_nth (Sexp.list 1 2 [Sexp.null, (Sexp.null : Sexp Nat)]) 0 = some Sexp.null := by
  decide!

/-- C5. When the first token is an open delimiter and the items of the list end
at a `CLOSE` token whose character is not the closing character of that open
delimiter, `sexp_read` returns `NULL` (and reports the end of that `CLOSE`). -/
theorem sexp_read_shape_mismatch {α : Type} (strtod : List Nat → α × Nat) (src : List Nat)
    (fuel : Nat) (list : Sexp α) (lex2 : lexer)
    (hopen : (lexer_next (lexer_init src)).type = .TT_OPEN)
    (hitems : sexp_read_list_items strtod fuel (lexer_next (lexer_next (lexer_init src)))
      = some (list, lex2))
    (_hclose : lex2.type = .TT_CLOSE)
    (hshape : peek (lex2.src.drop lex2.start)
      ≠ list_term (peek (src.drop (lexer_next (lexer_init src)).start))) :
    sexp_read strtod src = some (Sexp.null, lex2.end_) := by
  obtain ⟨hok, hsrc⟩ := lexer_init_next_ok src
  have hterm := hok.2 hopen
  rw [hsrc] at hterm
  apply sexp_read_eq_of_fuel strtod src (fuel + 2)
  unfold sexp_read_any
  rw [hopen]
  simp only
  unfold sexp_read_list
  simp only
  unfold sexp_read_list_items at hitems
  rw [hsrc, if_neg hterm, hitems]
  cases list <;> simp [hshape]

/-- C5, witness: the input `(1 2]`. -/
theorem sexp_read_shape_mismatch_witness :
    sexp_read strtod_digits [40, 49, 32, 50, 93] = some (Sexp.null, 5) :=
  sexp_read_shape_mismatch strtod_digits [40, 49, 32, 50, 93] 5
    (Sexp.list 2 2 [.number 1, .number 2]) ⟨.TT_CLOSE, [40, 49, 32, 50, 93], 4, 5⟩
    (by decide!) (by decide!) (by decide!) (by decide!)

theorem sexp_read_list_loop_flat {α : Type} (strtod : List Nat → α × Nat) (k : Nat) :
    ∀ (lex : lexer) (list : Sexp α) (fuel : Nat), list_wf list →
      (∀ i, i < k → (lexer_next^[i] lex).type = .TT_STRING ∨
        (lexer_next^[i] lex).type = .TT_ELSE) →
      (lexer_next^[k] lex).type = .TT_EOF → k + 1 ≤ fuel →
      sexp_read_list_loop strtod fuel lex list = some (Sexp.null, lexer_next^[k] lex) := by
  induction k with
  | zero =>
    intro lex list fuel _ _ heof hf
    obtain ⟨f, rfl⟩ : ∃ f, fuel = f + 1 := ⟨fuel - 1, by omega⟩
    simp only [Function.iterate_zero, id_eq] at heof ⊢
    rw [sexp_read_list_loop_stop strtod f lex list (Or.inr (Or.inl heof))]
    simp [heof]
  | succ k ih =>
    intro lex list fuel hwf hitems heof hf
    obtain ⟨f, rfl⟩ : ∃ f, fuel = f + 2 := ⟨fuel - 2, by omega⟩
    have h0 := hitems 0 (by omega)
    simp only [Function.iterate_zero, id_eq] at h0
    obtain ⟨e, he, _⟩ := sexp_read_any_atom strtod f lex h0
    obtain ⟨len, cap, es, rfl⟩ : ∃ len cap es, list = Sexp.list len cap es := by
      cases list <;> simp [list_wf] at hwf
      exact ⟨_, _, _, rfl⟩
    obtain ⟨c1, e1, hap, hw1, _⟩ := sexp_list_append_some len cap es e hwf
    have hrest := ih (lexer_next lex) (Sexp.list (len + 1) c1 e1) (f + 1) hw1
      (fun i hi => by
        have := hitems (i + 1) (by omega)
        simpa only [Function.iterate_succ_apply] using this)
      (by simpa only [Function.iterate_succ_apply] using heof) (by omega)
    unfold sexp_read_list_loop
    rw [if_pos (by rcases h0 with h | h <;> simp [h]), he]
    simp only [hap, hrest, Function.iterate_succ_apply]

/-- C7. When the first token is an open delimiter and the tokens behind it are
`k` strings and atoms followed by the end of input (no `CLOSE` token),
`sexp_read` returns `NULL`. -/
theorem sexp_read_missing_close {α : Type} (strtod : List Nat → α × Nat) (src : List Nat)
    (k : Nat) (hopen : (lexer_next (lexer_init src)).type = .TT_OPEN)
    (hitems : ∀ i, i < k → (lexer_next^[i + 2] (lexer_init src)).type = .TT_STRING ∨
      (lexer_next^[i + 2] (lexer_init src)).type = .TT_ELSE)
    (heof : (lexer_next^[k + 2] (lexer_init src)).type = .TT_EOF) :
    sexp_read strtod src = some (Sexp.null, (lexer_next^[k + 2] (lexer_init src)).end_) := by
  obtain ⟨hok, hsrc⟩ := lexer_init_next_ok src
  have hterm := hok.2 hopen
  have hloop := sexp_read_list_loop_flat strtod k (lexer_next (lexer_next (lexer_init src)))
    sexp_new_list (k + 1) ⟨le_refl _, rfl⟩
    (fun i hi => by
      have := hitems i hi
      simpa only [Function.iterate_succ_apply] using this)
    (by simpa only [Function.iterate_succ_apply] using heof) (le_refl _)
  apply sexp_read_eq_of_fuel strtod src (k + 3)
  unfold sexp_read_any
  rw [hopen]
  simp only
  unfold sexp_read_list
  simp only
  rw [if_neg hterm, hloop]
  simp only [Function.iterate_succ_apply]

/-- C7, witness: the input `( 123` of the reader test, one atom behind the
bracket. -/
theorem sexp_read_missing_close_witness :
    sexp_read strtod_digits [40, 32, 49, 50, 51] = some (Sexp.null, 5) :=
  (sexp_read_missing_close strtod_digits [40, 32, 49, 50, 51] 1 (by decide!)
    (by decide!) (by decide!)).trans (by decide!)

/-! ## Lexer: the tokens of a printed text -/

theorem skip_ws_of_not_ws (s : List Nat) (h : isws (peek s) = false) : skip_ws s = 0 := by
  cases s with
  | nil => rfl
  | cons c cs =>
    simp only [peek_cons] at h
    simp [skip_ws, h]

/-- Before a byte that is neither whitespace nor a semicolon, the `skip:` loop
steps over the blank `ws` (nothing or one space) and stops. -/
theorem lexer_skip_blank (f : Nat) (ws s : List Nat) (hws : ws = [] ∨ ws = [32])
    (h1 : isws (peek s) = false) (h2 : peek s ≠ 59) :
    lexer_skip (f + 1) (ws ++ s) = ws.length := by
  have h2b : (peek s == 59) = false := by simpa using h2
  rcases hws with rfl | rfl
  · simp only [List.nil_append, List.length_nil]
    unfold lexer_skip
    simp only [skip_ws_of_not_ws s h1, List.drop_zero, h2b]
    rfl
  · unfold lexer_skip
    have e : skip_ws ([32] ++ s) = 1 := by
      simp [skip_ws, isws, skip_ws_of_not_ws s h1]
    simp only [e]
    simp [h2b]

theorem lexer_next_of_scan (lexp : lexer) (t : token_type) (st en : Nat)
    (h : lexer_scan (lexp.src.drop lexp.end_) = some (t, st, en)) :
    lexer_next lexp = ⟨t, lexp.src, lexp.end_ + st, lexp.end_ + en⟩ := by
  unfold lexer_next
  rw [h]

theorem not_ws_of_atom_byte (c : Nat) (h : atom_byte c = true) : isws c = false ∧ c ≠ 59 := by
  rw [atom_byte_iff] at h
  obtain ⟨_, a, b, c1, d, e, _⟩ := h
  simp [isws, a, b, c1, d, e]

/-- A blank `ws` (nothing or one space) before a token moves the token by the
length of the blank. -/
theorem lexer_scan_blank (ws s : List Nat) (t : token_type) (st en : Nat)
    (hws : ws = [] ∨ ws = [32]) (h1 : isws (peek s) = false) (h2 : peek s ≠ 59)
    (h : lexer_scan s = some (t, st, en)) :
    lexer_scan (ws ++ s) = some (t, ws.length + st, ws.length + en) := by
  have e0 := lexer_skip_blank s.length [] s (Or.inl rfl) h1 h2
  have e1 := lexer_skip_blank (ws ++ s).length ws s hws h1 h2
  simp only [List.nil_append, List.length_nil] at e0
  unfold lexer_scan at h ⊢
  simp only [e0, e1, List.drop_zero, List.drop_left, Nat.zero_add] at h ⊢
  have d1 : ∀ k, List.drop (ws.length + k) (ws ++ s) = List.drop k s := by
    intro k
    rw [← List.drop_drop, List.drop_left]
  have d2 : ∀ k, List.drop (ws.length + 1 + k) (ws ++ s) = List.drop (1 + k) s := by
    intro k
    rw [Nat.add_assoc, d1]
  simp only [d1, d2]
  split at h
  · rename_i hc
    rw [if_pos hc]
    simp only [Option.some.injEq, Prod.mk.injEq] at h
    obtain ⟨rfl, rfl, rfl⟩ := h
    rfl
  rename_i hc0
  rw [if_neg hc0]
  split at h
  · rename_i hc
    rw [if_pos hc]
    split at h
    · rename_i hq
      rw [if_pos hq]
      simp only [Option.some.injEq, Prod.mk.injEq] at h
      obtain ⟨rfl, rfl, rfl⟩ := h
      simp only [Nat.add_assoc, Nat.add_zero]
    · exact absurd h (by simp)
  rename_i hc1
  rw [if_neg hc1]
  split at h
  · rename_i hc
    rw [if_pos hc]
    simp only [Option.some.injEq, Prod.mk.injEq] at h
    obtain ⟨rfl, rfl, rfl⟩ := h
    rfl
  rename_i hc2
  rw [if_neg hc2]
  split at h
  · rename_i hc
    rw [if_pos hc]
    simp only [Option.some.injEq, Prod.mk.injEq] at h
    obtain ⟨rfl, rfl, rfl⟩ := h
    rfl
  · rename_i hc
    rw [if_neg hc]
    simp only [Option.some.injEq, Prod.mk.injEq] at h
    obtain ⟨rfl, rfl, rfl⟩ := h
    rfl

theorem lexer_next_blank (lexp : lexer) (ws s : List Nat) (t : token_type) (st en : Nat)
    (hws : ws = [] ∨ ws = [32]) (hd : lexp.src.drop lexp.end_ = ws ++ s)
    (h1 : isws (peek s) = false) (h2 : peek s ≠ 59) (h : lexer_scan s = some (t, st, en)) :
    lexer_next lexp = ⟨t, lexp.src, lexp.end_ + ws.length + st, lexp.end_ + ws.length + en⟩ := by
  rw [lexer_next_of_scan lexp t (ws.length + st) (ws.length + en)
    (by rw [hd]; exact lexer_scan_blank ws s t st en hws h1 h2 h)]
  simp only [Nat.add_assoc]

theorem lexer_scan_open (rest : List Nat) : lexer_scan (40 :: rest) = some (.TT_OPEN, 0, 1) := by
  have e0 := lexer_skip_blank (40 :: rest).length [] (40 :: rest) (Or.inl rfl) rfl
    (by simp [peek])
  simp only [List.nil_append, List.length_nil] at e0
  unfold lexer_scan
  simp only [e0, List.drop_zero, peek_cons]
  rfl

theorem lexer_scan_close (rest : List Nat) : lexer_scan (41 :: rest) = some (.TT_CLOSE, 0, 1) := by
  have e0 := lexer_skip_blank (41 :: rest).length [] (41 :: rest) (Or.inl rfl) rfl
    (by simp [peek])
  simp only [List.nil_append, List.length_nil] at e0
  unfold lexer_scan
  simp only [e0, List.drop_zero, peek_cons]
  rfl

theorem lexer_scan_eof (rest : List Nat) (h0 : peek rest = 0) :
    lexer_scan rest = some (.TT_EOF, 0, 0) := by
  have e0 := lexer_skip_blank rest.length [] rest (Or.inl rfl) (by rw [h0]; rfl)
    (by rw [h0]; decide)
  simp only [List.nil_append, List.length_nil] at e0
  unfold lexer_scan
  simp only [e0, List.drop_zero, h0]
  rfl

/-- The lexer at an opening parenthesis. -/
theorem lexer_next_open (lexp : lexer) (ws rest : List Nat) (hws : ws = [] ∨ ws = [32])
    (h : lexp.src.drop lexp.end_ = ws ++ 40 :: rest) :
    lexer_next lexp = ⟨.TT_OPEN, lexp.src, lexp.end_ + ws.length, lexp.end_ + ws.length + 1⟩ :=
  lexer_next_blank lexp ws (40 :: rest) _ 0 1 hws h rfl (by simp [peek]) (lexer_scan_open rest)

/-- The lexer at a closing parenthesis. -/
theorem lexer_next_close (lexp : lexer) (ws rest : List Nat) (hws : ws = [] ∨ ws = [32])
    (h : lexp.src.drop lexp.end_ = ws ++ 41 :: rest) :
    lexer_next lexp = ⟨.TT_CLOSE, lexp.src, lexp.end_ + ws.length, lexp.end_ + ws.length + 1⟩ :=
  lexer_next_blank lexp ws (41 :: rest) _ 0 1 hws h rfl (by simp [peek]) (lexer_scan_close rest)

/-- The lexer at the terminator. -/
theorem lexer_next_eof (lexp : lexer) (ws rest : List Nat) (hws : ws = [] ∨ ws = [32])
    (h : lexp.src.drop lexp.end_ = ws ++ rest) (h0 : peek rest = 0) :
    lexer_next lexp = ⟨.TT_EOF, lexp.src, lexp.end_ + ws.length, lexp.end_ + ws.length⟩ :=
  lexer_next_blank lexp ws rest _ 0 0 hws h (by rw [h0]; rfl) (by rw [h0]; decide)
    (lexer_scan_eof rest h0)

theorem scan_atom_run (bytes rest : List Nat) (hb : ∀ c ∈ bytes, atom_byte c = true)
    (hr : atom_byte (peek rest) = false) : scan_atom (bytes ++ rest) = bytes.length := by
  induction bytes with
  | nil =>
    cases rest with
    | nil => rfl
    | cons c cs =>
      simp only [peek_cons, atom_byte] at hr
      simp only [List.nil_append, scan_atom, hr, Bool.false_eq_true, if_false, List.length_nil]
  | cons c cs ih =>
    have hc := hb c (by simp)
    simp only [atom_byte] at hc
    rw [List.cons_append]
    unfold scan_atom
    rw [if_pos hc, ih (fun x hx => hb x (by simp [hx]))]
    simp

theorem not_atom_of_follows (rest : List Nat) (h : follows_item rest) :
    atom_byte (peek rest) = false := by
  rcases h with h | h | h <;> rw [h] <;> decide

theorem lexer_scan_atom (bytes rest : List Nat) (hne : bytes ≠ [])
    (hb : ∀ c ∈ bytes, atom_byte c = true) (hr : follows_item rest) :
    lexer_scan (bytes ++ rest) = some (.TT_ELSE, 0, bytes.length) := by
  obtain ⟨c, cs, rfl⟩ : ∃ c cs, bytes = c :: cs := by
    cases bytes with
    | nil => exact absurd rfl hne
    | cons c cs => exact ⟨c, cs, rfl⟩
  have hc := hb c (by simp)
  have hcw := not_ws_of_atom_byte c hc
  have hrun := scan_atom_run (c :: cs) rest hb (not_atom_of_follows rest hr)
  rw [atom_byte_iff] at hc
  obtain ⟨c0, _, _, _, _, _, c40, c123, c91, c93, c125, c41, c34⟩ := hc
  have e0 := lexer_skip_blank ((c :: cs) ++ rest).length [] ((c :: cs) ++ rest) (Or.inl rfl)
    (by simpa [peek] using hcw.1) (by simpa [peek] using hcw.2)
  simp only [List.nil_append, List.length_nil] at e0
  unfold lexer_scan
  simp only [e0, List.drop_zero, hrun]
  simp [peek, c0, c40, c123, c91, c93, c125, c41, c34]

/-- The lexer at an atom: a non-empty run of atom bytes before a terminator, a
space or a closing parenthesis. -/
theorem lexer_next_atom (lexp : lexer) (ws bytes rest : List Nat) (hws : ws = [] ∨ ws = [32])
    (h : lexp.src.drop lexp.end_ = ws ++ (bytes ++ rest)) (hne : bytes ≠ [])
    (hb : ∀ c ∈ bytes, atom_byte c = true) (hr : follows_item rest) :
    lexer_next lexp
      = ⟨.TT_ELSE, lexp.src, lexp.end_ + ws.length, lexp.end_ + ws.length + bytes.length⟩ := by
  obtain ⟨c, cs, rfl⟩ : ∃ c cs, bytes = c :: cs := by
    cases bytes with
    | nil => exact absurd rfl hne
    | cons c cs => exact ⟨c, cs, rfl⟩
  have hcw := not_ws_of_atom_byte c (hb c (by simp))
  exact lexer_next_blank lexp ws ((c :: cs) ++ rest) _ 0 _ hws h (by simpa [peek] using hcw.1)
    (by simpa [peek] using hcw.2) (lexer_scan_atom (c :: cs) rest hne hb hr)

/-- The cases of `escape_byte` on a byte other than the backslash: an escape pair
that `unescape_char` decodes to the byte, or the byte itself, which then is none
of NUL, newline, quote. -/
theorem escape_byte_cases (c : Nat) (h : c ≠ 92) :
    (∃ x, escape_byte c = [92, x] ∧ unescape_char x = c) ∨
    (escape_byte c = [c] ∧ c ≠ 0 ∧ c ≠ 10 ∧ c ≠ 34) := by
  by_cases h1 : c = 7
  · subst h1; exact Or.inl ⟨97, rfl, rfl⟩
  by_cases h2 : c = 8
  · subst h2; exact Or.inl ⟨98, rfl, rfl⟩
  by_cases h3 : c = 12
  · subst h3; exact Or.inl ⟨102, rfl, rfl⟩
  by_cases h4 : c = 10
  · subst h4; exact Or.inl ⟨110, rfl, rfl⟩
  by_cases h5 : c = 13
  · subst h5; exact Or.inl ⟨114, rfl, rfl⟩
  by_cases h6 : c = 9
  · subst h6; exact Or.inl ⟨116, rfl, rfl⟩
  by_cases h7 : c = 11
  · subst h7; exact Or.inl ⟨118, rfl, rfl⟩
  by_cases h8 : c = 63
  · subst h8; exact Or.inl ⟨63, rfl, rfl⟩
  by_cases h9 : c = 0
  · subst h9; exact Or.inl ⟨48, rfl, rfl⟩
  by_cases h10 : c = 34
  · subst h10; exact Or.inl ⟨34, rfl, rfl⟩
  by_cases h11 : c = 39
  · subst h11; exact Or.inl ⟨39, rfl, rfl⟩
  refine Or.inr ⟨?_, h9, h4, h10⟩
  simp only [escape_byte, h1, h2, h3, h4, h5, h6, h7, h8, h9, h10, h11, if_false]

theorem scan_string_pair (x : Nat) (t : List Nat) :
    scan_string (92 :: x :: t) = scan_string t + 2 := by
  rw [scan_string.eq_def]
  simp

theorem scan_string_plain (c : Nat) (t : List Nat) (c0 : c ≠ 0) (c10 : c ≠ 10) (c34 : c ≠ 34)
    (c92 : c ≠ 92) : scan_string (c :: t) = scan_string t + 1 := by
  rw [scan_string.eq_def]
  simp [c0, c10, c34, c92]

theorem scan_string_quote (t : List Nat) : scan_string (34 :: t) = 0 := by
  rw [scan_string.eq_def]
  simp

theorem scan_string_escape (b rest : List Nat) (hb : 92 ∉ b) :
    scan_string (escape b ++ 34 :: rest) = (escape b).length := by
  induction b with
  | nil => simp [escape, scan_string_quote]
  | cons c cs ih =>
    have hc : c ≠ 92 := fun e => hb (by simp [e])
    have ih1 := ih (fun hm => hb (by simp [hm]))
    rcases escape_byte_cases c hc with ⟨x, hx, _⟩ | ⟨hx, c0, c10, c34⟩
    · simp only [escape, hx, List.cons_append, List.nil_append, List.length_cons,
        List.length_append, List.length_nil]
      rw [scan_string_pair, ih1]
    · simp only [escape, hx, List.cons_append, List.nil_append, List.length_cons,
        List.length_append, List.length_nil]
      rw [scan_string_plain c _ c0 c10 c34 hc, ih1]

theorem lexer_scan_string (b rest : List Nat) (hb : 92 ∉ b) :
    lexer_scan (34 :: (escape b ++ 34 :: rest))
      = some (.TT_STRING, 0, (escape b).length + 2) := by
  have hrun := scan_string_escape b rest hb
  have e0 := lexer_skip_blank (34 :: (escape b ++ 34 :: rest)).length []
    (34 :: (escape b ++ 34 :: rest)) (Or.inl rfl) rfl (by simp [peek])
  simp only [List.nil_append, List.length_nil] at e0
  unfold lexer_scan
  simp only [e0, List.drop_zero, peek_cons, Nat.zero_add, List.drop_succ_cons, hrun]
  have e2 : List.drop (1 + (escape b).length) (34 :: (escape b ++ 34 :: rest)) = 34 :: rest := by
    rw [Nat.add_comm, List.drop_succ_cons, List.drop_left]
  simp only [e2, peek_cons]
  simp
  omega

/-- The lexer at a printed string literal without a backslash byte. -/
theorem lexer_next_string (lexp : lexer) (ws b rest : List Nat) (hws : ws = [] ∨ ws = [32])
    (h : lexp.src.drop lexp.end_ = ws ++ (34 :: (escape b ++ 34 :: rest))) (hb : 92 ∉ b) :
    lexer_next lexp = ⟨.TT_STRING, lexp.src, lexp.end_ + ws.length,
      lexp.end_ + ws.length + ((escape b).length + 2)⟩ :=
  lexer_next_blank lexp ws _ _ 0 _ hws h rfl (by simp [peek]) (lexer_scan_string b rest hb)

/-! ## Escape decoding of an escape-encoded text -/

theorem getD_append_at (pre s : List Nat) (k : Nat) :
    (pre ++ s).getD (pre.length + k) 0 = s.getD k 0 := by
  rw [List.getD_append_right _ _ _ _ (by omega)]
  congr 1
  omega

theorem unescape_loop_escape (b : List Nat) (hb : 92 ∉ b) :
    ∀ (pre tail : List Nat) (f : Nat), (escape b).length ≤ f →
      unescape_loop (pre ++ (escape b ++ tail)) (pre.length + (escape b).length) (f + 1)
        pre.length = some b := by
  induction b with
  | nil =>
    intro pre tail f _
    unfold unescape_loop
    simp [escape]
  | cons c cs ih =>
    intro pre tail f hf
    have hc : c ≠ 92 := fun e => hb (by simp [e])
    have ih1 := ih (fun hm => hb (by simp [hm]))
    rcases escape_byte_cases c hc with ⟨x, hx, hux⟩ | ⟨hx, c0, c10, c34⟩
    · simp only [escape, hx, List.cons_append, List.nil_append, List.length_cons,
        List.length_nil] at hf ⊢
      obtain ⟨g, rfl⟩ : ∃ g, f = g + 1 := ⟨f - 1, by omega⟩
      have h0 : (pre ++ 92 :: x :: (escape cs ++ tail)).getD pre.length 0 = 92 := by
        have := getD_append_at pre (92 :: x :: (escape cs ++ tail)) 0
        simpa using this
      have h1 : (pre ++ 92 :: x :: (escape cs ++ tail)).getD (pre.length + 1) 0 = x := by
        have := getD_append_at pre (92 :: x :: (escape cs ++ tail)) 1
        simpa using this
      have hrec := ih1 (pre ++ [92, x]) tail g (by omega)
      have e1 : pre ++ [92, x] ++ (escape cs ++ tail) = pre ++ 92 :: x :: (escape cs ++ tail) := by
        simp
      have e2 : (pre ++ [92, x]).length + (escape cs).length
          = pre.length + ((escape cs).length + 1 + 1) := by
        simp; omega
      have e3 : (pre ++ [92, x]).length = pre.length + 1 + 1 := by simp
      rw [e1, e2, e3] at hrec
      unfold unescape_loop
      rw [if_pos (by omega), h0]
      simp only [beq_self_eq_true, if_true, h1, hrec, hux]
    · simp only [escape, hx, List.cons_append, List.nil_append, List.length_cons,
        List.length_nil] at hf ⊢
      obtain ⟨g, rfl⟩ : ∃ g, f = g + 1 := ⟨f - 1, by omega⟩
      have h0 : (pre ++ c :: (escape cs ++ tail)).getD pre.length 0 = c := by
        have := getD_append_at pre (c :: (escape cs ++ tail)) 0
        simpa using this
      have hrec := ih1 (pre ++ [c]) tail g (by omega)
      have e1 : pre ++ [c] ++ (escape cs ++ tail) = pre ++ c :: (escape cs ++ tail) := by simp
      have e2 : (pre ++ [c]).length + (escape cs).length
          = pre.length + ((escape cs).length + 1) := by
        simp; omega
      have e3 : (pre ++ [c]).length = pre.length + 1 := by simp
      rw [e1, e2, e3] at hrec
      unfold unescape_loop
      rw [if_pos (by omega), h0]
      have : (c == 92) = false := by simpa using hc
      simp only [this, Bool.false_eq_true, if_false, hrec]

theorem unescaped_length_loop_escape (b : List Nat) (hb : 92 ∉ b) :
    ∀ (pre tail : List Nat) (f res : Nat), (escape b).length ≤ f →
      unescaped_length_loop (pre ++ (escape b ++ tail)) (pre.length + (escape b).length) (f + 1)
        pre.length res = some (res + b.length) := by
  induction b with
  | nil =>
    intro pre tail f res _
    unfold unescaped_length_loop
    simp [escape]
  | cons c cs ih =>
    intro pre tail f res hf
    have hc : c ≠ 92 := fun e => hb (by simp [e])
    have ih1 := ih (fun hm => hb (by simp [hm]))
    rcases escape_byte_cases c hc with ⟨x, hx, hux⟩ | ⟨hx, c0, c10, c34⟩
    · simp only [escape, hx, List.cons_append, List.nil_append, List.length_cons,
        List.length_nil] at hf ⊢
      obtain ⟨g, rfl⟩ : ∃ g, f = g + 1 := ⟨f - 1, by omega⟩
      have h0 : (pre ++ 92 :: x :: (escape cs ++ tail)).getD pre.length 0 = 92 := by
        have := getD_append_at pre (92 :: x :: (escape cs ++ tail)) 0
        simpa using this
      have hrec := ih1 (pre ++ [92, x]) tail g (res + 1) (by omega)
      have e1 : pre ++ [92, x] ++ (escape cs ++ tail) = pre ++ 92 :: x :: (escape cs ++ tail) := by
        simp
      have e2 : (pre ++ [92, x]).length + (escape cs).length
          = pre.length + ((escape cs).length + 1 + 1) := by
        simp; omega
      have e3 : (pre ++ [92, x]).length = pre.length + 1 + 1 := by simp
      rw [e1, e2, e3] at hrec
      unfold unescaped_length_loop
      rw [if_pos (by omega), h0]
      simp only [beq_self_eq_true, if_true, hrec]
      congr 1; omega
    · simp only [escape, hx, List.cons_append, List.nil_append, List.length_cons,
        List.length_nil] at hf ⊢
      obtain ⟨g, rfl⟩ : ∃ g, f = g + 1 := ⟨f - 1, by omega⟩
      have h0 : (pre ++ c :: (escape cs ++ tail)).getD pre.length 0 = c := by
        have := getD_append_at pre (c :: (escape cs ++ tail)) 0
        simpa using this
      have hrec := ih1 (pre ++ [c]) tail g (res + 1) (by omega)
      have e1 : pre ++ [c] ++ (escape cs ++ tail) = pre ++ c :: (escape cs ++ tail) := by simp
      have e2 : (pre ++ [c]).length + (escape cs).length
          = pre.length + ((escape cs).length + 1) := by
        simp; omega
      have e3 : (pre ++ [c]).length = pre.length + 1 := by simp
      rw [e1, e2, e3] at hrec
      unfold unescaped_length_loop
      rw [if_pos (by omega), h0]
      have : (c == 92) = false := by simpa using hc
      simp only [this, Bool.false_eq_true, if_false, hrec]
      congr 1; omega

/-- On the token of a printed string literal without a backslash byte and of
less than 2^31 bytes between the quotes, `sexp_read_string` returns the string
of the printed bytes. -/
theorem sexp_read_string_escape {α : Type} (lex : lexer) (b rest : List Nat)
    (ht : lex.type = .TT_STRING) (hend : lex.end_ = lex.start + ((escape b).length + 2))
    (hd : lex.src.drop lex.start = 34 :: (escape b ++ 34 :: rest)) (hb : 92 ∉ b)
    (hlt : (escape b).length < 2147483648) :
    (sexp_read_string lex : Option (Sexp α × lexer))
      = some (Sexp.string b.length (b ++ [0]), lexer_next lex) := by
  have hmem : lex.src.drop (lex.start + 1) = escape b ++ 34 :: rest := by
    rw [← List.drop_drop, hd]; rfl
  have hn : to_int (((lex.end_ : Int) - 1) - ((lex.start : Int) + 1))
      = ((escape b).length : Int) := by
    have : ((lex.end_ : Int) - 1) - ((lex.start : Int) + 1) = ((escape b).length : Int) := by
      rw [hend]; push_cast; ring
    rw [this, to_int_of_lt _ hlt]
  have h1 := unescaped_length_loop_escape b hb [] (34 :: rest) (escape b).length 0 (le_refl _)
  have h2 := unescape_loop_escape b hb [] (34 :: rest) (escape b).length (le_refl _)
  simp only [List.nil_append, List.length_nil, Nat.zero_add] at h1 h2
  unfold sexp_read_string
  rw [if_neg (by simp [ht])]
  simp only [hmem, hn, unescaped_length, unescape, Int.toNat_ofNat, h1, h2, sexp_new_string_len]
  have hneg : ¬ ((escape b).length : Int) < 0 := by omega
  simp only [hneg, if_false, h1, h2, store]
  have : List.drop b.length (mem_take (escape b ++ 34 :: rest) b.length ++ [0]) = [0] := by
    rw [List.drop_append_of_le_length (by rw [mem_take_length]),
      List.drop_of_length_le (by rw [mem_take_length])]
    rfl
  rw [this]

/-! ## The text of a value depends on its abstract value only -/

theorem texts_from_space {α : Type} (lg : α → List Nat) (vs : List (Value α)) :
    Value.texts_from lg [32] vs = Value.texts_more lg vs := by
  cases vs <;> simp [Value.texts_from, Value.texts_more]

theorem texts_from_nil {α : Type} (lg : α → List Nat) (vs : List (Value α)) :
    Value.texts_from lg [] vs = Value.texts lg vs := by
  cases vs <;> simp [Value.texts_from, Value.texts]

mutual
/-- A value that stands for `v` is printed as the text of `v`. -/
theorem text_of_value {α : Type} (lg : α → List Nat) :
    (e : Sexp α) → ∀ v, Sexp.value e = some v → Sexp.text lg e = some (Value.text lg v)
  | .null => by
    intro v h; simp [Sexp.value] at h
  | .string len val => by
    intro v h
    simp only [Sexp.value, Option.some.injEq] at h
    subst h
    simp [Sexp.text, Value.text]
  | .symbol len val => by
    intro v h
    simp only [Sexp.value, Option.some.injEq] at h
    subst h
    simp [Sexp.text, Value.text]
  | .number val => by
    intro v h
    simp only [Sexp.value, Option.some.injEq] at h
    subst h
    simp [Sexp.text, Value.text]
  | .list len cap elements => by
    intro v h
    simp only [Sexp.value] at h
    cases hv : Sexp.values len elements with
    | none => rw [hv] at h; simp at h
    | some vs =>
      rw [hv] at h
      simp only [Option.some.injEq] at h
      subst h
      have := texts_of_values lg elements 0 len vs (by simpa using hv)
      simp only [Sexp.text, this, Nat.lt_irrefl, if_false, texts_from_nil, Value.text]
/-- The elements of a storage that stand for `vs` are printed as the texts of
`vs`, a space before each but the one at index 0. -/
theorem texts_of_values {α : Type} (lg : α → List Nat) :
    (es : List (Sexp α)) → ∀ i len vs, Sexp.values (len - i) es = some vs →
      Sexp.texts lg i len es = some (Value.texts_from lg (if 0 < i then [32] else []) vs)
  | [] => by
    intro i len vs h
    cases hk : len - i with
    | zero =>
      rw [hk] at h
      simp only [Sexp.values, Option.some.injEq] at h
      subst h
      have : ¬ i < len := by omega
      simp [Sexp.texts, this, Value.texts_from]
    | succ k => rw [hk] at h; simp [Sexp.values] at h
  | e :: es => by
    intro i len vs h
    by_cases hlt : i < len
    · have hk : len - i = (len - (i + 1)) + 1 := by omega
      rw [hk] at h
      simp only [Sexp.values] at h
      cases hv : Sexp.value e with
      | none => rw [hv] at h; simp at h
      | some v =>
        rw [hv] at h
        cases hvs : Sexp.values (len - (i + 1)) es with
        | none => rw [hvs] at h; simp at h
        | some vs1 =>
          rw [hvs] at h
          simp only [Option.some.injEq] at h
          subst h
          have h1 := text_of_value lg e v hv
          have h2 := texts_of_values lg es (i + 1) len vs1 hvs
          simp only [Nat.succ_pos, if_true, texts_from_space] at h2
          simp only [Sexp.texts, hlt, if_true, h1, h2, Value.texts_from]
    · have hk : len - i = 0 := by omega
      rw [hk] at h
      simp only [Sexp.values, Option.some.injEq] at h
      subst h
      simp [Sexp.texts, hlt, Value.texts_from]
end

theorem values_append_one {α : Type} (len : Nat) :
    ∀ (es es1 : List (Sexp α)) (avs : List (Value α)) (e : Sexp α) (v : Value α),
      Sexp.values len es = some avs → Sexp.value e = some v →
      es1.take (len + 1) = es.take len ++ [e] →
      Sexp.values (len + 1) es1 = some (avs ++ [v]) := by
  induction len with
  | zero =>
    intro es es1 avs e v h1 h2 h3
    simp only [Sexp.values, Option.some.injEq] at h1
    subst h1
    cases es1 with
    | nil => simp at h3
    | cons x xs =>
      simp only [Nat.zero_add, List.take_succ_cons, List.take_zero, List.nil_append,
        List.cons.injEq, and_true] at h3
      subst h3
      simp [Sexp.values, h2]
  | succ k ih =>
    intro es es1 avs e v h1 h2 h3
    cases es with
    | nil => simp [Sexp.values] at h1
    | cons y ys =>
      cases es1 with
      | nil => simp at h3
      | cons x xs =>
        simp only [List.take_succ_cons, List.cons_append, List.cons.injEq] at h3
        obtain ⟨rfl, h3⟩ := h3
        simp only [Sexp.values] at h1
        cases hy : Sexp.value x with
        | none => rw [hy] at h1; simp at h1
        | some yv =>
          rw [hy] at h1
          cases hys : Sexp.values k ys with
          | none => rw [hys] at h1; simp at h1
          | some yvs =>
            rw [hys] at h1
            simp only [Option.some.injEq] at h1
            subst h1
            have := ih ys xs yvs e v hys h2 h3
            simp [Sexp.values, hy, this]

theorem sexp_read_any_stop {α : Type} (strtod : List Nat → α × Nat) (n : Nat) (lex lex1 : lexer)
    (e : Sexp α) (hs : lex.type = .TT_CLOSE ∨ lex.type = .TT_EOF ∨ lex.type = .TT_ERR)
    (h : sexp_read_any strtod n lex = some (e, lex1)) : e = Sexp.null := by
  cases n with
  | zero => simp [sexp_read_any] at h
  | succ k =>
    unfold sexp_read_any at h
    rcases hs with hs | hs | hs <;> rw [hs] at h <;> simp at h <;> exact h.1.symm

theorem drop_add_of_eq (l x y : List Nat) (a : Nat) (h : l.drop a = x ++ y) :
    l.drop (a + x.length) = y := by
  rw [← List.drop_drop, h, List.drop_left]

theorem follows_texts_more {α : Type} (lg : α → List Nat) (vs : List (Value α)) (rest : List Nat) :
    follows_item (Value.texts_more lg vs ++ 41 :: rest) := by
  cases vs with
  | nil => exact Or.inr (Or.inr rfl)
  | cons v vs => exact Or.inr (Or.inl rfl)

theorem cstr_append_of_atom (bytes rest : List Nat) (hb : ∀ c ∈ bytes, atom_byte c = true) :
    cstr (bytes ++ rest) = bytes ++ cstr rest := by
  induction bytes with
  | nil => rfl
  | cons c cs ih =>
    have hc := hb c (by simp)
    rw [atom_byte_iff] at hc
    simp [cstr, hc.1, ih (fun x hx => hb x (by simp [hx]))]

theorem item_end_cstr (rest : List Nat) (h : follows_item rest) : item_end (cstr rest) := by
  cases rest with
  | nil => exact Or.inl rfl
  | cons c cs =>
    simp only [follows_item, peek_cons] at h
    rcases h with h | h | h
    · subst h; exact Or.inl rfl
    · subst h; exact Or.inr (Or.inl rfl)
    · subst h; exact Or.inr (Or.inr rfl)

theorem mem_take_append_self (b t : List Nat) : mem_take (b ++ t) b.length = b := by
  rw [mem_take_eq_take _ _ (by simp), List.take_left]

/-- A printed string without a backslash byte is read back. -/
theorem reads_back_string {α : Type} (strtod : List Nat → α × Nat) (lg : α → List Nat)
    (b : List Nat) (hb : 92 ∉ b) : reads_back strtod lg (Value.string b) := by
  intro lexp ws rest hws _ hsz hd
  simp only [Value.text] at hd ⊢
  have hd1 : lexp.src.drop lexp.end_ = ws ++ (34 :: (escape b ++ 34 :: rest)) := by
    simpa using hd
  have hlt : (escape b).length < 2147483648 := by
    have := congrArg List.length hd1
    simp only [List.length_drop, List.length_append, List.length_cons] at this
    omega
  have hl := lexer_next_string lexp ws b rest hws hd1 hb
  have hstart := drop_add_of_eq _ _ _ _ hd1
  have hs := @sexp_read_string_escape α (lexer_next lexp) b rest (by rw [hl]) (by rw [hl])
    (by rw [hl]; exact hstart) hb hlt
  refine ⟨1, Sexp.string b.length (b ++ [0]), lexer_next lexp, ?_, ?_, lexer_next_src _, ?_⟩
  · unfold sexp_read_any
    rw [show (lexer_next lexp).type = .TT_STRING by rw [hl]]
    exact hs
  · simp only [Sexp.value, mem_take_append_self]
  · rw [hl]
    simp only [List.length_cons, List.length_append, List.length_nil]

/-- A printed readable symbol is read back. -/
theorem reads_back_symbol {α : Type} (strtod : List Nat → α × Nat) (lg : α → List Nat)
    (bytes : List Nat) (hr : symbol_readable strtod bytes) :
    reads_back strtod lg (Value.symbol bytes) := by
  obtain ⟨hne, hb, hnum⟩ := hr
  intro lexp ws rest hws hf _ hd
  simp only [Value.text] at hd ⊢
  have hl := lexer_next_atom lexp ws bytes rest hws hd hne hb hf
  have hstart := drop_add_of_eq _ _ _ _ hd
  have hz := hnum (cstr rest) (item_end_cstr rest hf)
  refine ⟨1, Sexp.symbol bytes.length (mem_take (bytes ++ rest) bytes.length ++ [0]),
    lexer_next lexp, ?_, ?_, lexer_next_src _, ?_⟩
  · have hlen : (lexer_next lexp).end_ - (lexer_next lexp).start = bytes.length := by
      rw [hl]; simp only; omega
    unfold sexp_read_any
    rw [show (lexer_next lexp).type = .TT_ELSE by rw [hl]]
    simp only [sexp_read_number, sexp_read_symbol]
    rw [show (lexer_next lexp).src.drop (lexer_next lexp).start = bytes ++ rest by
      rw [hl]; exact hstart]
    rw [cstr_append_of_atom bytes rest hb, hz, hlen]
    simp only [ne_eq, not_true_eq_false, if_false]
    rw [show (lexer_next lexp).type = .TT_ELSE by rw [hl]]
    simp only [ne_eq, not_true_eq_false, if_false, sexp_new_symbol_len]
  · simp only [Sexp.value]
    rw [mem_take_append_self, mem_take_append_self]
  · rw [hl]

/-- A printed readable number is read back. -/
theorem reads_back_number {α : Type} (strtod : List Nat → α × Nat) (lg : α → List Nat)
    (val : α) (hr : number_readable strtod lg val) :
    reads_back strtod lg (Value.number val) := by
  obtain ⟨hne, hb, hnum⟩ := hr
  intro lexp ws rest hws hf _ hd
  simp only [Value.text] at hd ⊢
  have hl := lexer_next_atom lexp ws (lg val) rest hws hd hne hb hf
  have hstart := drop_add_of_eq _ _ _ _ hd
  obtain ⟨hz1, hz2⟩ := hnum (cstr rest) (item_end_cstr rest hf)
  refine ⟨1, Sexp.number val, lexer_next lexp, ?_, rfl, lexer_next_src _, ?_⟩
  · unfold sexp_read_any
    rw [show (lexer_next lexp).type = .TT_ELSE by rw [hl]]
    simp only [sexp_read_number, sexp_read_symbol]
    rw [show (lexer_next lexp).src.drop (lexer_next lexp).start = lg val ++ rest by
      rw [hl]; exact hstart]
    rw [cstr_append_of_atom (lg val) rest hb]
    simp only [ne_eq, hz2, not_false_eq_true, if_true, sexp_new_number, hz1]
  · rw [hl]

/-- A printed list is read back when the loop reads its items back. -/
theorem reads_back_list {α : Type} (strtod : List Nat → α × Nat) (lg : α → List Nat)
    (vs : List (Value α)) (h : reads_back_items strtod lg vs) :
    reads_back strtod lg (Value.list vs) := by
  intro lexp ws rest hws _ hsz hd
  simp only [Value.text] at hd ⊢
  have hd1 : lexp.src.drop lexp.end_ = ws ++ 40 :: (Value.texts lg vs ++ 41 :: rest) := by
    simpa using hd
  have hl := lexer_next_open lexp ws _ hws hd1
  have hstart : lexp.src.drop (lexp.end_ + ws.length)
      = [40] ++ (Value.texts lg vs ++ 41 :: rest) := drop_add_of_eq _ _ _ _ hd1
  have hitems : (lexer_next lexp).src.drop (lexer_next lexp).end_
      = Value.texts_from lg [] vs ++ 41 :: rest := by
    rw [hl, texts_from_nil]
    exact drop_add_of_eq _ _ _ _ hstart
  obtain ⟨n, len1, cap1, es1, lexq, hloop, hvals, hsrc, hend⟩ :=
    h (lexer_next lexp) [] rest 0 0 [] [] (Or.inl rfl) ⟨le_refl _, rfl⟩ rfl
      (by rw [lexer_next_src]; exact hsz) hitems
  rw [lexer_next_src] at hsrc
  have hclose_at : lexq.src.drop lexq.end_ = [] ++ 41 :: rest := by
    rw [hend, hsrc, ← lexer_next_src lexp]
    exact drop_add_of_eq _ _ _ _ hitems
  have hc := lexer_next_close lexq [] rest (Or.inl rfl) hclose_at
  refine ⟨n + 2, Sexp.list len1 cap1 es1, lexer_next lexq, ?_, ?_, ?_, ?_⟩
  · unfold sexp_read_any
    rw [show (lexer_next lexp).type = .TT_OPEN by rw [hl]]
    simp only
    unfold sexp_read_list
    simp only
    rw [show (lexer_next lexp).src.drop (lexer_next lexp).start
        = [40] ++ (Value.texts lg vs ++ 41 :: rest) by rw [hl]; exact hstart]
    have ht : list_term (peek ([40] ++ (Value.texts lg vs ++ 41 :: rest))) = 41 := rfl
    rw [ht, if_neg (by decide)]
    change (match sexp_read_list_loop strtod n (lexer_next (lexer_next lexp)) (Sexp.list 0 0 []) with
      | none => none
      | some (list, lex1) => _) = _
    rw [hloop]
    simp only
    rw [if_neg]
    rw [hc]
    simp only [List.length_nil, Nat.add_zero, ne_eq, not_true_eq_false, false_or,
      Decidable.not_not]
    rw [hclose_at]
    rfl
  · simp only [Sexp.value, hvals, List.nil_append]
  · rw [lexer_next_src, hsrc]
  · rw [hc]
    simp only [List.length_nil, Nat.add_zero]
    rw [hend, hl, texts_from_nil]
    simp only [List.length_cons, List.length_append, List.length_nil]
    omega

/-- The loop stops at the closing parenthesis behind the last item. -/
theorem reads_back_items_nil {α : Type} (strtod : List Nat → α × Nat) (lg : α → List Nat) :
    reads_back_items strtod lg ([] : List (Value α)) := by
  intro lexp ws rest len cap es avs _ _ hvals _ hd
  simp only [Value.texts_from, List.nil_append] at hd
  have hc := lexer_next_close lexp [] rest (Or.inl rfl) (by simpa using hd)
  refine ⟨1, len, cap, es, lexp, ?_, by simpa using hvals, rfl, by simp [Value.texts_from]⟩
  rw [sexp_read_list_loop_stop strtod 0 _ _ (Or.inl (by rw [hc]))]
  rw [if_pos (by rw [hc])]

/-- The loop reads one more item back. -/
theorem reads_back_items_cons {α : Type} (strtod : List Nat → α × Nat) (lg : α → List Nat)
    (v : Value α) (vs : List (Value α)) (h1 : reads_back strtod lg v)
    (h2 : reads_back_items strtod lg vs) : reads_back_items strtod lg (v :: vs) := by
  intro lexp ws rest len cap es avs hws hwf hvals hsz hd
  simp only [Value.texts_from] at hd ⊢
  have hd1 : lexp.src.drop lexp.end_
      = ws ++ (Value.text lg v ++ (Value.texts_more lg vs ++ 41 :: rest)) := by
    simpa using hd
  obtain ⟨n1, e, lexq1, hread, hval, hsrc1, hend1⟩ :=
    h1 lexp ws _ hws (follows_texts_more lg vs rest) hsz hd1
  have hat : lexq1.src.drop lexq1.end_ = Value.texts_from lg [32] vs ++ 41 :: rest := by
    rw [hsrc1, hend1, texts_from_space, Nat.add_assoc]
    have := drop_add_of_eq _ (ws ++ Value.text lg v) _ _ (by simpa using hd1)
    simpa using this
  obtain ⟨c1, e1, hap, hw1, htake⟩ := sexp_list_append_some len cap es e hwf
  have hvals1 := values_append_one len es e1 avs e v hvals hval htake
  obtain ⟨n2, len2, cap2, es2, lexq, hloop, hvals2, hsrc2, hend2⟩ :=
    h2 lexq1 [32] rest (len + 1) c1 e1 (avs ++ [v]) (Or.inr rfl) hw1 hvals1
      (by rw [hsrc1]; exact hsz) hat
  have hnostop : ¬ ((lexer_next lexp).type = .TT_CLOSE ∨ (lexer_next lexp).type = .TT_EOF ∨
      (lexer_next lexp).type = .TT_ERR) := by
    intro hs
    have := sexp_read_any_stop strtod n1 _ _ _ hs hread
    rw [this] at hval
    simp [Sexp.value] at hval
  refine ⟨max n1 n2 + 1, len2, cap2, es2, lexq, ?_, by simpa using hvals2, by rw [hsrc2, hsrc1], ?_⟩
  · unfold sexp_read_list_loop
    rw [if_pos (by simpa [not_or] using hnostop)]
    rw [sexp_read_any_fuel_le strtod n1 (max n1 n2) _ _ (le_max_left _ _) hread]
    simp only [hap]
    exact sexp_read_list_loop_fuel_le strtod n2 (max n1 n2) _ _ _ (le_max_right _ _) hloop
  · rw [hend2, hend1, texts_from_space]
    simp only [List.length_append]
    omega

mutual
/-- Every readable value is read back from its text. -/
theorem reads_back_of_readable {α : Type} (strtod : List Nat → α × Nat) (lg : α → List Nat) :
    (v : Value α) → Value.readable strtod lg v → reads_back strtod lg v
  | .string b => fun h => reads_back_string strtod lg b (by simpa [Value.readable] using h)
  | .symbol b => fun h => reads_back_symbol strtod lg b (by simpa [Value.readable] using h)
  | .number x => fun h => reads_back_number strtod lg x (by simpa [Value.readable] using h)
  | .list vs => fun h =>
    reads_back_list strtod lg vs
      (reads_back_items_of_readable strtod lg vs (by simpa [Value.readable] using h))
/-- The items of a list of readable values are read back from their text. -/
theorem reads_back_items_of_readable {α : Type} (strtod : List Nat → α × Nat)
    (lg : α → List Nat) :
    (vs : List (Value α)) → Value.all_readable strtod lg vs → reads_back_items strtod lg vs
  | [] => fun _ => reads_back_items_nil strtod lg
  | v :: vs => fun h =>
    reads_back_items_cons strtod lg v vs
      (reads_back_of_readable strtod lg v (by simp only [Value.all_readable] at h; exact h.1))
      (reads_back_items_of_readable strtod lg vs
        (by simp only [Value.all_readable] at h; exact h.2))
end

/-- The missed case of the printer: a backslash byte is printed unescaped, so the
string of the one byte backslash is printed as an unterminated literal, which
`sexp_read` does not read. -/
theorem display_backslash_not_read_back :
    sexp_display lg_digits (sexp_new_string_len (some [92]) 1 : Sexp Nat)
      = some [34, 92, 34, 0] ∧
    sexp_read strtod_digits [34, 92, 34, 0] = some (Sexp.null, 0) ∧
    sexp_display lg_digits (Sexp.null : Sexp Nat) = none := by
  decide!

/-! ## String rendering -/

theorem escape_byte_other (c : Nat) (h : c ∉ escaped_bytes) : escape_byte c = [c] := by
  simp only [escaped_bytes, List.mem_cons, List.mem_singleton, List.not_mem_nil, or_false,
    not_or] at h
  obtain ⟨h1, h2, h3, h4, h5, h6, h7, h8, h9, h10, h11⟩ := h
  simp only [escape_byte, h1, h2, h3, h4, h5, h6, h7, h8, h9, h10, h11, if_false]

/-- The escape table of the printer: the two-character escape of BEL, BS, FF,
LF, CR, TAB, VT, `?`, NUL, double quote and single quote, and every other byte
unchanged, byte by byte in order. -/
theorem escape_table :
    escape [] = [] ∧ (∀ c b, escape (c :: b) = escape_byte c ++ escape b) ∧
      escape_byte 7 = [92, 97] ∧ escape_byte 8 = [92, 98] ∧ escape_byte 12 = [92, 102] ∧
      escape_byte 10 = [92, 110] ∧ escape_byte 13 = [92, 114] ∧ escape_byte 9 = [92, 116] ∧
      escape_byte 11 = [92, 118] ∧ escape_byte 63 = [92, 63] ∧ escape_byte 0 = [92, 48] ∧
      escape_byte 34 = [92, 34] ∧ escape_byte 39 = [92, 39] ∧
      ∀ c, c ∉ escaped_bytes → escape_byte c = [c] :=
  ⟨rfl, fun _ _ => rfl, rfl, rfl, rfl, rfl, rfl, rfl, rfl, rfl, rfl, rfl, rfl, escape_byte_other⟩

/-- A string whose text (the quotes and the escape encoding of its bytes) is at
most 64 bytes long, the capacity of a new printer: `sexp_display` returns a
double quote, the escape encoding of the `len` bytes in order, a double quote
and the terminator. -/
theorem sexp_display_string_fits {α : Type} (lg : α → List Nat) (len : Nat) (val : List Nat)
    (hfit : (escape (mem_take val len)).length + 2 ≤ 64) :
    sexp_display lg (Sexp.string len val : Sexp α)
        = some (34 :: (escape (mem_take val len) ++ [34, 0])) := by
  have := sexp_display_of_fits lg (Sexp.string len val : Sexp α)
    (34 :: (escape (mem_take val len) ++ [34])) rfl (by
      simp only [List.length_cons, List.length_append, List.length_nil]
      omega)
  simpa using this

/-- C11, the code at the failing inputs. The String of 70 bytes `a`: behind the
opening quote and 63 of the bytes `len` is 64 and `cap` is 64; for the 64th
byte `printer_ensure` inside `printer_append_char` calls `realloc`, and the
`default` branch of the switch, the only one that does not assign to `p`, drops
the pointer that comes back, so the loop goes on with a pointer to a block that
was handed to `realloc` and `sexp_display` does not return the text. The
String of 2^31 bytes: `int len = s->len` is negative, the loop does not run,
and `sexp_display` returns the empty literal. -/
theorem sexp_display_string_stale_printer :
    printer_append_char printer_new 34 = some ⟨1, 64, [34]⟩ ∧
    printer_append_string_loop ⟨1, 64, [34]⟩ (List.replicate 63 97)
      = some ⟨64, 64, 34 :: List.replicate 63 97⟩ ∧
    printer_append_string_byte ⟨64, 64, 34 :: List.replicate 63 97⟩ 97 = none ∧
    printer_append_string_byte ⟨64, 64, 34 :: List.replicate 63 97⟩ 10
      = some ⟨66, 96, 34 :: (List.replicate 63 97 ++ [92, 110])⟩ ∧
    sexp_display lg_digits (Sexp.string 70 (List.replicate 70 97 ++ [0]) : Sexp Nat) = none ∧
    to_int 2147483648 = -2147483648 ∧
    sexp_display lg_digits (Sexp.string 2147483648 [] : Sexp Nat) = some [34, 34, 0] := by
  decide!

/-! ## Escape encoding against escape decoding -/

/-- The decoder gives back every byte string without a backslash byte from its
escape encoding. -/
theorem unescape_escape_of_no_backslash (b tail : List Nat) (hb : 92 ∉ b) :
    unescape (escape b ++ tail) ((escape b).length : Int) = some b := by
  have h := unescape_loop_escape b hb [] tail (escape b).length (le_refl _)
  simp only [List.nil_append, List.length_nil, Nat.zero_add] at h
  unfold unescape
  have hneg : ¬ ((escape b).length : Int) < 0 := by omega
  simp only [hneg, if_false, Int.toNat_ofNat, h]

/-- C15, the code at the failing input, the string of the two bytes backslash,
`n`: the printer writes the backslash unescaped, so between the quotes stand
the two bytes backslash, `n`, and `unescape` decodes them to the one byte
newline. -/
theorem unescape_escape_backslash :
    sexp_display lg_digits (sexp_new_string_len (some [92, 110]) 2 : Sexp Nat)
      = some [34, 92, 110, 34, 0] ∧
    escape [92, 110] = [92, 110] ∧
    unescape [92, 110, 34, 0] 2 = some [10] ∧
    [10] ≠ [92, 110] := by
  decide!

/-! ## The sizing pass -/

theorem unescape_loops_agree (src : List Nat) (len f : Nat) :
    ∀ (p res : Nat), len ≤ p + f →
      ∃ bs, unescape_loop src len (f + 1) p = some bs ∧
        unescaped_length_loop src len (f + 1) p res = some (res + bs.length) ∧
        p + bs.length ≤ max p len := by
  induction f with
  | zero =>
    intro p res h
    refine ⟨[], ?_, ?_, by simp⟩
    · unfold unescape_loop; rw [if_neg (by omega)]
    · unfold unescaped_length_loop; rw [if_neg (by omega)]; rfl
  | succ f ih =>
    intro p res h
    by_cases hp : p < len
    · by_cases hb : src.getD p 0 = 92
      · obtain ⟨bs, h1, h2, h3⟩ := ih (p + 1 + 1) (res + 1) (by omega)
        refine ⟨unescape_char (src.getD (p + 1) 0) :: bs, ?_, ?_, ?_⟩
        · unfold unescape_loop
          rw [if_pos hp]
          simp only [hb, beq_self_eq_true, if_true, h1]
        · unfold unescaped_length_loop
          rw [if_pos hp]
          simp only [hb, beq_self_eq_true, if_true, h2, List.length_cons]
          congr 1; omega
        · simp only [List.length_cons]; omega
      · obtain ⟨bs, h1, h2, h3⟩ := ih (p + 1) (res + 1) (by omega)
        have hbb : (src.getD p 0 == 92) = false := by simpa using hb
        refine ⟨src.getD p 0 :: bs, ?_, ?_, ?_⟩
        · unfold unescape_loop
          rw [if_pos hp]
          simp only [hbb, Bool.false_eq_true, if_false, h1]
        · unfold unescaped_length_loop
          rw [if_pos hp]
          simp only [hbb, Bool.false_eq_true, if_false, h2, List.length_cons]
          congr 1; omega
        · simp only [List.length_cons]; omega
    · refine ⟨[], ?_, ?_, by simp⟩
      · unfold unescape_loop; rw [if_neg hp]
      · unfold unescaped_length_loop; rw [if_neg hp]; rfl

/-- C17. For every source and every length `len >= 0`, `unescape(src, dst, len)`
and `unescaped_length(src, len)` return, the number of bytes that `unescape`
stores is the number that `unescaped_length` returns, and it is at most `len`. -/
theorem unescaped_length_agrees (src : List Nat) (len : Nat) :
    ∃ bs n, unescape src (len : Int) = some bs ∧ unescaped_length src (len : Int) = some n ∧
      bs.length = n ∧ n ≤ len := by
  obtain ⟨bs, h1, h2, h3⟩ := unescape_loops_agree src len len 0 0 (by omega)
  have hneg : ¬ (len : Int) < 0 := by omega
  refine ⟨bs, bs.length, ?_, ?_, rfl, by simpa using h3⟩
  · unfold unescape
    simp only [hneg, if_false, Int.toNat_ofNat, h1]
  · unfold unescaped_length
    simp only [hneg, if_false, Int.toNat_ofNat, h2, Nat.zero_add]

/-! ## Values with an absent element -/

/-- C20, the code at the failing input `([)`: `sexp_read` returns a list whose one
element is `NULL`, and `sexp_display` of that list dies in its `invalid sexp
type` branch. -/
theorem sexp_read_value_not_printable :
    sexp_read strtod_digits [40, 91, 41] = some (Sexp.list 1 2 [Sexp.null, Sexp.null], 3) ∧
    sexp_display lg_digits (Sexp.list 1 2 [Sexp.null, (Sexp.null : Sexp Nat)]) = none := by
  decide!

/-! ## Comments -/

theorem lexer_skip_fuel (f : Nat) :
    ∀ (g : Nat) (s : List Nat), s.length < f → s.length < g → lexer_skip f s = lexer_skip g s := by
  induction f with
  | zero => intro g s h; omega
  | succ f ih =>
    intro g s hf hg
    obtain ⟨g1, rfl⟩ : ∃ g1, g = g1 + 1 := ⟨g - 1, by omega⟩
    unfold lexer_skip
    by_cases hc : peek (s.drop (skip_ws s)) = 59
    · simp only [hc, beq_self_eq_true, if_true]
      have h1 := skip_ws_le s
      have hk := skip_line_pos _ hc
      have hlen : (s.drop (skip_ws s + skip_line (s.drop (skip_ws s)))).length < s.length := by
        have := lt_length_of_peek_ne_zero s (skip_ws s) (by rw [hc]; decide)
        rw [List.length_drop]; omega
      rw [ih g1 _ (by omega) (by omega)]
    · have : (peek (s.drop (skip_ws s)) == 59) = false := by simpa using hc
      simp only [this]
      rfl

theorem skip_line_run (b rest : List Nat) (hb : ∀ c ∈ b, c ≠ 10 ∧ c ≠ 0)
    (hr : peek rest = 10 ∨ peek rest = 0) : skip_line (b ++ rest) = b.length := by
  induction b with
  | nil =>
    cases rest with
    | nil => rfl
    | cons c cs =>
      simp only [peek_cons] at hr
      rcases hr with rfl | rfl <;> rfl
  | cons c cs ih =>
    have hc := hb c (by simp)
    rw [List.cons_append]
    unfold skip_line
    rw [if_pos (by simp [hc.1, hc.2]), ih (fun x hx => hb x (by simp [hx]))]
    simp

/-- The `skip:` loop at a semicolon steps over the comment and goes on behind it. -/
theorem lexer_skip_comment (body rest : List Nat) (hb : ∀ c ∈ body, c ≠ 10 ∧ c ≠ 0)
    (hr : peek rest = 10 ∨ peek rest = 0) :
    lexer_skip ((59 :: (body ++ rest)).length + 1) (59 :: (body ++ rest))
      = (59 :: body).length + lexer_skip (rest.length + 1) rest := by
  have hrun : skip_line (59 :: (body ++ rest)) = (59 :: body).length := by
    have := skip_line_run (59 :: body) rest (by
      intro c hc
      simp only [List.mem_cons] at hc
      rcases hc with rfl | hc
      · decide
      · exact hb c hc) hr
    simpa using this
  have hd : List.drop (59 :: body).length (59 :: (body ++ rest)) = rest := by
    have := List.drop_left (59 :: body) rest
    simp
  have step : ∀ f, lexer_skip (f + 1) (59 :: (body ++ rest))
      = (59 :: body).length + lexer_skip f rest := by
    intro f
    have hws : skip_ws (59 :: (body ++ rest)) = 0 := rfl
    rw [lexer_skip]
    simp only [hws, List.drop_zero, peek_cons, beq_self_eq_true, if_true, hrun, Nat.zero_add, hd]
  rw [step]
  congr 1
  apply lexer_skip_fuel
  · simp only [List.length_cons, List.length_append]; omega
  · omega

/-- A stretch `pre` that the `skip:` loop steps over moves the token behind it by
the length of `pre`. -/
theorem lexer_scan_shift (pre s : List Nat)
    (h : lexer_skip ((pre ++ s).length + 1) (pre ++ s)
      = pre.length + lexer_skip (s.length + 1) s) :
    lexer_scan (pre ++ s)
      = (lexer_scan s).map (fun r => (r.1, pre.length + r.2.1, pre.length + r.2.2)) := by
  have d1 : ∀ k, List.drop (pre.length + k) (pre ++ s) = List.drop k s := by
    intro k
    rw [← List.drop_drop, List.drop_left]
  unfold lexer_scan
  simp only [h]
  generalize lexer_skip (s.length + 1) s = k
  simp only [Nat.add_assoc, d1]
  by_cases c0 : (peek (List.drop k s) == 0) = true
  · simp only [c0, if_true, Option.map_some']
  by_cases c1 : (peek (List.drop k s) == 34) = true
  · by_cases c2 : (peek (List.drop (k + (1 + scan_string (List.drop (k + 1) s))) s) == 34) = true
    · simp only [c0, c1, c2, Bool.false_eq_true, if_true, if_false, Option.map_some']
    · simp only [c0, c1, c2, Bool.false_eq_true, if_true, if_false, Option.map_none']
  by_cases c3 : (peek (List.drop k s) == 40 || peek (List.drop k s) == 123 ||
      peek (List.drop k s) == 91) = true
  · simp only [c0, c1, c3, Bool.false_eq_true, if_true, if_false, Option.map_some']
  by_cases c4 : (peek (List.drop k s) == 41 || peek (List.drop k s) == 125 ||
      peek (List.drop k s) == 93) = true
  · simp only [c0, c1, c3, c4, Bool.false_eq_true, if_true, if_false, Option.map_some']
  · simp only [c0, c1, c3, c4, Bool.false_eq_true, if_true, if_false, Option.map_some']

/-- C12. With the scan position at a semicolon, a comment body without newline
(and without the terminator), and the comment line ending at a newline or at
the end of input, `lexer_next` finds what it finds when it scans from the end of
the comment line: the same token type and the same token, or the same failure.
And the value read from `(1 ;asdf 2<newline>3)` is the list of the numbers 1
and 3. -/
theorem lexer_scan_comment (body rest : List Nat) (hb : ∀ c ∈ body, c ≠ 10 ∧ c ≠ 0)
    (hr : peek rest = 10 ∨ peek rest = 0) :
    lexer_scan (59 :: (body ++ rest))
        = (lexer_scan rest).map
          (fun r => (r.1, (59 :: body).length + r.2.1, (59 :: body).length + r.2.2)) ∧
      sexp_read strtod_digits [40, 49, 32, 59, 97, 115, 100, 102, 32, 50, 10, 51, 41]
        = some (Sexp.list 2 2 [Sexp.number 1, Sexp.number 3], 13) := by
  refine ⟨?_, by decide!⟩
  have := lexer_scan_shift (59 :: body) rest (by
    have h := lexer_skip_comment body rest hb hr
    simpa using h)
  simpa using this

/-- C12, witness: the comment `;asdf 2` of the reader test, before the newline
and `3)`. -/
theorem lexer_scan_comment_witness :
    lexer_scan (59 :: ([97, 115, 100, 102, 32, 50] ++ [10, 51, 41]))
        = (lexer_scan [10, 51, 41]).map
          (fun r => (r.1, (59 :: [97, 115, 100, 102, 32, 50]).length + r.2.1,
            (59 :: [97, 115, 100, 102, 32, 50]).length + r.2.2)) ∧
      sexp_read strtod_digits [40, 49, 32, 59, 97, 115, 100, 102, 32, 50, 10, 51, 41]
        = some (Sexp.list 2 2 [Sexp.number 1, Sexp.number 3], 13) :=
  lexer_scan_comment [97, 115, 100, 102, 32, 50] [10, 51, 41] (by decide) (Or.inl rfl)

/-! ## The three bracket families -/

/-- C16. The texts `()`, `[]` and `{}` are each read as a list of length 0, with
the reported offset 2, whatever the C library's `strtod` does. -/
theorem sexp_read_empty_list {α : Type} (strtod : List Nat → α × Nat) :
    sexp_read strtod [40, 41] = some (Sexp.list 0 0 [], 2) ∧
      sexp_read strtod [91, 93] = some (Sexp.list 0 0 [], 2) ∧
      sexp_read strtod [123, 125] = some (Sexp.list 0 0 [], 2) ∧
      sexp_is_list (Sexp.list 0 0 [] : Sexp α) = true ∧
      sexp_list_length (Sexp.list 0 0 [] : Sexp α) = some 0 := by
  refine ⟨?_, ?_, ?_, rfl, rfl⟩
  · exact sexp_read_eq_of_fuel strtod [40, 41] 3 (Sexp.list 0 0 []) ⟨.TT_EOF, [40, 41], 2, 2⟩ rfl
  · exact sexp_read_eq_of_fuel strtod [91, 93] 3 (Sexp.list 0 0 []) ⟨.TT_EOF, [91, 93], 2, 2⟩ rfl
  · exact sexp_read_eq_of_fuel strtod [123, 125] 3 (Sexp.list 0 0 [])
      ⟨.TT_EOF, [123, 125], 2, 2⟩ rfl

/-! ## Termination -/

/-- Every token other than `EOF` that `lexer_next` finds is non-empty and ends
behind the previous scan position. -/
theorem lexer_next_advances (lex : lexer) (h1 : (lexer_next lex).type ≠ .TT_EOF)
    (h2 : (lexer_next lex).type ≠ .TT_ERR) :
    lex.end_ ≤ (lexer_next lex).start ∧ (lexer_next lex).start < (lexer_next lex).end_ := by
  rcases lexer_next_cases lex with ⟨_, he⟩ | ⟨t, st, en, hs, he⟩
  · rw [he] at h2
    exact absurd rfl h2
  · obtain ⟨_, _, h3, _⟩ := lexer_scan_spec _ _ _ _ hs
    rw [he] at h1 ⊢
    have := h3 h1
    simp only
    omega

/-- One call of `sexp_read_any` at an `OPEN`, `STRING` or atom token leaves the
lexer behind that token, unless it stopped at `EOF` or `ERR`. -/
theorem sexp_read_any_advances {α : Type} (strtod : List Nat → α × Nat) (lex lex1 : lexer)
    (fuel : Nat) (e : Sexp α) (hok : lexer_ok lex) (hitem : is_item lex.type)
    (h : sexp_read_any strtod fuel lex = some (e, lex1)) :
    lex1.type = .TT_EOF ∨ lex1.type = .TT_ERR ∨ lex.end_ < lex1.end_ := by
  obtain ⟨e2, lex2, he, _, _, _, hadv⟩ := (sexp_read_returns strtod
    (lex.src.length - lex.end_)).1 lex (3 * (lex.src.length - lex.end_) + 3) hok (le_refl _)
    (le_refl _)
  have a := sexp_read_any_fuel_le strtod fuel (max fuel (3 * (lex.src.length - lex.end_) + 3))
    _ _ (le_max_left _ _) h
  have b := sexp_read_any_fuel_le strtod _ (max fuel (3 * (lex.src.length - lex.end_) + 3))
    _ _ (le_max_right _ _) he
  rw [a] at b
  simp only [Option.some.injEq, Prod.mk.injEq] at b
  rw [b.2]
  exact hadv hitem

/-- C19. On every buffer `sexp_read` returns; every `OPEN`, `CLOSE`, `STRING` and
atom token that `lexer_next` finds is non-empty and ends behind the previous
scan position; and every call of `sexp_read_any` that the loop of
`sexp_read_list_items` makes leaves the lexer behind the token it was called
at, or at `EOF` or `ERR`, where the loop ends. -/
theorem sexp_read_terminates {α : Type} (strtod : List Nat → α × Nat) (src : List Nat) :
    (∃ e off, sexp_read strtod src = some (e, off)) ∧
      (∀ lex : lexer, (lexer_next lex).type ≠ .TT_EOF → (lexer_next lex).type ≠ .TT_ERR →
        (lexer_next lex).start < (lexer_next lex).end_ ∧ lex.end_ < (lexer_next lex).end_) ∧
      (∀ (lex lex1 : lexer) (fuel : Nat) (e : Sexp α), lexer_ok lex → is_item lex.type →
        sexp_read_any strtod fuel lex = some (e, lex1) →
        lex1.type = .TT_EOF ∨ lex1.type = .TT_ERR ∨ lex.end_ < lex1.end_) := by
  refine ⟨sexp_read_total strtod src, ?_, ?_⟩
  · intro lex h1 h2
    have := lexer_next_advances lex h1 h2
    exact ⟨this.2, by omega⟩
  · intro lex lex1 fuel e hok hitem h
    exact sexp_read_any_advances strtod lex lex1 fuel e hok hitem h

/-! ## String decoding on read -/

/-- The escape table of the specification is the `switch` of `unescape`. -/
theorem decoded_pair (x : Nat) : Piece.decoded (.pair x) = unescape_char x := by
  by_cases h1 : x = 48
  · subst h1; rfl
  by_cases h2 : x = 97
  · subst h2; rfl
  by_cases h3 : x = 98
  · subst h3; rfl
  by_cases h4 : x = 102
  · subst h4; rfl
  by_cases h5 : x = 110
  · subst h5; rfl
  by_cases h6 : x = 114
  · subst h6; rfl
  by_cases h7 : x = 116
  · subst h7; rfl
  by_cases h8 : x = 118
  · subst h8; rfl
  by_cases h9 : x = 63
  · subst h9; rfl
  simp only [Piece.decoded, unescape_char, beq_iff_eq, h1, h2, h3, h4, h5, h6, h7, h8, h9,
    if_false]

theorem body_decoded_length (ps : List Piece) : (body_decoded ps).length = ps.length := by
  induction ps with
  | nil => rfl
  | cons p ps ih => simp [body_decoded, ih]

theorem scan_string_body (ps : List Piece) (rest : List Nat)
    (hwf : ∀ p ∈ ps, Piece.well_formed p) :
    scan_string (body_source ps ++ 34 :: rest) = (body_source ps).length := by
  induction ps with
  | nil => simp [body_source, scan_string_quote]
  | cons p ps ih =>
    have ih1 := ih (fun q hq => hwf q (by simp [hq]))
    have hp := hwf p (by simp)
    cases p with
    | byte c =>
      obtain ⟨c34, c10, c0, c92⟩ := hp
      simp only [body_source, Piece.source, List.cons_append, List.nil_append, List.length_cons,
        List.length_append, List.length_nil]
      rw [scan_string_plain c _ c0 c10 c34 c92, ih1]
    | pair x =>
      simp only [body_source, Piece.source, List.cons_append, List.nil_append, List.length_cons,
        List.length_append, List.length_nil]
      rw [scan_string_pair, ih1]

theorem unescape_loop_body (ps : List Piece) (hwf : ∀ p ∈ ps, Piece.well_formed p) :
    ∀ (pre tail : List Nat) (f : Nat), (body_source ps).length ≤ f →
      unescape_loop (pre ++ (body_source ps ++ tail)) (pre.length + (body_source ps).length)
        (f + 1) pre.length = some (body_decoded ps) := by
  induction ps with
  | nil =>
    intro pre tail f _
    unfold unescape_loop
    simp [body_source, body_decoded]
  | cons p ps ih =>
    intro pre tail f hf
    have ih1 := ih (fun q hq => hwf q (by simp [hq]))
    have hp := hwf p (by simp)
    cases p with
    | pair x =>
      simp only [body_source, Piece.source, List.cons_append, List.nil_append, List.length_cons,
        List.length_append, List.length_nil] at hf ⊢
      obtain ⟨g, rfl⟩ : ∃ g, f = g + 1 := ⟨f - 1, by omega⟩
      have h0 : (pre ++ 92 :: x :: (body_source ps ++ tail)).getD pre.length 0 = 92 := by
        have := getD_append_at pre (92 :: x :: (body_source ps ++ tail)) 0
        simpa using this
      have h1 : (pre ++ 92 :: x :: (body_source ps ++ tail)).getD (pre.length + 1) 0 = x := by
        have := getD_append_at pre (92 :: x :: (body_source ps ++ tail)) 1
        simpa using this
      have hrec := ih1 (pre ++ [92, x]) tail g (by omega)
      have e1 : pre ++ [92, x] ++ (body_source ps ++ tail)
          = pre ++ 92 :: x :: (body_source ps ++ tail) := by simp
      have e2 : (pre ++ [92, x]).length + (body_source ps).length
          = pre.length + ((body_source ps).length + 1 + 1) := by
        simp; omega
      have e3 : (pre ++ [92, x]).length = pre.length + 1 + 1 := by simp
      rw [e1, e2, e3] at hrec
      unfold unescape_loop
      rw [if_pos (by omega), h0]
      simp only [beq_self_eq_true, if_true, h1, hrec, body_decoded, decoded_pair]
    | byte c =>
      obtain ⟨_, _, _, c92⟩ := hp
      simp only [body_source, Piece.source, List.cons_append, List.nil_append, List.length_cons,
        List.length_append, List.length_nil] at hf ⊢
      obtain ⟨g, rfl⟩ : ∃ g, f = g + 1 := ⟨f - 1, by omega⟩
      have h0 : (pre ++ c :: (body_source ps ++ tail)).getD pre.length 0 = c := by
        have := getD_append_at pre (c :: (body_source ps ++ tail)) 0
        simpa using this
      have hrec := ih1 (pre ++ [c]) tail g (by omega)
      have e1 : pre ++ [c] ++ (body_source ps ++ tail) = pre ++ c :: (body_source ps ++ tail) := by
        simp
      have e2 : (pre ++ [c]).length + (body_source ps).length
          = pre.length + ((body_source ps).length + 1) := by
        simp; omega
      have e3 : (pre ++ [c]).length = pre.length + 1 := by simp
      rw [e1, e2, e3] at hrec
      unfold unescape_loop
      rw [if_pos (by omega), h0]
      have : (c == 92) = false := by simpa using c92
      simp only [this, Bool.false_eq_true, if_false, hrec, body_decoded, Piece.decoded]

/-- On the token of a well-formed string literal with a body of less than 2^31
bytes `sexp_read_string` returns the string of the decoded bytes of its body. -/
theorem sexp_read_string_body {α : Type} (lex : lexer) (ps : List Piece) (rest : List Nat)
    (ht : lex.type = .TT_STRING) (hend : lex.end_ = lex.start + ((body_source ps).length + 2))
    (hd : lex.src.drop lex.start = 34 :: (body_source ps ++ 34 :: rest))
    (hwf : ∀ p ∈ ps, Piece.well_formed p) (hlt : (body_source ps).length < 2147483648) :
    (sexp_read_string lex : Option (Sexp α × lexer))
      = some (Sexp.string ps.length (body_decoded ps ++ [0]), lexer_next lex) := by
  have hmem : lex.src.drop (lex.start + 1) = body_source ps ++ 34 :: rest := by
    rw [← List.drop_drop, hd]; rfl
  have hn : to_int (((lex.end_ : Int) - 1) - ((lex.start : Int) + 1))
      = ((body_source ps).length : Int) := by
    have : ((lex.end_ : Int) - 1) - ((lex.start : Int) + 1)
        = ((body_source ps).length : Int) := by
      rw [hend]; push_cast; ring
    rw [this, to_int_of_lt _ hlt]
  have h2 := unescape_loop_body ps hwf [] (34 :: rest) (body_source ps).length (le_refl _)
  simp only [List.nil_append, List.length_nil, Nat.zero_add] at h2
  obtain ⟨bs, hb1, hb2, _⟩ := unescape_loops_agree (body_source ps ++ 34 :: rest)
    (body_source ps).length (body_source ps).length 0 0 (by omega)
  rw [h2] at hb1
  simp only [Option.some.injEq] at hb1
  subst hb1
  rw [body_decoded_length, Nat.zero_add] at hb2
  unfold sexp_read_string
  rw [if_neg (by simp [ht])]
  have hneg : ¬ ((body_source ps).length : Int) < 0 := by omega
  simp only [hmem, hn, unescaped_length, unescape, Int.toNat_ofNat, hneg, if_false, hb2, h2,
    sexp_new_string_len, store, body_decoded_length]
  have : List.drop ps.length (mem_take (body_source ps ++ 34 :: rest) ps.length ++ [0]) = [0] := by
    rw [List.drop_append_of_le_length (by rw [mem_take_length]),
      List.drop_of_length_le (by rw [mem_take_length])]
    rfl
  rw [this]

/-- The lexer at a well-formed string literal behind leading whitespace and
comments. -/
theorem lexer_next_string_body (src : List Nat) (ps : List Piece) (rest : List Nat)
    (hwf : ∀ p ∈ ps, Piece.well_formed p)
    (hd : src.drop (lexer_skip (src.length + 1) src) = 34 :: (body_source ps ++ 34 :: rest)) :
    lexer_next (lexer_init src) = ⟨.TT_STRING, src, lexer_skip (src.length + 1) src,
      lexer_skip (src.length + 1) src + ((body_source ps).length + 2)⟩ := by
  have hrun := scan_string_body ps rest hwf
  have hs : lexer_scan src = some (.TT_STRING, lexer_skip (src.length + 1) src,
      lexer_skip (src.length + 1) src + ((body_source ps).length + 2)) := by
    unfold lexer_scan
    simp only [hd, peek_cons]
    have e1 : List.drop (lexer_skip (src.length + 1) src + 1) src
        = body_source ps ++ 34 :: rest := by
      rw [← List.drop_drop, hd]; rfl
    have e2 : List.drop (lexer_skip (src.length + 1) src + 1 + (body_source ps).length) src
        = 34 :: rest := by
      rw [← List.drop_drop, e1, List.drop_left]
    simp only [e1, hrun, e2, peek_cons]
    simp
    omega
  have := lexer_next_of_scan (lexer_init src) _ _ _ (by simpa [lexer_init] using hs)
  simpa [lexer_init] using this

/-- When the first token of the input, behind leading whitespace and comments,
is a well-formed string literal (a double quote, a body of escape pairs and of
bytes other than double quote, newline, NUL and backslash, a double quote) with
a body of less than 2^31 bytes, `sexp_read` returns the String whose length is
the number of pieces of the body and whose bytes are the decoded pieces in
order: an escape pair collapsed to one byte, every other byte unchanged. -/
theorem sexp_read_string_literal_bounded {α : Type} (strtod : List Nat → α × Nat)
    (src : List Nat) (ps : List Piece) (rest : List Nat) (hwf : ∀ p ∈ ps, Piece.well_formed p)
    (hd : src.drop (lexer_skip (src.length + 1) src) = 34 :: (body_source ps ++ 34 :: rest))
    (hlt : (body_source ps).length < 2147483648) :
    ∃ off, sexp_read strtod src
      = some (Sexp.string ps.length (body_decoded ps ++ [0]), off) ∧
      Sexp.value (Sexp.string ps.length (body_decoded ps ++ [0]) : Sexp α)
        = some (Value.string (body_decoded ps)) := by
  have hl := lexer_next_string_body src ps rest hwf hd
  have hs := @sexp_read_string_body α (lexer_next (lexer_init src)) ps rest (by rw [hl])
    (by rw [hl]) (by rw [hl]; exact hd) hwf hlt
  refine ⟨(lexer_next (lexer_next (lexer_init src))).end_,
    sexp_read_eq_of_fuel strtod src 1 _ (lexer_next (lexer_next (lexer_init src))) ?_, ?_⟩
  · unfold sexp_read_any
    rw [show (lexer_next (lexer_init src)).type = .TT_STRING by rw [hl]]
    exact hs
  · simp only [Sexp.value]
    rw [← body_decoded_length ps, mem_take_append_self]

/-! ### A literal of 2^31 bytes and more -/

theorem to_int_of_ge (n : Nat) (h1 : 2147483648 ≤ n) (h2 : n < 4294967296) :
    to_int (n : Int) = (n : Int) - 4294967296 := by
  unfold to_int
  omega

theorem body_source_bytes (n c : Nat) :
    body_source (List.replicate n (Piece.byte c)) = List.replicate n c := by
  induction n with
  | zero => rfl
  | succ k ih => simp [List.replicate_succ, body_source, Piece.source, ih]

theorem strlen_of_no_zero (b : List Nat) (h : 0 ∉ b) : strlen b = b.length := by
  induction b with
  | nil => rfl
  | cons c cs ih =>
    have hc : c ≠ 0 := fun e => h (by simp [e])
    simp [strlen, hc, ih (fun hm => h (by simp [hm]))]

/-- A literal of `n` bytes `a` between the quotes, `n` from 2^31 up: the length
`end-start` is negative as an `int`, so `unescaped_length` and `unescape` take
`strlen(start)` instead, which is negative as an `int` as well, their loops do
not run, and `sexp_read` returns a String of length 0. -/
theorem sexp_read_string_long {α : Type} (strtod : List Nat → α × Nat) (n : Nat)
    (h1 : 2147483648 ≤ n) (h2 : n + 1 < 4294967296) :
    sexp_read strtod (34 :: (List.replicate n 97 ++ [34]))
      = some ((Sexp.string 0 [0] : Sexp α), n + 2) := by
  have hwf : ∀ p ∈ List.replicate n (Piece.byte 97), Piece.well_formed p := by
    intro p hp
    rw [List.eq_of_mem_replicate hp]
    simp [Piece.well_formed]
  have hsk : lexer_skip ((34 :: (List.replicate n 97 ++ [34])).length + 1)
      (34 :: (List.replicate n 97 ++ [34])) = 0 := by
    have := lexer_skip_blank (34 :: (List.replicate n 97 ++ [34])).length []
      (34 :: (List.replicate n 97 ++ [34])) (Or.inl rfl) rfl (by rw [peek_cons]; decide)
    simpa using this
  have hl := lexer_next_string_body (34 :: (List.replicate n 97 ++ [34]))
    (List.replicate n (Piece.byte 97)) [] hwf (by rw [hsk, body_source_bytes]; rfl)
  rw [hsk, body_source_bytes, List.length_replicate, Nat.zero_add] at hl
  have hstart : List.drop (0 + 1) (34 :: (List.replicate n 97 ++ [34]))
      = List.replicate n 97 ++ [34] := rfl
  have hz : (0 : Nat) ∉ List.replicate n 97 ++ [34] := by
    intro hm
    rcases List.mem_append.mp hm with hm | hm
    · exact absurd (List.eq_of_mem_replicate hm) (by decide)
    · exact absurd (List.mem_singleton.mp hm) (by decide)
  have hlenI : to_int (((n + 2 : Nat) : Int) - 1 - (((0 : Nat) : Int) + 1)) < 0 := by
    have : ((n + 2 : Nat) : Int) - 1 - (((0 : Nat) : Int) + 1) = (n : Int) := by
      push_cast; ring
    rw [this, to_int_of_ge n h1 (by omega)]
    omega
  have hstr : (to_int ((strlen (List.replicate n 97 ++ [34]) : Nat) : Int)).toNat = 0 := by
    rw [strlen_of_no_zero _ hz]
    have : (List.replicate n 97 ++ [34]).length = n + 1 := by simp
    rw [this, to_int_of_ge (n + 1) (by omega) h2]
    omega
  have hs : (sexp_read_string (lexer_next (lexer_init (34 :: (List.replicate n 97 ++ [34]))))
      : Option (Sexp α × lexer))
      = some (Sexp.string 0 [0],
        lexer_next (lexer_next (lexer_init (34 :: (List.replicate n 97 ++ [34]))))) := by
    rw [hl]
    unfold sexp_read_string
    rw [if_neg (by simp)]
    simp only [hstart]
    generalize to_int (((n + 2 : Nat) : Int) - 1 - (((0 : Nat) : Int) + 1)) = k at hlenI
    simp only [unescaped_length, unescape, hlenI, if_true, hstr]
    simp [unescaped_length_loop, unescape_loop, sexp_new_string_len, mem_take, store]
  have hend : List.drop (n + 2) (34 :: (List.replicate n 97 ++ [34])) = [] := by
    apply List.drop_of_length_le
    simp
  have he := lexer_next_eof
    (lexer_next (lexer_init (34 :: (List.replicate n 97 ++ [34])))) [] [] (Or.inl rfl)
    (by rw [hl]; exact hend) rfl
  have := sexp_read_eq_of_fuel strtod (34 :: (List.replicate n 97 ++ [34])) 1
    (Sexp.string 0 [0]) _ (by
      unfold sexp_read_any
      rw [show (lexer_next (lexer_init (34 :: (List.replicate n 97 ++ [34])))).type
        = .TT_STRING by rw [hl]]
      exact hs)
  rw [he, hl] at this
  simpa using this

/-- C14, the code at the failing input, the literal of 2^31 bytes `a` between
two double quotes (a well-formed literal: no escape pair, no double quote,
newline, NUL or backslash in the body): `sexp_read_string` passes the length
`end-start` of 2^31 to the `int len` parameter of `unescaped_length` and of
`unescape`, where it is negative, and `sexp_read` returns a String of length 0
and no bytes, not the String of the 2^31 bytes. The literal of the reader test,
`as`, space, `\n`, `\t`, `\f`, `df` between quotes, is read as the eight bytes
`as`, space, newline, tab, form-feed, `df`. -/
theorem sexp_read_string_literal_int_length :
    sexp_read strtod_digits [34, 97, 115, 32, 92, 110, 92, 116, 92, 102, 100, 102, 34]
      = some (Sexp.string 8 [97, 115, 32, 10, 9, 12, 100, 102, 0], 13) ∧
    to_int (2147483650 - 1 - (0 + 1)) = -2147483648 ∧
    sexp_read strtod_digits (34 :: (List.replicate 2147483648 97 ++ [34]))
      = some (Sexp.string 0 [0], 2147483650) :=
  ⟨by decide!, by decide!, sexp_read_string_long strtod_digits 2147483648 (by decide) (by decide)⟩

/-! ## The decoder on the body of a string token -/

theorem scan_string_stop (c : Nat) (t : List Nat) (h : c = 0 ∨ c = 10 ∨ c = 34) :
    scan_string (c :: t) = 0 := by
  rw [scan_string.eq_def]
  rcases h with rfl | rfl | rfl <;> simp

/-- What `sexp_read` does when the first token is an atom: `strtod` is run on
the buffer from the start of the atom, not on the atom alone; when it converts
at least one character the result is that Number, otherwise the Symbol of the
bytes of the atom. -/
theorem sexp_read_first_atom {α : Type} (strtod : List Nat → α × Nat) (src : List Nat)
    (h : (lexer_next (lexer_init src)).type = .TT_ELSE) :
    ∃ off, sexp_read strtod src = some
      (if (strtod (cstr (src.drop (lexer_next (lexer_init src)).start))).2 ≠ 0 then
        Sexp.number (strtod (cstr (src.drop (lexer_next (lexer_init src)).start))).1
      else
        Sexp.symbol ((lexer_next (lexer_init src)).end_ - (lexer_next (lexer_init src)).start)
          (mem_take (src.drop (lexer_next (lexer_init src)).start)
            ((lexer_next (lexer_init src)).end_ - (lexer_next (lexer_init src)).start) ++ [0]),
        off) := by
  have hsrc : (lexer_next (lexer_init src)).src = src := by
    rw [lexer_next_src]
    rfl
  refine ⟨(lexer_next (lexer_next (lexer_init src))).end_,
    sexp_read_eq_of_fuel strtod src 1 _ (lexer_next (lexer_next (lexer_init src))) ?_⟩
  unfold sexp_read_any
  rw [h]
  simp only [sexp_read_number, sexp_read_symbol, h, sexp_new_number, sexp_new_symbol_len, hsrc]
  by_cases hn : (strtod (cstr (src.drop (lexer_next (lexer_init src)).start))).2 = 0
  · simp [hn]
  · simp [hn]

/-- C13, the code at the failing input, the four bytes carriage return, newline,
`1`, `2`: the first token is the atom of the one byte carriage return (bytes 0
to 1), from whose text no numeric literal can be parsed (the stand-in for
`strtod`, which steps over leading white space as the C library does, converts
nothing of it), and `sexp_read_symbol` on this token gives the Symbol of that
byte; `sexp_read` returns the Number 12, because `sexp_read_number` runs `strtod`
on the buffer from the start of the atom, where it steps over the carriage return
and the newline and converts the next atom. The inputs `-bla` and `asdf` of the
claim are read as Symbols of their four bytes. -/
theorem sexp_read_number_past_atom :
    lexer_next (lexer_init [13, 10, 49, 50]) = ⟨.TT_ELSE, [13, 10, 49, 50], 0, 1⟩ ∧
    strtod_space_digits [13] = (0, 0) ∧
    (sexp_read_symbol (lexer_next (lexer_init [13, 10, 49, 50])) : Sexp Nat × lexer).1
      = Sexp.symbol 1 [13, 0] ∧
    strtod_space_digits (cstr [13, 10, 49, 50]) = (12, 4) ∧
    sexp_read strtod_space_digits [13, 10, 49, 50] = some (Sexp.number 12, 4) ∧
    sexp_read strtod_space_digits [45, 98, 108, 97]
      = some (Sexp.symbol 4 [45, 98, 108, 97, 0], 4) ∧
    sexp_read strtod_space_digits [97, 115, 100, 102]
      = some (Sexp.symbol 4 [97, 115, 100, 102, 0], 4) := by
  decide!

/-! ## Strings: print, then read -/

theorem escape_byte_no_zero (c : Nat) : 0 ∉ escape_byte c := by
  by_cases h : c ∈ escaped_bytes
  · simp only [escaped_bytes, List.mem_cons, List.mem_singleton, List.not_mem_nil, or_false] at h
    rcases h with rfl | rfl | rfl | rfl | rfl | rfl | rfl | rfl | rfl | rfl | rfl <;> decide
  · rw [escape_byte_other c h]
    intro hm
    apply h
    have : c = 0 := by simpa using (List.mem_singleton.mp hm).symm
    subst this
    decide

theorem escape_no_zero (b : List Nat) : 0 ∉ escape b := by
  induction b with
  | nil => simp [escape]
  | cons c cs ih =>
    simp only [escape, List.mem_append, not_or]
    exact ⟨escape_byte_no_zero c, ih⟩

theorem strlen_append_zero (b t : List Nat) (h : 0 ∉ b) : strlen (b ++ 0 :: t) = b.length := by
  induction b with
  | nil => simp [strlen]
  | cons c cs ih =>
    have hc : c ≠ 0 := fun e => h (by simp [e])
    simp [strlen, hc, ih (fun hm => h (by simp [hm]))]

/-- For every String whose bytes `b` (the `len` stored bytes, which may hold
zero bytes, quotes, newlines and any byte but the backslash) contain no
backslash byte and whose text is at most 64 bytes long, the capacity of a new
printer: `sexp_display` returns a text `t` (with its terminator), and
`sexp_read` of that text returns the String of the same length `len` with
exactly the bytes `b`, and reports the offset `t.length`, which is the length
`strlen` of the displayed text. -/
theorem sexp_read_display_string_fits {α : Type} (strtod : List Nat → α × Nat)
    (lg : α → List Nat) (len : Nat) (val : List Nat) (hb : 92 ∉ mem_take val len)
    (hfit : (escape (mem_take val len)).length + 2 ≤ 64) :
    ∃ t, sexp_display lg (Sexp.string len val : Sexp α) = some (t ++ [0]) ∧
      sexp_read strtod (t ++ [0])
        = some (Sexp.string len (mem_take val len ++ [0]), t.length) ∧
      mem_take (mem_take val len ++ [0]) len = mem_take val len ∧
      strlen (t ++ [0]) = t.length := by
  refine ⟨34 :: (escape (mem_take val len) ++ [34]), ?_, ?_, ?_, ?_⟩
  · have := sexp_display_string_fits lg len val hfit
    simpa using this
  · generalize hbb : mem_take val len = b at hb hfit
    have hlen : b.length = len := by rw [← hbb, mem_take_length]
    have hd : (lexer_init (34 :: (escape b ++ [34]) ++ [0])).src.drop
        (lexer_init (34 :: (escape b ++ [34]) ++ [0])).end_
          = [] ++ (34 :: (escape b ++ 34 :: [0])) := by
      simp [lexer_init]
    have hl := lexer_next_string _ [] b [0] (Or.inl rfl) hd hb
    have hs := @sexp_read_string_escape α
      (lexer_next (lexer_init (34 :: (escape b ++ [34]) ++ [0]))) b [0] (by rw [hl])
      (by rw [hl]) (by rw [hl]; simp [lexer_init]) hb (by omega)
    have hat : (lexer_next (lexer_init (34 :: (escape b ++ [34]) ++ [0]))).src.drop
        (lexer_next (lexer_init (34 :: (escape b ++ [34]) ++ [0]))).end_ = [] ++ [0] := by
      rw [hl]
      simp [lexer_init]
    have he := lexer_next_eof _ [] [0] (Or.inl rfl) hat rfl
    have := sexp_read_eq_of_fuel strtod (34 :: (escape b ++ [34]) ++ [0]) 1
      (Sexp.string b.length (b ++ [0]))
      (lexer_next (lexer_next (lexer_init (34 :: (escape b ++ [34]) ++ [0])))) (by
        unfold sexp_read_any
        rw [show (lexer_next (lexer_init (34 :: (escape b ++ [34]) ++ [0]))).type = .TT_STRING by
          rw [hl]]
        exact hs)
    rw [he, hl, hlen] at this
    rw [this]
    simp [lexer_init]
  · have := mem_take_append_self (mem_take val len) [0]
    rwa [mem_take_length] at this
  · have h0 : 0 ∉ 34 :: (escape (mem_take val len) ++ [34]) := by
      simp only [List.mem_cons, List.mem_append, List.mem_singleton, List.not_mem_nil, or_false,
        not_or]
      exact ⟨by decide, escape_no_zero _, by decide⟩
    exact strlen_append_zero _ [] h0

/-- C21, the code at the failing inputs. The String of 70 bytes `b` holds no
backslash; the text the claim speaks of, the 70 bytes between two quotes, is
read by `sexp_read` as that String with the offset 72; but `sexp_display` of
the String does not return it: at the 64th byte `len` is 64 and `cap` is 64,
`printer_ensure` inside `printer_append_char` calls `realloc`, and the `default`
branch of the switch drops the pointer that comes back. The String of 2^31
zero bytes holds no backslash either; its `int len` is negative, so it is
displayed as the empty literal, which is read as the String of length 0. -/
theorem sexp_read_display_string_stale_printer :
    92 ∉ List.replicate 70 98 ∧
    sexp_read strtod_digits (34 :: (List.replicate 70 98 ++ [34, 0]))
      = some (Sexp.string 70 (List.replicate 70 98 ++ [0]), 72) ∧
    sexp_display lg_digits (Sexp.string 70 (List.replicate 70 98 ++ [0]) : Sexp Nat) = none ∧
    sexp_display lg_digits (Sexp.string 2147483648 [] : Sexp Nat) = some [34, 34, 0] ∧
    sexp_read strtod_digits [34, 34, 0] = some (Sexp.string 0 [0], 2) := by
  decide!

/-! ## The lexer and the terminator of the input -/

theorem strlen_cons_ne (c : Nat) (cs : List Nat) (h : c ≠ 0) :
    strlen (c :: cs) = strlen cs + 1 := by
  simp [strlen, h]

theorem peek_drop_strlen (s : List Nat) : peek (s.drop (strlen s)) = 0 := by
  induction s with
  | nil => rfl
  | cons c cs ih =>
    by_cases h : c = 0
    · subst h
      rfl
    · rw [strlen_cons_ne c cs h]
      exact ih

theorem lt_strlen_of_peek_ne_zero (s : List Nat) (n : Nat) (hn : n ≤ strlen s)
    (h : peek (s.drop n) ≠ 0) : n < strlen s := by
  rcases Nat.lt_or_ge n (strlen s) with hlt | hge
  · exact hlt
  · have : n = strlen s := by omega
    subst this
    exact absurd (peek_drop_strlen s) h

theorem strlen_drop (s : List Nat) (n : Nat) (hn : n ≤ strlen s) :
    strlen (s.drop n) + n = strlen s := by
  induction n generalizing s with
  | zero => simp
  | succ k ih =>
    cases s with
    | nil => simp [strlen] at hn
    | cons c cs =>
      by_cases h : c = 0
      · subst h
        simp [strlen] at hn
      · rw [strlen_cons_ne c cs h] at hn ⊢
        have := ih cs (by omega)
        simp only [List.drop_succ_cons]
        omega

theorem skip_ws_le_strlen (s : List Nat) : skip_ws s ≤ strlen s := by
  induction s with
  | nil => simp [skip_ws]
  | cons c cs ih =>
    unfold skip_ws
    by_cases hw : isws c = true
    · have h0 : c ≠ 0 := by
        intro e
        subst e
        simp [isws] at hw
      rw [if_pos hw, strlen_cons_ne c cs h0]
      omega
    · rw [if_neg hw]
      omega

theorem skip_line_le_strlen (s : List Nat) : skip_line s ≤ strlen s := by
  induction s with
  | nil => simp [skip_line]
  | cons c cs ih =>
    unfold skip_line
    by_cases hw : (c != 10 && c != 0) = true
    · have h0 : c ≠ 0 := by
        intro e
        subst e
        simp at hw
      rw [if_pos hw, strlen_cons_ne c cs h0]
      omega
    · rw [if_neg hw]
      omega

theorem scan_atom_le_strlen (s : List Nat) : scan_atom s ≤ strlen s := by
  induction s with
  | nil => simp [scan_atom]
  | cons c cs ih =>
    unfold scan_atom
    by_cases hw : (c != 0 && !(atom_stops.contains c)) = true
    · have h0 : c ≠ 0 := by
        intro e
        subst e
        simp at hw
      rw [if_pos hw, strlen_cons_ne c cs h0]
      omega
    · rw [if_neg hw]
      omega

/-- Without a backslash the string loop of the lexer stops at the terminator
at the latest. -/
theorem scan_string_le_strlen (s : List Nat) (hb : 92 ∉ s) : scan_string s ≤ strlen s := by
  induction s with
  | nil => simp [scan_string]
  | cons c cs ih =>
    have ih1 := ih (fun hm => hb (by simp [hm]))
    have c92 : c ≠ 92 := fun e => hb (by simp [e])
    by_cases hstop : c = 0 ∨ c = 10 ∨ c = 34
    · rw [scan_string_stop c cs hstop]
      omega
    · have c0 : c ≠ 0 := fun e => hstop (Or.inl e)
      have c10 : c ≠ 10 := fun e => hstop (Or.inr (Or.inl e))
      have c34 : c ≠ 34 := fun e => hstop (Or.inr (Or.inr e))
      rw [scan_string_plain c cs c0 c10 c34 c92, strlen_cons_ne c cs c0]
      omega

theorem lexer_skip_le_strlen (fuel : Nat) (s : List Nat) : lexer_skip fuel s ≤ strlen s := by
  induction fuel generalizing s with
  | zero => simp [lexer_skip]
  | succ f ih =>
    unfold lexer_skip
    have h1 := skip_ws_le_strlen s
    have h2 := strlen_drop s (skip_ws s) h1
    have h3 := skip_line_le_strlen (s.drop (skip_ws s))
    have h4 := strlen_drop s (skip_ws s + skip_line (s.drop (skip_ws s))) (by omega)
    have h5 := ih (s.drop (skip_ws s + skip_line (s.drop (skip_ws s))))
    simp only
    split
    · omega
    · exact h1

/-- On a buffer without a backslash byte every token that `lexer_scan` finds
ends at the terminator of the C string at the latest. -/
theorem lexer_scan_le_strlen (s : List Nat) (t : token_type) (st en : Nat) (hb : 92 ∉ s)
    (h : lexer_scan s = some (t, st, en)) : en ≤ strlen s := by
  have hs := lexer_skip_le_strlen (s.length + 1) s
  unfold lexer_scan at h
  simp only at h
  generalize lexer_skip (s.length + 1) s = start at h hs
  by_cases c0 : peek (s.drop start) = 0
  · simp only [c0, beq_self_eq_true, if_true, Option.some.injEq, Prod.mk.injEq] at h
    obtain ⟨_, _, rfl⟩ := h
    exact hs
  have hlt := lt_strlen_of_peek_ne_zero s start hs c0
  have c0b : (peek (s.drop start) == 0) = false := by simpa using c0
  rw [c0b] at h
  simp only [Bool.false_eq_true, if_false] at h
  by_cases c1 : peek (s.drop start) = 34
  · simp only [c1, beq_self_eq_true, if_true] at h
    have hrun := scan_string_le_strlen (s.drop (start + 1))
      (fun hm => hb (List.mem_of_mem_drop hm))
    have hd := strlen_drop s (start + 1) (by omega)
    split at h
    · rename_i hq
      simp only [Option.some.injEq, Prod.mk.injEq] at h
      obtain ⟨_, _, rfl⟩ := h
      have hq1 : peek (s.drop (start + 1 + scan_string (s.drop (start + 1)))) ≠ 0 := by
        have : peek (s.drop (start + 1 + scan_string (s.drop (start + 1)))) = 34 := by
          simpa using hq
        rw [this]
        decide
      have := lt_strlen_of_peek_ne_zero s _ (by omega) hq1
      omega
    · simp at h
  have c1b : (peek (s.drop start) == 34) = false := by simpa using c1
  rw [c1b] at h
  simp only [Bool.false_eq_true, if_false] at h
  split at h
  · simp only [Option.some.injEq, Prod.mk.injEq] at h
    obtain ⟨_, _, rfl⟩ := h
    omega
  split at h
  · simp only [Option.some.injEq, Prod.mk.injEq] at h
    obtain ⟨_, _, rfl⟩ := h
    omega
  simp only [Option.some.injEq, Prod.mk.injEq] at h
  obtain ⟨_, _, rfl⟩ := h
  have ha := scan_atom_le_strlen (s.drop start)
  have hd := strlen_drop s start hs
  omega

/-- On a buffer without a backslash byte the lexer stays inside the input: from
a scan position at or before the terminator, `lexer_next` leaves `end` at or
before the terminator. -/
theorem lexer_next_le_strlen (lex : lexer) (hb : 92 ∉ lex.src) (h : lex.end_ ≤ strlen lex.src) :
    (lexer_next lex).end_ ≤ strlen (lexer_next lex).src := by
  rcases lexer_next_cases lex with ⟨_, he⟩ | ⟨t, st, en, hs, he⟩
  · rw [he]
    exact h
  · have := lexer_scan_le_strlen _ t st en (fun hm => hb (List.mem_of_mem_drop hm)) hs
    have hd := strlen_drop lex.src lex.end_ h
    rw [he]
    simp only
    omega

/-- C22, the code at the failing input: the buffer holds the C string of the two
bytes quote, backslash (input length 2), and behind its terminator a quote. The
string loop starts at offset 1, steps over the backslash and, unread, over the
terminator at offset 2, and moves on 2 bytes to offset 3; the quote it finds
there makes `lexer_next` return a `STRING` token that ends at offset 4, behind
the terminator. When the memory behind the terminator holds no quote (the
buffer of the three bytes quote, backslash, NUL) the token is an error and
`end` stays 0, but the loop has moved the scan position to offset 3 as well. -/
theorem lexer_next_past_terminator :
    strlen [34, 92, 0, 34, 0] = 2 ∧
    scan_string (List.drop 1 [34, 92, 0, 34, 0]) = 2 ∧
    lexer_next (lexer_init [34, 92, 0, 34, 0]) = ⟨.TT_STRING, [34, 92, 0, 34, 0], 0, 4⟩ ∧
    ¬ (lexer_next (lexer_init [34, 92, 0, 34, 0])).end_ ≤ strlen [34, 92, 0, 34, 0] ∧
    strlen [34, 92, 0] = 2 ∧
    scan_string (List.drop 1 [34, 92, 0]) = 2 ∧
    lexer_next (lexer_init [34, 92, 0]) = ⟨.TT_ERR, [34, 92, 0], 0, 0⟩ := by
  decide!

/-! ## The printer buffer: length against capacity -/

/-- The function `printer_ensure` returns, with a capacity of at least the one
asked for (not of more: the test is `cap <= capacity`, the loop runs while
`newcap < capacity`). -/
theorem printer_ensure_ge (p : printer_t) (n : Nat) (hp : 2 ≤ p.cap) :
    ∃ c, printer_ensure p n = some { p with cap := c } ∧ 2 ≤ c ∧ n ≤ c := by
  unfold printer_ensure
  by_cases hle : p.cap ≤ n
  · rw [if_pos hle]
    obtain ⟨r, hr, h1, h2⟩ := grow_loop_some n p.cap n hp (by omega)
    rw [hr]
    exact ⟨r, rfl, by omega, h1⟩
  · rw [if_neg hle]
    exact ⟨p.cap, rfl, hp, by omega⟩

/-- The function `printer_append_lpstring` leaves `len <= cap`: it asks
`printer_ensure` for `p->len + len` bytes. -/
theorem printer_append_lpstring_le (p : printer_t) (str : List Nat) (n : Nat) (hp : 2 ≤ p.cap) :
    ∃ p1, printer_append_lpstring p str n = some p1 ∧ 2 ≤ p1.cap ∧ p1.len ≤ p1.cap ∧
      p1.len = p.len + n := by
  obtain ⟨c, hc, h2, hn⟩ := printer_ensure_ge p (p.len + n) hp
  exact ⟨_, by simp only [printer_append_lpstring, hc]; rfl, h2, hn, rfl⟩

/-- The function `printer_append_char` asks `printer_ensure` for `len` bytes
only: it leaves `len <= cap + 1`, and `len <= cap` when it was called with
`len < cap`. -/
theorem printer_append_char_le (p : printer_t) (ch : Nat) (hp : 2 ≤ p.cap) :
    ∃ p1, printer_append_char p ch = some p1 ∧ 2 ≤ p1.cap ∧ p1.len ≤ p1.cap + 1 ∧
      p1.len = p.len + 1 ∧ (p.len < p.cap → p1.len ≤ p1.cap) := by
  obtain ⟨c, hc, h2, hn⟩ := printer_ensure_ge p p.len hp
  refine ⟨_, by simp only [printer_append_char, hc]; rfl, h2, ?_, rfl, ?_⟩
  · simp only
    omega
  · intro hlt
    have hcap : c = p.cap := by
      have h := hc
      unfold printer_ensure at h
      rw [if_neg (by omega)] at h
      simp only [Option.some.injEq] at h
      have := congrArg printer_t.cap h
      simpa using this.symm
    simp only
    omega

/-- Every sequence of appends on a new printer returns, and leaves
`len <= cap + 1`. -/
theorem printer_calls_le (cs : List printer_call) :
    ∀ p : printer_t, 2 ≤ p.cap → p.len ≤ p.cap + 1 →
      ∃ p1, printer_calls p cs = some p1 ∧ 2 ≤ p1.cap ∧ p1.len ≤ p1.cap + 1 := by
  induction cs with
  | nil =>
    intro p hp hl
    exact ⟨p, rfl, hp, hl⟩
  | cons c cs ih =>
    intro p hp hl
    cases c with
    | append_char ch =>
      obtain ⟨p1, h1, h2, h3, _⟩ := printer_append_char_le p ch hp
      obtain ⟨p2, h4, h5, h6⟩ := ih p1 h2 h3
      exact ⟨p2, by simp only [printer_calls, h1, h4], h5, h6⟩
    | append_lpstring str n =>
      obtain ⟨p1, h1, h2, h3, _⟩ := printer_append_lpstring_le p str n hp
      obtain ⟨p2, h4, h5, h6⟩ := ih p1 h2 (by omega)
      exact ⟨p2, by simp only [printer_calls, h1, h4], h5, h6⟩

/-- C23, the code at the failing input, 65 calls of `printer_append_char` on a
new printer (`len` 0, `cap` 64): after 64 of them `len` is 64 and `cap` is 64;
the next call asks `printer_ensure` for 64 bytes, which leaves `cap` at 64,
stores its byte at index 64, which is not below the capacity, and leaves `len`
at 65 with `cap` 64. The same state is reached by printing a String of 63
ordinary bytes: the closing quote is the 65th byte. A call of
`printer_append_lpstring` in the state `len` 64, `cap` 64 grows the buffer
first (to 96 for one byte, bytes up to index 65 below it). -/
theorem printer_len_exceeds_cap :
    printer_new = ⟨0, 64, []⟩ ∧
    printer_calls printer_new (List.replicate 64 (printer_call.append_char 97))
      = some ⟨64, 64, List.replicate 64 97⟩ ∧
    printer_ensure ⟨64, 64, List.replicate 64 97⟩ 64 = some ⟨64, 64, List.replicate 64 97⟩ ∧
    printer_append_char_store ⟨64, 64, List.replicate 64 97⟩ = some (64, 64) ∧
    printer_calls printer_new (List.replicate 65 (printer_call.append_char 97))
      = some ⟨65, 64, List.replicate 65 97⟩ ∧
    ¬ (65 : Nat) ≤ 64 ∧
    printer_append_sexp lg_digits printer_new (Sexp.string 63 (List.replicate 63 97 ++ [0]))
      = some ⟨65, 64, 34 :: (List.replicate 63 97 ++ [34])⟩ ∧
    printer_append_lpstring_store ⟨64, 64, List.replicate 64 97⟩ 1 = some (65, 96) := by
  decide!

/-! ## Printing again what was read -/

theorem lexer_scan_string_pieces (ps : List Piece) (rest : List Nat)
    (hwf : ∀ p ∈ ps, Piece.well_formed p) :
    lexer_scan (34 :: (body_source ps ++ 34 :: rest))
      = some (.TT_STRING, 0, (body_source ps).length + 2) := by
  have hrun := scan_string_body ps rest hwf
  have e0 := lexer_skip_blank (34 :: (body_source ps ++ 34 :: rest)).length []
    (34 :: (body_source ps ++ 34 :: rest)) (Or.inl rfl) rfl (by simp [peek])
  simp only [List.nil_append, List.length_nil] at e0
  unfold lexer_scan
  simp only [e0, List.drop_zero, peek_cons, Nat.zero_add, List.drop_succ_cons, hrun]
  have e2 : List.drop (1 + (body_source ps).length) (34 :: (body_source ps ++ 34 :: rest))
      = 34 :: rest := by
    rw [Nat.add_comm, List.drop_succ_cons, List.drop_left]
  simp only [e2, peek_cons]
  simp
  omega

/-- The lexer at a string literal with a body of well-formed pieces. -/
theorem lexer_next_string_pieces (lexp : lexer) (ws : List Nat) (ps : List Piece)
    (rest : List Nat) (hws : ws = [] ∨ ws = [32])
    (h : lexp.src.drop lexp.end_ = ws ++ (34 :: (body_source ps ++ 34 :: rest)))
    (hwf : ∀ p ∈ ps, Piece.well_formed p) :
    lexer_next lexp = ⟨.TT_STRING, lexp.src, lexp.end_ + ws.length,
      lexp.end_ + ws.length + ((body_source ps).length + 2)⟩ :=
  lexer_next_blank lexp ws _ _ 0 _ hws h rfl (by simp [peek])
    (lexer_scan_string_pieces ps rest hwf)

/-- A byte string without a backslash is rereadable. -/
theorem string_rereadable_of_no_backslash (b : List Nat) (hb : 92 ∉ b) :
    string_rereadable b := by
  induction b with
  | nil => exact ⟨[], by simp, rfl, rfl⟩
  | cons c cs ih =>
    have hc : c ≠ 92 := fun e => hb (by simp [e])
    obtain ⟨ps, h1, h2, h3⟩ := ih (fun hm => hb (by simp [hm]))
    rcases escape_byte_cases c hc with ⟨x, hx, hu⟩ | ⟨hx, c0, c10, c34⟩
    · have hx0 : x ≠ 0 := by
        intro e
        subst e
        have hc0 : c = 0 := by rw [← hu]; rfl
        subst hc0
        exact absurd hx (by decide)
      refine ⟨Piece.pair x :: ps, ?_, ?_, ?_⟩
      · intro p hp
        rcases List.mem_cons.mp hp with rfl | hp
        · exact hx0
        · exact h1 p hp
      · simp [body_source, Piece.source, escape, hx, h2]
      · simp only [body_decoded, decoded_pair, hu, h3]
    · refine ⟨Piece.byte c :: ps, ?_, ?_, ?_⟩
      · intro p hp
        rcases List.mem_cons.mp hp with rfl | hp
        · exact ⟨c34, c10, c0, hc⟩
        · exact h1 p hp
      · simp [body_source, Piece.source, escape, hx, h2]
      · simp only [body_decoded, Piece.decoded, h3]

/-- A printed rereadable string is read back. -/
theorem reads_back_string_pieces {α : Type} (strtod : List Nat → α × Nat) (lg : α → List Nat)
    (b : List Nat) (hb : string_rereadable b) : reads_back strtod lg (Value.string b) := by
  obtain ⟨ps, hwf, hsrc, hdec⟩ := hb
  intro lexp ws rest hws _ hsz hd
  simp only [Value.text] at hd ⊢
  have hd1 : lexp.src.drop lexp.end_ = ws ++ (34 :: (body_source ps ++ 34 :: rest)) := by
    rw [hsrc]
    simpa using hd
  have hlt : (body_source ps).length < 2147483648 := by
    have := congrArg List.length hd1
    simp only [List.length_drop, List.length_append, List.length_cons] at this
    omega
  have hl := lexer_next_string_pieces lexp ws ps rest hws hd1 hwf
  have hstart := drop_add_of_eq _ _ _ _ hd1
  have hs := @sexp_read_string_body α (lexer_next lexp) ps rest (by rw [hl]) (by rw [hl])
    (by rw [hl]; exact hstart) hwf hlt
  have hlen : ps.length = b.length := by rw [← hdec, body_decoded_length]
  refine ⟨1, Sexp.string ps.length (body_decoded ps ++ [0]), lexer_next lexp, ?_, ?_,
    lexer_next_src _, ?_⟩
  · unfold sexp_read_any
    rw [show (lexer_next lexp).type = .TT_STRING by rw [hl]]
    exact hs
  · simp only [Sexp.value]
    rw [hdec, hlen, mem_take_append_self]
  · rw [hl, ← hsrc]
    simp only [List.length_cons, List.length_append, List.length_nil]

mutual
/-- A readable value is rereadable. -/
theorem rereadable_of_readable {α : Type} (strtod : List Nat → α × Nat) (lg : α → List Nat) :
    (v : Value α) → Value.readable strtod lg v → Value.rereadable strtod lg v
  | .string b => fun h => by
    simp only [Value.readable] at h
    simpa [Value.rereadable] using string_rereadable_of_no_backslash b h
  | .symbol b => fun h => by simpa [Value.readable, Value.rereadable] using h
  | .number x => fun h => by simpa [Value.readable, Value.rereadable] using h
  | .list vs => fun h => by
    simp only [Value.readable] at h
    simpa [Value.rereadable] using all_rereadable_of_readable strtod lg vs h
/-- A list of readable values is a list of rereadable values. -/
theorem all_rereadable_of_readable {α : Type} (strtod : List Nat → α × Nat)
    (lg : α → List Nat) :
    (vs : List (Value α)) → Value.all_readable strtod lg vs → Value.all_rereadable strtod lg vs
  | [] => fun _ => trivial
  | v :: vs => fun h => by
    simp only [Value.all_readable] at h
    exact ⟨rereadable_of_readable strtod lg v h.1, all_rereadable_of_readable strtod lg vs h.2⟩
end

mutual
/-- Every rereadable value is read back from its text. -/
theorem reads_back_of_rereadable {α : Type} (strtod : List Nat → α × Nat) (lg : α → List Nat) :
    (v : Value α) → Value.rereadable strtod lg v → reads_back strtod lg v
  | .string b => fun h =>
    reads_back_string_pieces strtod lg b (by simpa [Value.rereadable] using h)
  | .symbol b => fun h => reads_back_symbol strtod lg b (by simpa [Value.rereadable] using h)
  | .number x => fun h => reads_back_number strtod lg x (by simpa [Value.rereadable] using h)
  | .list vs => fun h =>
    reads_back_list strtod lg vs
      (reads_back_items_of_rereadable strtod lg vs (by simpa [Value.rereadable] using h))
/-- The items of a list of rereadable values are read back from their text. -/
theorem reads_back_items_of_rereadable {α : Type} (strtod : List Nat → α × Nat)
    (lg : α → List Nat) :
    (vs : List (Value α)) → Value.all_rereadable strtod lg vs → reads_back_items strtod lg vs
  | [] => fun _ => reads_back_items_nil strtod lg
  | v :: vs => fun h =>
    reads_back_items_cons strtod lg v vs
      (reads_back_of_rereadable strtod lg v (by simp only [Value.all_rereadable] at h; exact h.1))
      (reads_back_items_of_rereadable strtod lg vs
        (by simp only [Value.all_rereadable] at h; exact h.2))
end

/-- A readable value is reprintable. -/
theorem reprintable_of_readable {α : Type} (strtod : List Nat → α × Nat) (lg : α → List Nat)
    (v : Value α) (h : Value.readable strtod lg v) : Value.reprintable strtod lg v :=
  ⟨v, rereadable_of_readable strtod lg v h, rfl⟩

/-- What `parse_pieces` returns is a body of well-formed pieces with the parsed
bytes as its source. -/
theorem parse_pieces_spec : ∀ (n : Nat) (t : List Nat), t.length ≤ n →
    ∀ ps, parse_pieces t = some ps → (∀ p ∈ ps, Piece.well_formed p) ∧ body_source ps = t := by
  intro n
  induction n with
  | zero =>
    intro t ht ps h
    have : t = [] := List.length_eq_zero.mp (by omega)
    subst this
    simp only [parse_pieces, Option.some.injEq] at h
    subst h
    exact ⟨by simp, rfl⟩
  | succ n ih =>
    intro t ht ps h
    match t, ht, h with
    | [], _, h =>
      simp only [parse_pieces, Option.some.injEq] at h
      subst h
      exact ⟨by simp, rfl⟩
    | [c], _, h =>
      simp only [parse_pieces] at h
      split at h
      · simp at h
      · rename_i hc
        simp only [Option.some.injEq] at h
        subst h
        simp only [not_or] at hc
        refine ⟨?_, by simp [body_source, Piece.source]⟩
        intro p hp
        rw [List.mem_singleton.mp hp]
        exact ⟨hc.2.1, hc.2.2.1, hc.2.2.2, hc.1⟩
    | c :: x :: t, ht, h =>
      simp only [List.length_cons] at ht
      simp only [parse_pieces] at h
      by_cases hc : c = 92
      · subst hc
        simp only [if_true] at h
        by_cases hx : x = 0
        · simp [hx] at h
        · simp only [hx, if_false] at h
          cases hp : parse_pieces t with
          | none => rw [hp] at h; simp at h
          | some qs =>
            rw [hp] at h
            simp only [Option.some.injEq] at h
            subst h
            obtain ⟨h1, h2⟩ := ih t (by omega) qs hp
            refine ⟨?_, by simp [body_source, Piece.source, h2]⟩
            intro p hp
            rcases List.mem_cons.mp hp with rfl | hp
            · exact hx
            · exact h1 p hp
      · simp only [hc, if_false] at h
        by_cases hs : c = 34 ∨ c = 10 ∨ c = 0
        · simp [hs] at h
        · simp only [hs, if_false] at h
          cases hp : parse_pieces (x :: t) with
          | none => rw [hp] at h; simp at h
          | some qs =>
            rw [hp] at h
            simp only [Option.some.injEq] at h
            subst h
            obtain ⟨h1, h2⟩ := ih (x :: t) (by simp only [List.length_cons]; omega) qs hp
            simp only [not_or] at hs
            refine ⟨?_, by simp [body_source, Piece.source, h2]⟩
            intro p hp
            rcases List.mem_cons.mp hp with rfl | hp
            · exact ⟨hs.1, hs.2.1, hs.2.2, hc⟩
            · exact h1 p hp

/-- A string that `string_reprints` accepts is printed as a rereadable string
is. -/
theorem reprintable_of_string_reprints {α : Type} (strtod : List Nat → α × Nat)
    (lg : α → List Nat) (b : List Nat) (h : string_reprints b = true) :
    Value.reprintable strtod lg (Value.string b) := by
  unfold string_reprints at h
  cases hp : parse_pieces (escape b) with
  | none => rw [hp] at h; simp at h
  | some ps =>
    rw [hp] at h
    have he : escape (body_decoded ps) = escape b := by simpa using h
    obtain ⟨h1, h2⟩ := parse_pieces_spec _ _ (le_refl _) ps hp
    refine ⟨Value.string (body_decoded ps), ?_, by simp [Value.text, he]⟩
    simp only [Value.rereadable]
    exact ⟨ps, h1, by rw [h2, he], rfl⟩

mutual
/-- A stable value is reprintable: its text is the text of a rereadable value. -/
theorem reprintable_of_stable {α : Type} (strtod : List Nat → α × Nat) (lg : α → List Nat) :
    (v : Value α) → Value.stable strtod lg v → Value.reprintable strtod lg v
  | .string b => fun h => by
    simp only [Value.stable] at h
    exact reprintable_of_string_reprints strtod lg b h
  | .symbol b => fun h => by
    simp only [Value.stable, symbol_reprintable] at h
    rcases h with h | ⟨w, hw1, hw2⟩
    · exact ⟨.symbol b, by simpa [Value.rereadable] using h, rfl⟩
    · exact ⟨.number w, by simpa [Value.rereadable] using hw2, by simp [Value.text, hw1]⟩
  | .number x => fun h => by
    simp only [Value.stable, number_reprintable] at h
    obtain ⟨w, hw1, hw2⟩ := h
    exact ⟨.number w, by simpa [Value.rereadable] using hw2, by simp [Value.text, hw1]⟩
  | .list vs => fun h => by
    simp only [Value.stable] at h
    obtain ⟨ws, h1, h2, _⟩ := reprintable_items_of_stable strtod lg vs h
    exact ⟨.list ws, by simpa [Value.rereadable] using h1, by simp [Value.text, h2]⟩
/-- The texts of a list of stable values are the texts of a list of rereadable
values. -/
theorem reprintable_items_of_stable {α : Type} (strtod : List Nat → α × Nat)
    (lg : α → List Nat) :
    (vs : List (Value α)) → Value.all_stable strtod lg vs →
      ∃ ws, Value.all_rereadable strtod lg ws ∧ Value.texts lg ws = Value.texts lg vs ∧
        Value.texts_more lg ws = Value.texts_more lg vs
  | [] => fun _ => ⟨[], trivial, rfl, rfl⟩
  | v :: vs => fun h => by
    simp only [Value.all_stable] at h
    obtain ⟨w, hw1, hw2⟩ := reprintable_of_stable strtod lg v h.1
    obtain ⟨ws, h1, _, h3⟩ := reprintable_items_of_stable strtod lg vs h.2
    exact ⟨w :: ws, ⟨hw1, h1⟩, by simp [Value.texts, hw2, h3], by simp [Value.texts_more, hw2, h3]⟩
end

/-- The strings that are printed again, on examples: a backslash before `n`,
before `?` and before a single quote is; a backslash before `z`, before a
double quote, before another backslash and a lone backslash are not. -/
theorem string_reprints_examples :
    string_reprints [97, 0, 34, 10] = true ∧ string_reprints [92, 110] = true ∧
    string_reprints [92, 116, 92, 114, 92, 102, 92, 98, 92, 97, 92, 118, 92, 48] = true ∧
    string_reprints [92, 63] = true ∧ string_reprints [92, 39] = true ∧
    string_reprints [92, 63, 120, 92, 110] = true ∧
    string_reprints [92, 122] = false ∧ string_reprints [92, 34] = false ∧
    string_reprints [92, 92] = false ∧ string_reprints [92] = false := by
  decide

end SexpC
